import Mathlib

/-!
# Thread-caching fixed-size object pool (`src/coding/pool.c`)

A shallow embedding of the allocator of `pool.c` and a verification of its
contract.

Conventions of the embedding.

* A slot is its address, a `Nat`; `NULL` is `0`.
* The pool free list (`free_head` and the `next` word overlaid on each free
  slot) is the list of slot addresses met when following `next` from
  `free_head` until `NULL`.  Linking a chain `c` in front of the list is
  `c ++ free_head`; popping the head is taking the tail.  This reading of the
  link writes is exact as long as the linked slots are pairwise distinct and
  not already linked, which is the no-double-issue invariant proved below.
* `objects[LOCAL_CACHE_CAPACITY]` is a function from index to slot address,
  `count` is a C `int` and is kept as an `Int`; an index expression `e` of type
  `int` is read as `e.toNat`.
* The thread-local pointer `t_cache` is an `Option thread_cache_t`
  (`none` is `NULL`).  `t_cache->global` is passed to every function as the
  pool it points to.
* Locks, the condition variable and the broadcast carry no data.  Every
  operation touches the shared pool inside one critical section, so an
  operation is one atomic step on the pool.  A blocked `pthread_cond_wait` is
  modelled by the list `wakes` of pool states that the caller finds each time
  it re-acquires the pool lock after a wake-up; when that list runs out the
  call is still blocked and the function yields `none`.
* The two tuning macros are parameters `cap` (`LOCAL_CACHE_CAPACITY`) and
  `bs` (`BATCH_SIZE`) of the functions; the values of the source are the
  constants below.
-/

namespace Pool

/-! ## Configuration macros -/

/-- Macro `#define OBJECT_SIZE 2048`. -/
def OBJECT_SIZE : Nat := 2048

/-- Macro `#define LOCAL_CACHE_CAPACITY 512`. -/
def LOCAL_CACHE_CAPACITY : Nat := 512

/-- Macro `#define BATCH_SIZE 32`. -/
def BATCH_SIZE : Nat := 32

/-- Macro `#define CACHE_LINE 64`. -/
def CACHE_LINE : Nat := 64

/-- Macro `#define ALIGN_UP(x, a) (((x) + ((a) - 1)) & ~((a) - 1))` on `size_t`
(64 bits): `~y` is `2^64 - 1 - y`. -/
def ALIGN_UP (x a : Nat) : Nat :=
  Nat.land ((x + (a - 1)) % 2 ^ 64) (2 ^ 64 - 1 - (a - 1) % 2 ^ 64)

/-! ## Data structures -/

/-- Struct `global_pool_t`: the free list, the waiter count and the mapping. -/
structure global_pool_t where
  free_head : List Nat
  waiters : Int
  mmap_base : Nat
  mmap_size : Nat
deriving DecidableEq

/-- Struct `thread_cache_t`; `global` is the address of the pool it is bound to. -/
structure thread_cache_t where
  objects : Nat → Nat
  count : Int
  global : Nat
  alloc_cnt : Int
  free_cnt : Int
  wait_cnt : Int

/-! ## Flush / refill -/

/-- The chain built by the linking loop
`head = objects[start]; for (i = 1; i < n; i++) cur->next = objects[start + i]`:
the slots `objects[start], ..., objects[start + n - 1]` in that order
(only `objects[start]` when `n <= 1`). -/
def link_chain (objects : Nat → Nat) (start n : Int) : List Nat :=
  objects start.toNat ::
    (List.range (n.toNat - 1)).map (fun i => objects (start + ((i : Nat) + 1 : Nat)).toNat)

/-- Function `cache_flush`, for a non-null `t_cache = tc` bound to `pool`.  The
free list is read as the list of its nodes, which is what the relinking of the
source builds when the flushed slots are non-null, pairwise distinct and not on
the free list. -/
def cache_flush (cap : Nat) (pool : global_pool_t) (tc : thread_cache_t) :
    global_pool_t × thread_cache_t :=
  let target : Int := ((cap / 2 : Nat) : Int)
  let n : Int := tc.count - target
  if n ≤ 0 then (pool, tc)
  else
    let start : Int := tc.count - n
    let chain := link_chain tc.objects start n
    ({ pool with free_head := chain ++ pool.free_head }, { tc with count := target })

/-- The waiting loop of `cache_refill`:
`while (pool->free_head == NULL) { unlock; wait_cnt++; ...cond_wait...; lock; }`.
`wakes` lists the pool states found on re-acquiring the lock after each
wake-up; with no wake-up left the caller is still blocked (`none`). -/
def cache_refill_wait :
    List global_pool_t → global_pool_t → thread_cache_t → Option (global_pool_t × thread_cache_t)
  | wakes, pool, tc =>
    if pool.free_head = [] then
      match wakes with
      | [] => none
      | p :: ws => cache_refill_wait ws p { tc with wait_cnt := tc.wait_cnt + 1 }
    else some (pool, tc)

/-- The fetch loop of `cache_refill`:
`while (fetched < BATCH_SIZE && pool->free_head) { pop; objects[count++] = n; fetched++; }`
with `k = BATCH_SIZE - fetched` iterations still allowed. -/
def cache_refill_fetch : Nat → global_pool_t → thread_cache_t → global_pool_t × thread_cache_t
  | 0, pool, tc => (pool, tc)
  | k + 1, pool, tc =>
    match pool.free_head with
    | [] => (pool, tc)
    | n :: rest =>
      cache_refill_fetch k { pool with free_head := rest }
        { tc with objects := Function.update tc.objects tc.count.toNat n, count := tc.count + 1 }

/-- Function `cache_refill`: wait until the free list is seen non-empty, then fetch. -/
def cache_refill (bs : Nat) (wakes : List global_pool_t) (pool : global_pool_t)
    (tc : thread_cache_t) : Option (global_pool_t × thread_cache_t) :=
  match cache_refill_wait wakes pool tc with
  | none => none
  | some (pool1, tc1) => some (cache_refill_fetch bs pool1 tc1)

/-! ## Thread life cycle -/

/-- Function `mp_thread_init(global)`: `calloc`s a zeroed cache when `t_cache` is `NULL`. -/
def mp_thread_init (t_cache : Option thread_cache_t) (global : Nat) : Option thread_cache_t :=
  match t_cache with
  | some tc => some tc
  | none =>
    some { objects := fun _ => 0, count := 0, global := global,
           alloc_cnt := 0, free_cnt := 0, wait_cnt := 0 }

/-- Function `thread_cleanup_handler(arg)`: returns the pool after the splice and the
new value of `t_cache` (always `NULL`).  The free list is read as the list of
its nodes, which is what the relinking of the source builds when the cached
slots are non-null, pairwise distinct and not on the free list;
`thread_cleanup_handler_mem` below does the relinking on the memory. -/
def thread_cleanup_handler (pool : global_pool_t) (arg : Option thread_cache_t) :
    global_pool_t × Option thread_cache_t :=
  match arg with
  | none => (pool, none)
  | some tc =>
    if tc.count = 0 then (pool, none)
    else
      let chain := link_chain tc.objects 0 tc.count
      ({ pool with free_head := chain ++ pool.free_head }, none)

/-! ## Pool API -/

/-- The initialisation loop of `mp_pool_create`:
`for (i = 0; i < count; i++) { n = p; n->next = free_head; free_head = n; p += obj_sz; }`
with `k = count - i` iterations left. -/
def mp_pool_create_loop (obj_sz : Nat) : Nat → Nat → List Nat → List Nat
  | 0, _, free_head => free_head
  | k + 1, p, free_head => mp_pool_create_loop obj_sz k (p + obj_sz) (p :: free_head)

/-- Function `mp_pool_create(count)`; `mmap_result` is what `mmap` returns
(`none` is `MAP_FAILED`, on which the process exits). -/
def mp_pool_create (count : Int) (mmap_result : Option Nat) : Option global_pool_t :=
  let obj_sz := ALIGN_UP OBJECT_SIZE CACHE_LINE
  let total := (obj_sz * (count % 2 ^ 64).toNat) % 2 ^ 64
  match mmap_result with
  | none => none
  | some base =>
    some { free_head := mp_pool_create_loop obj_sz count.toNat base [],
           waiters := 0, mmap_base := base, mmap_size := total }

/-- Function `mp_alloc`, for a thread whose `t_cache = tc` is non-null (the assertion
on entry).  The result is the returned pointer, the pool and the cache;
`none` when the call is still blocked in `cache_refill`. -/
def mp_alloc (bs : Nat) (wakes : List global_pool_t) (pool : global_pool_t)
    (tc : thread_cache_t) : Option (Nat × global_pool_t × thread_cache_t) :=
  if 0 < tc.count then
    let tc1 := { tc with alloc_cnt := tc.alloc_cnt + 1 }
    some (tc1.objects (tc1.count - 1).toNat, pool, { tc1 with count := tc1.count - 1 })
  else
    match cache_refill bs wakes pool tc with
    | none => none
    | some (pool1, tc1) =>
      let tc2 := { tc1 with alloc_cnt := tc1.alloc_cnt + 1 }
      if 0 < tc2.count then
        some (tc2.objects (tc2.count - 1).toNat, pool1, { tc2 with count := tc2.count - 1 })
      else some (0, pool1, tc2)

/-- Function `mp_free(ptr)`.  `none` is the failed assertion `t_cache != NULL`. -/
def mp_free (cap : Nat) (pool : global_pool_t) (t_cache : Option thread_cache_t) (ptr : Nat) :
    Option (global_pool_t × Option thread_cache_t) :=
  if ptr = 0 then some (pool, t_cache)
  else
    match t_cache with
    | none => none
    | some tc =>
      let tc1 := { tc with free_cnt := tc.free_cnt + 1 }
      if tc1.count < (cap : Int) then
        some (pool, some { tc1 with objects := Function.update tc1.objects tc1.count.toNat ptr,
                                    count := tc1.count + 1 })
      else
        let (pool2, tc2) := cache_flush cap pool tc1
        some (pool2, some { tc2 with objects := Function.update tc2.objects tc2.count.toNat ptr,
                                     count := tc2.count + 1 })

/-! ## The allocator as a transition system

The state seen between calls: the pool, the `t_cache` of every thread and the
slots that callers currently hold. -/

/-- The entries `objects[0 .. count-1]` of a cache, oldest first. -/
def live (tc : thread_cache_t) : List Nat :=
  (List.range tc.count.toNat).map tc.objects

/-- The slots cached by one thread (none when `t_cache` is `NULL`). -/
def cache_slots : Option thread_cache_t → List Nat
  | none => []
  | some tc => live tc

/-- The `count` field of one thread's cache (`0` when `t_cache` is `NULL`). -/
def cache_count : Option thread_cache_t → Int
  | none => 0
  | some tc => tc.count

/-- The slots cached by all threads. -/
def cached_slots : List (Option thread_cache_t) → List Nat
  | [] => []
  | c :: cs => cache_slots c ++ cached_slots cs

/-- The sum of the `count` fields of all thread caches. -/
def cached_count : List (Option thread_cache_t) → Int
  | [] => 0
  | c :: cs => cache_count c + cached_count cs

/-- State of the allocator at a quiescent point.  `pool_ptr` is the address of
the pool object, `caches[t]` is the `t_cache` of thread `t`. -/
structure sys_state where
  pool_ptr : Nat
  pool : global_pool_t
  caches : List (Option thread_cache_t)
  held : List Nat

/-- Free list, then all caches, then the held slots. -/
def all_slots (s : sys_state) : List Nat :=
  s.pool.free_head ++ (cached_slots s.caches ++ s.held)

/-- The calls a thread `t` can complete.  `wait` is one turn of the waiting
loop of a blocked `cache_refill`; `refill` and `flush` are the two internal
transfers on their own, so that the state between a transfer and the rest of
the call that triggered it is a state of the system too. -/
inductive op where
  | thread_init (t : Nat)
  | alloc (t : Nat)
  | free (t : Nat) (p : Nat)
  | wait (t : Nat)
  | refill (t : Nat)
  | flush (t : Nat)
  | cleanup (t : Nat)
deriving DecidableEq

/-- One completed call.  `none`: the call is not possible in this state (no
such thread, the assertion `t_cache != NULL` fails, the caller does not hold
the slot it frees) or it does not complete (the allocation blocks). -/
def step (cap bs : Nat) (s : sys_state) : op → Option sys_state
  | .thread_init t =>
    match s.caches[t]? with
    | none => none
    | some c => some { s with caches := s.caches.set t (mp_thread_init c s.pool_ptr) }
  | .alloc t =>
    match s.caches[t]? with
    | some (some tc) =>
      match mp_alloc bs [] s.pool tc with
      | none => none
      | some (r, pool1, tc1) =>
        some { s with pool := pool1, caches := s.caches.set t (some tc1), held := r :: s.held }
    | _ => none
  | .free t p =>
    match s.caches[t]? with
    | none => none
    | some c =>
      if p = 0 ∨ p ∈ s.held then
        match mp_free cap s.pool c p with
        | none => none
        | some (pool1, c1) =>
          some { s with pool := pool1, caches := s.caches.set t c1,
                        held := if p = 0 then s.held else s.held.erase p }
      else none
  | .wait t =>
    match s.caches[t]? with
    | some (some tc) =>
      if ¬ 0 < tc.count ∧ s.pool.free_head = [] then
        some { s with caches := s.caches.set t (some { tc with wait_cnt := tc.wait_cnt + 1 }) }
      else none
    | _ => none
  | .refill t =>
    match s.caches[t]? with
    | some (some tc) =>
      if ¬ 0 < tc.count then
        match cache_refill bs [] s.pool tc with
        | none => none
        | some (pool1, tc1) => some { s with pool := pool1, caches := s.caches.set t (some tc1) }
      else none
    | _ => none
  | .flush t =>
    match s.caches[t]? with
    | some (some tc) =>
      let (pool1, tc1) := cache_flush cap s.pool tc
      some { s with pool := pool1, caches := s.caches.set t (some tc1) }
    | _ => none
  | .cleanup t =>
    match s.caches[t]? with
    | none => none
    | some c =>
      let (pool1, c1) := thread_cleanup_handler s.pool c
      some { s with pool := pool1, caches := s.caches.set t c1 }

/-- A sequence of completed calls. -/
def run (cap bs : Nat) : sys_state → List op → Option sys_state
  | s, [] => some s
  | s, o :: os =>
    match step cap bs s o with
    | none => none
    | some s1 => run cap bs s1 os

/-- The system right after `mp_pool_create(capacity)`: `nthreads` threads, none
of them initialised, nothing held. -/
def sys_init (capacity : Int) (mmap_result : Option Nat) (pool_ptr nthreads : Nat) :
    Option sys_state :=
  match mp_pool_create capacity mmap_result with
  | none => none
  | some pool =>
    some { pool_ptr := pool_ptr, pool := pool, caches := List.replicate nthreads none, held := [] }

/-! ## One thread cache under an arbitrary environment

The calls of one thread on its own cache.  Other threads change the pool
between (and, for a blocked allocation, during) the calls, so every call
carries the pool state it finds. -/

/-- A call of the owning thread: the two API calls and the two transfers they
trigger, each with the pool it finds (`wakes` as in `cache_refill_wait`). -/
inductive cache_call where
  | alloc (wakes : List global_pool_t) (pool : global_pool_t)
  | free (pool : global_pool_t) (ptr : Nat)
  | refill (wakes : List global_pool_t) (pool : global_pool_t)
  | flush (pool : global_pool_t)

/-- The cache after one completed call.  `refill` is taken where the source
calls it, in the branch `!(count > 0)` of `mp_alloc`. -/
def cache_step (cap bs : Nat) (tc : thread_cache_t) : cache_call → Option thread_cache_t
  | .alloc wakes pool =>
    match mp_alloc bs wakes pool tc with
    | none => none
    | some (_, _, tc1) => some tc1
  | .free pool ptr =>
    match mp_free cap pool (some tc) ptr with
    | some (_, some tc1) => some tc1
    | _ => none
  | .refill wakes pool =>
    if ¬ 0 < tc.count then
      match cache_refill bs wakes pool tc with
      | none => none
      | some (_, tc1) => some tc1
    else none
  | .flush pool => some (cache_flush cap pool tc).2

/-- A sequence of completed calls on one cache. -/
def cache_run (cap bs : Nat) : thread_cache_t → List cache_call → Option thread_cache_t
  | tc, [] => some tc
  | tc, c :: cs =>
    match cache_step cap bs tc c with
    | none => none
    | some tc1 => cache_run cap bs tc1 cs

/-! ## Sample values -/

/-- A pool with three free slots of 2048 bytes. -/
def pool3 : global_pool_t :=
  { free_head := [8192, 6144, 4096], waiters := 0, mmap_base := 4096, mmap_size := 6144 }

/-- A pool whose free list is empty. -/
def pool0 : global_pool_t :=
  { free_head := [], waiters := 0, mmap_base := 4096, mmap_size := 2048 * 1024 }

/-- The cache `calloc`ed by `mp_thread_init`. -/
def cache0 : thread_cache_t :=
  { objects := fun _ => 0, count := 0, global := 64, alloc_cnt := 0, free_cnt := 0, wait_cnt := 0 }

/-- A full cache: `objects[i]` is slot number `i`, `count = 512`. -/
def cache512 : thread_cache_t :=
  { objects := fun i => 4096 + 2048 * i, count := 512, global := 64,
    alloc_cnt := 0, free_cnt := 512, wait_cnt := 0 }

/-- A cache holding two slots. -/
def cache2 : thread_cache_t :=
  { objects := fun i => 4096 + 2048 * i, count := 2, global := 64,
    alloc_cnt := 0, free_cnt := 2, wait_cnt := 0 }

/-- The scenario of the specification: one thread A (thread `0`), a pool at
`pool_ptr = 64` over a mapping of four slots at `b`, with the given free list,
`t_cache` of A and held slots. -/
def scenario_state (b : Nat) (free : List Nat) (c : Option thread_cache_t) (held : List Nat) :
    sys_state :=
  { pool_ptr := 64, pool := { free_head := free, waiters := 0, mmap_base := b, mmap_size := 8192 },
    caches := [c], held := held }

/-- The array `objects` after a refill of the slots `x`, `y` into an empty
cache whose array was `f`. -/
def scenario_objects (f : Nat → Nat) (x y : Nat) : Nat → Nat :=
  Function.update (Function.update f 0 x) 1 y

/-- Every existing thread cache has `0 <= count <= cap`. -/
def bounded (cap : Nat) (caches : List (Option thread_cache_t)) : Prop :=
  ∀ tc, some tc ∈ caches → 0 ≤ tc.count ∧ tc.count ≤ (cap : Int)

/-! ## Two threads racing on the wait channel

A small-step reading of `cache_refill` and `cache_flush`: a thread moves by one
atomic action at a time (a critical section of the pool lock or of `wait_lock`
is one action), and a schedule fixes the order of the moves.
`pthread_cond_wait` returns only after a broadcast. -/

/-- Where a thread stands inside `cache_refill` (called by `mp_alloc` on an
empty cache) or `cache_flush` (called by `mp_free` on a full cache).  Each
value names the next atomic action of the thread; the critical sections of the
pool lock and of `wait_lock` are atomic. -/
inductive pc_t where
  /-- About to take the pool lock and test `pool->free_head == NULL`
  (lines 167-169, or 180 and 169 after a wake-up). -/
  | refill_check
  /-- The list was seen empty and the pool lock is released (line 170); about
  to run lines 172-176: `wait_cnt++`, lock `wait_lock`, `waiters++`,
  `pthread_cond_wait`. -/
  | refill_register
  /-- Asleep inside `pthread_cond_wait` (line 176). -/
  | refill_sleeping
  /-- Woken by a broadcast; about to run lines 177-178: `waiters--`, unlock. -/
  | refill_woken
  /-- About to run lines 129-154 of `cache_flush`: link the chain, splice it
  under the pool lock, set `count`. -/
  | flush_splice
  /-- About to run lines 156-161 of `cache_flush` with the recorded
  `need_signal`. -/
  | flush_signal (need_signal : Bool)
  /-- The call has returned. -/
  | done
deriving DecidableEq

/-- A thread: its position and its `t_cache`. -/
structure thread_t where
  pc : pc_t
  tc : thread_cache_t

/-- The pool and the threads running on it. -/
structure conc_state where
  pool : global_pool_t
  threads : List thread_t

/-- The effect of `pthread_cond_broadcast`: every thread asleep in
`pthread_cond_wait` is woken. -/
def broadcast (threads : List thread_t) : List thread_t :=
  threads.map (fun th => if th.pc = pc_t.refill_sleeping then { th with pc := pc_t.refill_woken }
                         else th)

/-- The next atomic action of thread `t`; `none` when the thread cannot move
(asleep in `pthread_cond_wait`, returned, or no such thread). -/
def conc_step (cap bs : Nat) (s : conc_state) (t : Nat) : Option conc_state :=
  match s.threads[t]? with
  | none => none
  | some th =>
    match th.pc with
    | .refill_check =>
      if s.pool.free_head = [] then
        some { s with threads := s.threads.set t { th with pc := pc_t.refill_register } }
      else
        let (pool1, tc1) := cache_refill_fetch bs s.pool th.tc
        some { pool := pool1, threads := s.threads.set t { pc := pc_t.done, tc := tc1 } }
    | .refill_register =>
      some { pool := { s.pool with waiters := s.pool.waiters + 1 },
             threads := s.threads.set t
               { pc := pc_t.refill_sleeping,
                 tc := { th.tc with wait_cnt := th.tc.wait_cnt + 1 } } }
    | .refill_sleeping => none
    | .refill_woken =>
      some { pool := { s.pool with waiters := s.pool.waiters - 1 },
             threads := s.threads.set t { th with pc := pc_t.refill_check } }
    | .flush_splice =>
      let need_signal := decide (s.pool.free_head = [])
      let (pool1, tc1) := cache_flush cap s.pool th.tc
      if th.tc.count - ((cap / 2 : Nat) : Int) ≤ 0 then
        some { pool := pool1, threads := s.threads.set t { pc := pc_t.done, tc := tc1 } }
      else
        some { pool := pool1,
               threads := s.threads.set t { pc := pc_t.flush_signal need_signal, tc := tc1 } }
    | .flush_signal need_signal =>
      let threads1 := s.threads.set t { th with pc := pc_t.done }
      if need_signal = true ∧ 0 < s.pool.waiters then
        some { s with threads := broadcast threads1 }
      else some { s with threads := threads1 }
    | .done => none

/-- The threads move one at a time in the order given by `schedule`. -/
def conc_run (cap bs : Nat) : conc_state → List Nat → Option conc_state
  | s, [] => some s
  | s, t :: ts =>
    match conc_step cap bs s t with
    | none => none
    | some s1 => conc_run cap bs s1 ts

/-- Thread 0 is in `mp_free` on a full cache and enters `cache_flush`; thread 1
is in `mp_alloc` on an empty cache and enters `cache_refill`; the pool free
list is empty and nobody waits. -/
def race_init : conc_state :=
  { pool := pool0,
    threads := [{ pc := pc_t.flush_splice, tc := cache512 },
                { pc := pc_t.refill_check, tc := cache0 }] }

/-! ## A steady mix of calls, with the transfers counted -/

/-- A call of the steady mix of `worker`: `mp_alloc()` or `mp_free(p)`. -/
inductive mix_call where
  | alloc
  | free (p : Nat)

/-- The pool and the cache of the calling thread, with the number of calls of
`cache_flush` and of `cache_refill` made so far. -/
structure mix_state where
  pool : global_pool_t
  tc : thread_cache_t
  flushes : Nat
  refills : Nat

/-- One completed call of the thread, no other thread running.  `mp_alloc`
reaches the line `cache_refill();` when `t_cache->count > 0` is false;
`mp_free` reaches the line `cache_flush();` when `ptr` is not `NULL` and
`t_cache->count < LOCAL_CACHE_CAPACITY` is false. -/
def mix_step (cap bs : Nat) (s : mix_state) : mix_call → Option mix_state
  | .alloc =>
    match mp_alloc bs [] s.pool s.tc with
    | none => none
    | some (_, pool1, tc1) =>
      some { pool := pool1, tc := tc1, flushes := s.flushes,
             refills := if 0 < s.tc.count then s.refills else s.refills + 1 }
  | .free p =>
    match mp_free cap s.pool (some s.tc) p with
    | some (pool1, some tc1) =>
      some { pool := pool1, tc := tc1,
             flushes := if p = 0 then s.flushes
                        else if s.tc.count < (cap : Int) then s.flushes else s.flushes + 1,
             refills := s.refills }
    | _ => none

/-- The states after each call of a sequence of completed calls. -/
def mix_trace (cap bs : Nat) : mix_state → List mix_call → Option (List mix_state)
  | _, [] => some []
  | s, c :: cs =>
    match mix_step cap bs s c with
    | none => none
    | some s1 =>
      match mix_trace cap bs s1 cs with
      | none => none
      | some tr => some (s1 :: tr)

/-- The pairs `mp_free(p); mp_alloc();`, one for each pointer of the list. -/
def free_alloc_pairs : List Nat → List mix_call
  | [] => []
  | p :: ps => mix_call.free p :: mix_call.alloc :: free_alloc_pairs ps

/-- The pairs `mp_alloc(); mp_free(p);`, one for each pointer of the list. -/
def alloc_free_pairs : List Nat → List mix_call
  | [] => []
  | p :: ps => mix_call.alloc :: mix_call.free p :: alloc_free_pairs ps

/-! ## The free list in memory

A slot on the free list is a `free_node_t`: `next p` is the field `p->next` of
the slot at address `p`, and `0` is `NULL`.  The functions above read the free
list as the list of its nodes; the functions here do the relinking on the
memory itself, as the source does. -/

/-- The memory holds the list `l` from the pointer `p` on: `p` is the first
node of `l`, the field `next` of every node is the node after it, and the
field `next` of the last node is `NULL` (`p` is `NULL` for the empty list). -/
def holds_list (next : Nat → Nat) : Nat → List Nat → Prop
  | p, [] => p = 0
  | p, x :: xs => p = x ∧ x ≠ 0 ∧ holds_list next (next x) xs

/-- The linking loop
`for (i = 1; i < count; i++) { cur->next = objects[i]; cur = cur->next; }`
on the memory, with `k = count - i` iterations left: the memory and `cur` at
the end of the loop. -/
def link_loop (objects : Nat → Nat) : Nat → Nat → (Nat → Nat) → Nat → (Nat → Nat) × Nat
  | 0, _, next, cur => (next, cur)
  | k + 1, i, next, cur =>
    let next1 := Function.update next cur (objects i)
    link_loop objects k (i + 1) next1 (next1 cur)

/-- Function `thread_cleanup_handler(arg)` on the memory: `next` is the field
`->next` of every slot and `free_head` is the pointer `pool->free_head`.  The
result is the memory, `pool->free_head` and `t_cache` afterwards.  (A store
through a null slot, on which the source crashes, is a store at address `0`
here.) -/
def thread_cleanup_handler_mem (next : Nat → Nat) (free_head : Nat)
    (arg : Option thread_cache_t) : (Nat → Nat) × Nat × Option thread_cache_t :=
  match arg with
  | none => (next, free_head, none)
  | some tc =>
    if tc.count = 0 then (next, free_head, none)
    else
      let head := tc.objects 0
      let r := link_loop tc.objects (tc.count.toNat - 1) 1 next head
      let next2 := Function.update r.1 r.2 0
      let next3 := Function.update next2 r.2 free_head
      (next3, head, none)

/-- A pool of five slots at 4096 whose two topmost slots have been taken. -/
def pool5 : global_pool_t :=
  { free_head := [8192, 6144, 4096], waiters := 0, mmap_base := 4096, mmap_size := 10240 }

/-- The memory of `pool5`: `8192 -> 6144 -> 4096 -> NULL`. -/
def mem5 : Nat → Nat :=
  fun p => if p = 8192 then 6144 else if p = 6144 then 4096 else 0

/-- A cache holding the two topmost slots of `pool5`, in the order in which a
refill takes them. -/
def cache_top2 : thread_cache_t :=
  { objects := fun i => 12288 - 2048 * i, count := 2, global := 64,
    alloc_cnt := 0, free_cnt := 0, wait_cnt := 0 }

end Pool

/-! # Tier lookup table (`src/coding/tiered_table.c`) -/

namespace Tiered

/-- Struct `step_rule_t`: `limit` is a `uint32_t`, `id` an `int`. -/
structure step_rule_t where
  limit : Nat
  id : Int
  desc : String
deriving DecidableEq

/-- Constant `UINT32_MAX`. -/
def UINT32_MAX : Nat := 4294967295

/-- The table `rules[]` of the source. -/
def rules : List step_rule_t :=
  [ { limit := 100, id := 1, desc := "Low" },
    { limit := 500, id := 2, desc := "Medium" },
    { limit := 1000, id := 3, desc := "High" },
    { limit := 5000, id := 4, desc := "Critical" },
    { limit := UINT32_MAX, id := 5, desc := "Explosion" } ]

/-- The loop of `get_rule_linear` on the entries `rules[i], rules[i+1], ...`:
the index of the first entry with `val < limit`, `none` when the loop runs to
its end. -/
def get_rule_linear_scan : List step_rule_t → Nat → Nat → Option Nat
  | [], _, _ => none
  | r :: rest, i, val => if val < r.limit then some i else get_rule_linear_scan rest (i + 1) val

/-- Function `get_rule_linear(val)` over the table `table` (the global `rules`
in the source).  The returned pointer `&rules[i]` is given by its index `i`;
`RULES_COUNT - 1` is computed in `size_t`. -/
def get_rule_linear (table : List step_rule_t) (val : Nat) : Nat :=
  match get_rule_linear_scan table 0 val with
  | some i => i
  | none => (table.length + 2 ^ 64 - 1) % 2 ^ 64

/-- The entry `rules[i]` for an `int` index; `none` when `i` is outside the table. -/
def rule_at (table : List step_rule_t) (i : Int) : Option step_rule_t :=
  if 0 ≤ i then table[i.toNat]? else none

/-- The loop of `get_rule_bsearch`.  `fuel` bounds the number of iterations;
the result is `none` when the fuel runs out or when `rules[mid]` is outside the
table.  In the branch `left <= right` the difference `right - left` is not
negative, so the C division is the floor division. -/
def get_rule_bsearch_loop (table : List step_rule_t) (val : Nat) :
    Nat → Int → Int → Int → Option Int
  | 0, left, right, ans => if left ≤ right then none else some ans
  | fuel + 1, left, right, ans =>
    if left ≤ right then
      let mid := left + (right - left) / 2
      match rule_at table mid with
      | none => none
      | some r =>
        if val < r.limit then get_rule_bsearch_loop table val fuel left (mid - 1) mid
        else get_rule_bsearch_loop table val fuel (mid + 1) right ans
    else some ans

/-- Function `get_rule_bsearch(val)` over the table `table`; the result is the
index `ans` of the returned pointer `&rules[ans]`. -/
def get_rule_bsearch (fuel : Nat) (table : List step_rule_t) (val : Nat) : Option Int :=
  get_rule_bsearch_loop table val fuel 0 ((table.length : Int) - 1) ((table.length : Int) - 1)

/-- The limit of `rules[k]` (`0` outside the table). -/
def limit_at (table : List step_rule_t) (k : Nat) : Nat :=
  match table[k]? with
  | some r => r.limit
  | none => 0

/-- Index `idx` is the first entry whose limit is greater than `val`, or the
last entry when there is none. -/
def first_above (table : List step_rule_t) (val : Nat) (idx : Nat) : Prop :=
  idx < table.length ∧ (∀ k, k < idx → ¬ val < limit_at table k) ∧
    (val < limit_at table idx ∨ idx + 1 = table.length)

end Tiered

/-! # Table-driven dispatcher (`src/coding/table.c`) -/

namespace Dispatch

/-- Struct `packet_t`: `type` and `is_admin` are `uint8_t`, `len` is `uint16_t`,
`payload` the 1024 payload bytes. -/
structure packet_t where
  type : Nat
  is_admin : Nat
  len : Nat
  payload : List Nat
deriving DecidableEq

/-- The three callbacks a table entry can point to. -/
inductive handler_func where
  | handle_ping
  | handle_login
  | handle_admin
deriving DecidableEq

/-- Macro `FLG_ADMIN_ONLY (1 << 0)`. -/
def FLG_ADMIN_ONLY : Nat := 1 <<< 0

/-- Macro `FLG_LOG_STATS (1 << 1)`. -/
def FLG_LOG_STATS : Nat := 1 <<< 1

/-- Struct `msg_handler_t`; `none` is a `NULL` pointer. -/
structure msg_handler_t where
  name : Option String
  handler : Option handler_func
  min_len : Nat
  flags : Nat
deriving DecidableEq

/-- The table `dispatch_table[256]`: the entries at `MSG_PING = 0`,
`MSG_LOGIN = 1` and `MSG_ADMIN_CMD = 4` are initialised, every other entry is
zero. -/
def dispatch_table (type : Nat) : msg_handler_t :=
  if type = 0 then
    { name := some "PING", handler := some handler_func.handle_ping, min_len := 0, flags := 0 }
  else if type = 1 then
    { name := some "LOGIN", handler := some handler_func.handle_login, min_len := 4,
      flags := FLG_LOG_STATS }
  else if type = 4 then
    { name := some "ADMIN", handler := some handler_func.handle_admin, min_len := 0,
      flags := FLG_ADMIN_ONLY ||| FLG_LOG_STATS }
  else { name := none, handler := none, min_len := 0, flags := 0 }

/-- What `process_packet` does, in order: the lines it prints and the call of
the handler. -/
inductive event where
  | unknown_type (type : Nat)
  | too_short (name : Option String) (need got : Nat)
  | permission_denied (name : Option String)
  | log (name : Option String)
  | call (h : handler_func) (pkt : packet_t)
  | handler_failed (ret : Int)
deriving DecidableEq

/-- The value returned by a handler (`handle_ping`, `handle_login` and
`handle_admin` all return `0`). -/
def run_handler (h : handler_func) (_pkt : packet_t) : Int :=
  match h with
  | .handle_ping => 0
  | .handle_login => 0
  | .handle_admin => 0

/-- Function `process_packet(pkt)`. -/
def process_packet (pkt : packet_t) : List event :=
  let type := pkt.type
  let entry := dispatch_table type
  match entry.handler with
  | none => [event.unknown_type type]
  | some h =>
    if pkt.len < entry.min_len then [event.too_short entry.name entry.min_len pkt.len]
    else if entry.flags &&& FLG_ADMIN_ONLY ≠ 0 ∧ pkt.is_admin = 0 then
      [event.permission_denied entry.name]
    else
      (if entry.flags &&& FLG_LOG_STATS ≠ 0 then [event.log entry.name] else [])
        ++ [event.call h pkt]
        ++ (if run_handler h pkt ≠ 0 then [event.handler_failed (run_handler h pkt)] else [])

end Dispatch

/-! # Fragmented packet buffers (`src/coding/packet.c`)

A fragment chain is the list of its fragments in `next_frag` order.  Byte
buffers are maps from offsets to bytes; a caller buffer (`to`, `buf`) is taken
to be disjoint from the packet buffers. -/

namespace Packet

/-- Macro `#define MBUF_HEADROOM 128`. -/
def MBUF_HEADROOM : Int := 128

/-- Struct `mbuf_shared_info_t`.  A pointer into the buffer (`head`, `end`, and
`head`, `data`, `tail`, `end` of the views) is its offset from the first byte
`sh->buffer`; `buffer` gives the byte stored at each offset. -/
structure mbuf_shared_info_t where
  refcnt : Int
  head : Int
  end_ : Int
  buffer : Int → Nat

/-- Struct `mbuf`, without the two link fields: the fragment chain
`next_frag` is the list the fragment stands in (`NULL` is `[]`), and the packet
queue link `next` is not used by any function.  The shared info `sh` is kept by
value: a view writes to its buffer only when `refcnt == 1`. -/
structure mbuf where
  pkt_len : Int
  sh : mbuf_shared_info_t
  head : Int
  data : Int
  tail : Int
  end_ : Int

/-- Inline function `mbuf_len`. -/
def mbuf_len (m : mbuf) : Int := m.tail - m.data

/-- Inline function `mbuf_tailroom`. -/
def mbuf_tailroom (m : mbuf) : Int := m.end_ - m.tail

/-- Library function `memcpy(dst + d, src + s, n)` on byte maps. -/
def memcpy (dst : Int → Nat) (d : Int) (src : Int → Nat) (s : Int) (n : Int) : Int → Nat :=
  fun i => if d ≤ i ∧ i < d + n then src (s + (i - d)) else dst i

/-- Function `mbuf_alloc(payload_size)`; `junk` is the content of the fresh
`malloc`ed buffer. -/
def mbuf_alloc (junk : Int → Nat) (payload_size : Int) : mbuf :=
  let total_size := payload_size + MBUF_HEADROOM
  let sh : mbuf_shared_info_t := { refcnt := 1, head := 0, end_ := 0 + total_size, buffer := junk }
  { pkt_len := 0, sh := sh, head := sh.head, data := sh.head + MBUF_HEADROOM,
    tail := sh.head + MBUF_HEADROOM, end_ := sh.end_ }

/-- Function `mbuf_ensure_writable(m)`: a private copy of the buffer when it is
shared; `junk` is the content of the fresh buffer before the copy. -/
def mbuf_ensure_writable (junk : Int → Nat) (m : mbuf) : mbuf :=
  let old := m.sh
  if old.refcnt = 1 then m
  else
    let size := old.end_ - old.head
    let sh : mbuf_shared_info_t :=
      { refcnt := 1, head := 0, end_ := 0 + size, buffer := memcpy junk 0 old.buffer old.head size }
    let offset := m.data - old.head
    let len := m.tail - m.data
    { m with sh := sh, head := sh.head, data := sh.head + offset,
             tail := sh.head + offset + len, end_ := sh.end_ }

/-- The statement `head->pkt_len += n` on the chain `pre ++ [curr]`, whose head
is `curr` itself when `pre` is empty. -/
def add_pkt_len (pre : List mbuf) (curr : mbuf) (n : Int) : List mbuf × mbuf :=
  match pre with
  | [] => ([], { curr with pkt_len := curr.pkt_len + n })
  | h :: t => ({ h with pkt_len := h.pkt_len + n } :: t, curr)

/-- The copying loop `while (remain > 0)` of `mbuf_append_large`, on the chain
`pre ++ [curr]` with `p` the offset reached in the source `buf`.  `fuel` bounds
the number of iterations (`none` when it runs out). -/
def mbuf_append_large_loop (junk : Int → Nat) (buf : Int → Nat) :
    Nat → List mbuf → mbuf → Int → Int → Option (List mbuf)
  | 0, pre, curr, _, remain => if 0 < remain then none else some (pre ++ [curr])
  | fuel + 1, pre, curr, p, remain =>
    if 0 < remain then
      let curr1 := mbuf_ensure_writable junk curr
      let room := mbuf_tailroom curr1
      if 0 < room then
        let n := if remain < room then remain else room
        let curr2 : mbuf :=
          { curr1 with sh := { curr1.sh with buffer := memcpy curr1.sh.buffer curr1.tail buf p n },
                       tail := curr1.tail + n }
        let (pre3, curr3) := add_pkt_len pre curr2 n
        mbuf_append_large_loop junk buf fuel pre3 curr3 (p + n) (remain - n)
      else
        let frag := mbuf_alloc junk 128
        mbuf_append_large_loop junk buf fuel (pre ++ [curr1]) frag p remain
    else some (pre ++ [curr])

/-- Function `mbuf_append_large(head, buf, len)` on the chain starting at
`head`; the result is the chain afterwards.  `none` for a `NULL` head and when
the fuel runs out. -/
def mbuf_append_large (fuel : Nat) (junk : Int → Nat) (chain : List mbuf) (buf : Int → Nat)
    (len : Int) : Option (List mbuf) :=
  match chain.getLast? with
  | none => none
  | some curr => mbuf_append_large_loop junk buf fuel chain.dropLast curr 0 len

/-- The first loop of `mbuf_copy_bits`: skip the fragments before `offset`.
The result is the fragment reached (`[]` is `NULL`) and the offset inside it. -/
def mbuf_copy_bits_seek : List mbuf → Int → List mbuf × Int
  | [], start => ([], start)
  | m :: rest, start =>
    if start ≥ mbuf_len m then mbuf_copy_bits_seek rest (start - mbuf_len m)
    else (m :: rest, start)

/-- The second loop of `mbuf_copy_bits`, with `dst` the offset reached in `to`.
The result is `to` and `copy_len` at the end of the loop. -/
def mbuf_copy_bits_loop : List mbuf → Int → (Int → Nat) → Int → Int → (Int → Nat) × Int
  | [], _, to_buf, _, copy_len => (to_buf, copy_len)
  | m :: rest, start, to_buf, dst, copy_len =>
    if 0 < copy_len then
      let avail := mbuf_len m - start
      if 0 < avail then
        let to_copy := if copy_len < avail then copy_len else avail
        mbuf_copy_bits_loop rest 0 (memcpy to_buf dst m.sh.buffer (m.data + start) to_copy)
          (dst + to_copy) (copy_len - to_copy)
      else mbuf_copy_bits_loop rest 0 to_buf dst copy_len
    else (to_buf, copy_len)

/-- Function `mbuf_copy_bits(m, offset, to, len)`: the returned `int` and the
content of `to` (here `to_buf`) afterwards. -/
def mbuf_copy_bits (chain : List mbuf) (offset : Int) (to_buf : Int → Nat) (len : Int) :
    Int × (Int → Nat) :=
  match mbuf_copy_bits_seek chain offset with
  | ([], _) => (-1, to_buf)
  | (m :: rest, start) =>
    let r := mbuf_copy_bits_loop (m :: rest) start to_buf 0 len
    if 0 < r.2 then (-1, r.1) else (0, r.1)

/-! ### Logical content of a packet -/

/-- The data bytes `data[0 .. mbuf_len-1]` of one fragment. -/
def frag_bytes (m : mbuf) : List Nat :=
  (List.range (mbuf_len m).toNat).map (fun (i : Nat) => m.sh.buffer (m.data + (i : Int)))

/-- The concatenation of the data of all fragments. -/
def chain_bytes : List mbuf → List Nat
  | [] => []
  | m :: rest => frag_bytes m ++ chain_bytes rest

/-- The sum of the fragment lengths. -/
def chain_len : List mbuf → Int
  | [] => 0
  | m :: rest => mbuf_len m + chain_len rest

/-- The bytes `src[p .. p+n-1]` of a byte map. -/
def bytes_of (src : Int → Nat) (p : Int) (n : Int) : List Nat :=
  (List.range n.toNat).map (fun (i : Nat) => src (p + (i : Int)))

/-- The field `pkt_len` of the head of a chain. -/
def head_pkt_len : List mbuf → Int
  | [] => 0
  | m :: _ => m.pkt_len

/-- The length of the fragment a chain pointer points to (`0` for `NULL`). -/
def first_len : List mbuf → Int
  | [] => 0
  | m :: _ => mbuf_len m

/-- The byte map `to_buf` with the list `bs` stored from offset `dst` on. -/
def write_list (to_buf : Int → Nat) (dst : Int) (bs : List Nat) : Int → Nat :=
  fun i => if dst ≤ i ∧ i < dst + (bs.length : Int) then bs.getD (i - dst).toNat 0 else to_buf i

/-- Every fragment of the chain has a non-negative length. -/
def lens_nonneg (chain : List mbuf) : Prop := ∀ m ∈ chain, 0 ≤ mbuf_len m

/-- Every fragment is exclusively owned (`refcnt == 1`) and has a non-negative
length. -/
def owned (chain : List mbuf) : Prop := ∀ m ∈ chain, m.sh.refcnt = 1 ∧ 0 ≤ mbuf_len m

/-- A byte source: `AA BB CC DD EE FF ...`. -/
def sample_src : Int → Nat := fun i => (170 + 17 * i).toNat

/-- The packet `mbuf_alloc(4)` of `main`, before anything is appended. -/
def sample_pkt : List mbuf := [mbuf_alloc (fun _ => 0) 4]

/-- A fragment holding the given data bytes behind a headroom of 128. -/
def sample_frag (pkt_len : Int) (bytes : List Nat) : mbuf :=
  { pkt_len := pkt_len,
    sh := { refcnt := 1, head := 0, end_ := 132, buffer := fun i => bytes.getD (i - 128).toNat 0 },
    head := 0, data := 128, tail := 128 + (bytes.length : Int), end_ := 132 }

/-- The packet of `main` after the two appends: `[AA BB CC DD] -> [11 22 33 44]`. -/
def sample_chain : List mbuf :=
  [sample_frag 8 [170, 187, 204, 221], sample_frag 0 [17, 34, 51, 68]]

/-! ## Header pointer, pull and trim -/

/-- A pointer returned to the caller: `NULL`, a pointer into the buffer of the
fragment `m` at offset `off`, or the caller's own scratch `buffer`. -/
inductive pointer where
  | null
  | frag (m : mbuf) (off : Int)
  | scratch

/-- The `len` bytes found at a returned pointer, `buffer` being the content of
the caller's scratch buffer after the call. -/
def pointer_bytes (p : pointer) (buffer : Int → Nat) (len : Int) : List Nat :=
  match p with
  | .null => []
  | .frag m off => bytes_of m.sh.buffer off len
  | .scratch => bytes_of buffer 0 len

/-- Function `mbuf_header_pointer(m, offset, len, buffer)`: the returned
pointer and the content of `buffer` afterwards.  Its first loop is the first
loop of `mbuf_copy_bits`. -/
def mbuf_header_pointer (chain : List mbuf) (offset len : Int) (buffer : Int → Nat) :
    pointer × (Int → Nat) :=
  match mbuf_copy_bits_seek chain offset with
  | ([], _) => (pointer.null, buffer)
  | (curr :: _, start) =>
    if mbuf_len curr - start ≥ len then (pointer.frag curr (curr.data + start), buffer)
    else
      let r := mbuf_copy_bits chain offset buffer len
      if r.1 < 0 then (pointer.null, r.2) else (pointer.scratch, r.2)

/-- Function `mbuf_pull(m, len)`: the returned pointer and the chain
afterwards; `none` for a `NULL` packet, which the function dereferences. -/
def mbuf_pull (chain : List mbuf) (len : Int) : Option (pointer × List mbuf) :=
  match chain with
  | [] => none
  | m :: rest =>
    if len > mbuf_len m then some (pointer.null, m :: rest)
    else
      let m1 : mbuf := { m with data := m.data + len, pkt_len := m.pkt_len - len }
      some (pointer.frag m1 m1.data, m1 :: rest)

/-- The loop of `mbuf_trim` from the fragment `curr` on, with `current_len`
the length of the fragments before it: the chain from `curr` on after the cut
(`tail` of the cut fragment reduced, the later fragments freed), or `none` when
the loop ends without finding a cut point. -/
def mbuf_trim_scan : List mbuf → Int → Int → Option (List mbuf)
  | [], _, _ => none
  | curr :: rest, current_len, new_len =>
    if current_len + mbuf_len curr > new_len then
      let keep := new_len - current_len
      some [{ curr with tail := curr.data + keep }]
    else
      match mbuf_trim_scan rest (current_len + mbuf_len curr) new_len with
      | none => none
      | some rest1 => some (curr :: rest1)

/-- The statement `m->pkt_len = new_len` on the head of a chain. -/
def set_pkt_len (chain : List mbuf) (new_len : Int) : List mbuf :=
  match chain with
  | [] => []
  | m :: rest => { m with pkt_len := new_len } :: rest

/-- Function `mbuf_trim(m, new_len)`: the returned `int` and the chain
afterwards; `none` for a `NULL` packet, which the function dereferences. -/
def mbuf_trim (chain : List mbuf) (new_len : Int) : Option (Int × List mbuf) :=
  match chain with
  | [] => none
  | m :: rest =>
    if new_len ≥ m.pkt_len then some (0, m :: rest)
    else
      match mbuf_trim_scan (m :: rest) 0 new_len with
      | some chain1 => some (0, set_pkt_len chain1 new_len)
      | none => some (0, m :: rest)

end Packet

/-! # Verification of the pool -/

namespace Pool

/-! ## Lists of cache entries -/

theorem range_map_succ (f : Nat → Nat) (n : Nat) :
    (List.range (n + 1)).map f = (List.range n).map f ++ [f n] := by
  rw [List.range_succ, List.map_append]
  rfl

theorem range_map_update (f : Nat → Nat) (n i p : Nat) (h : n ≤ i) :
    (List.range n).map (Function.update f i p) = (List.range n).map f := by
  apply List.map_congr_left
  intro a ha
  have : a < n := List.mem_range.mp ha
  exact Function.update_noteq (by omega) _ _

theorem range_map_add (f : Nat → Nat) (a b : Nat) :
    (List.range (a + b)).map f = (List.range a).map f ++ (List.range b).map (fun i => f (a + i)) := by
  rw [List.range_add, List.map_append, List.map_map]
  rfl

theorem link_chain_eq (f : Nat → Nat) (start n : Int) (hs : 0 ≤ start) (hn : 0 < n) :
    link_chain f start n = (List.range n.toNat).map (fun i => f (start.toNat + i)) := by
  unfold link_chain
  obtain ⟨m, hm⟩ : ∃ m, n.toNat = m + 1 := ⟨n.toNat - 1, by omega⟩
  rw [hm, List.range_succ_eq_map, List.map_cons, List.map_map]
  simp only [Nat.add_sub_cancel, Nat.add_zero, List.cons.injEq, true_and]
  apply List.map_congr_left
  intro a _
  simp only [Function.comp]
  congr 1
  omega

theorem live_pop (tc : thread_cache_t) (h : 0 < tc.count) (a : Int) :
    live tc =
      live { tc with alloc_cnt := a, count := tc.count - 1 } ++ [tc.objects (tc.count - 1).toNat] := by
  unfold live
  simp only
  obtain ⟨m, hm⟩ : ∃ m, tc.count.toNat = m + 1 := ⟨tc.count.toNat - 1, by omega⟩
  have h1 : (tc.count - 1).toNat = m := by omega
  rw [hm, h1, range_map_succ]

theorem live_push (tc : thread_cache_t) (h : 0 ≤ tc.count) (p : Nat) (a : Int) :
    live { tc with free_cnt := a, objects := Function.update tc.objects tc.count.toNat p,
                   count := tc.count + 1 } = live tc ++ [p] := by
  unfold live
  simp only
  have h1 : (tc.count + 1).toNat = tc.count.toNat + 1 := by omega
  rw [h1, range_map_succ, range_map_update _ _ _ _ (Nat.le_refl _), Function.update_same]

/-! ## What the two transfers do -/

theorem cache_flush_noop (cap : Nat) (pool : global_pool_t) (tc : thread_cache_t)
    (h : tc.count ≤ ((cap / 2 : Nat) : Int)) : cache_flush cap pool tc = (pool, tc) := by
  unfold cache_flush
  simp only
  rw [if_pos (by omega)]

theorem cache_flush_spec (cap : Nat) (pool : global_pool_t) (tc : thread_cache_t)
    (h : ((cap / 2 : Nat) : Int) < tc.count) :
    cache_flush cap pool tc =
      ({ pool with free_head :=
            (List.range (tc.count.toNat - cap / 2)).map (fun i => tc.objects (cap / 2 + i))
              ++ pool.free_head },
       { tc with count := ((cap / 2 : Nat) : Int) }) := by
  unfold cache_flush
  simp only
  rw [if_neg (by omega), link_chain_eq _ _ _ (by omega) (by omega)]
  have h1 : (tc.count - (tc.count - ((cap / 2 : Nat) : Int))).toNat = cap / 2 := by omega
  have h2 : (tc.count - ((cap / 2 : Nat) : Int)).toNat = tc.count.toNat - cap / 2 := by omega
  rw [h1, h2]

theorem cache_refill_fetch_spec (k : Nat) : ∀ (pool : global_pool_t) (tc : thread_cache_t),
    0 ≤ tc.count →
    (cache_refill_fetch k pool tc).1 = { pool with free_head := pool.free_head.drop k } ∧
    (cache_refill_fetch k pool tc).2.count = tc.count + ((min k pool.free_head.length : Nat) : Int) ∧
    live (cache_refill_fetch k pool tc).2 = live tc ++ pool.free_head.take k ∧
    (∀ i, i < tc.count.toNat → (cache_refill_fetch k pool tc).2.objects i = tc.objects i) ∧
    (cache_refill_fetch k pool tc).2.global = tc.global ∧
    (cache_refill_fetch k pool tc).2.alloc_cnt = tc.alloc_cnt ∧
    (cache_refill_fetch k pool tc).2.free_cnt = tc.free_cnt ∧
    (cache_refill_fetch k pool tc).2.wait_cnt = tc.wait_cnt := by
  induction k with
  | zero =>
    intro pool tc _
    simp [cache_refill_fetch]
  | succ k ih =>
    intro pool tc h0
    cases hL : pool.free_head with
    | nil =>
      rw [cache_refill_fetch]
      simp [hL]
      cases pool
      simp_all
    | cons n rest =>
      rw [cache_refill_fetch]
      simp only [hL]
      obtain ⟨e1, e2, e3, e4, e5, e6, e7, e8⟩ := ih { pool with free_head := rest }
        { tc with objects := Function.update tc.objects tc.count.toNat n, count := tc.count + 1 }
        (by simp only; omega)
      refine ⟨?_, ?_, ?_, ?_, e5, e6, e7, e8⟩
      · rw [e1]; simp
      · rw [e2]; simp only [List.length_cons]; omega
      · rw [e3]
        have := live_push tc h0 n tc.free_cnt
        simp only at this
        rw [this]
        simp
      · intro i hi
        rw [e4 i (by simp only; omega)]
        simp only
        exact Function.update_noteq (by omega) _ _

theorem cache_refill_wait_nonempty (wakes : List global_pool_t) (pool : global_pool_t)
    (tc : thread_cache_t) (h : pool.free_head ≠ []) :
    cache_refill_wait wakes pool tc = some (pool, tc) := by
  unfold cache_refill_wait
  rw [if_neg h]

theorem cache_refill_wait_blocked (pool : global_pool_t) (tc : thread_cache_t)
    (h : pool.free_head = []) : cache_refill_wait [] pool tc = none := by
  unfold cache_refill_wait
  rw [if_pos h]

theorem cache_refill_wait_some : ∀ (wakes : List global_pool_t) (pool : global_pool_t)
    (tc : thread_cache_t) (pool1 : global_pool_t) (tc1 : thread_cache_t),
    cache_refill_wait wakes pool tc = some (pool1, tc1) →
    pool1 ∈ pool :: wakes ∧ pool1.free_head ≠ [] ∧ tc1.objects = tc.objects ∧
      tc1.count = tc.count ∧ tc1.global = tc.global ∧ tc1.alloc_cnt = tc.alloc_cnt ∧
      tc1.free_cnt = tc.free_cnt := by
  intro wakes
  induction wakes with
  | nil =>
    intro pool tc pool1 tc1 h
    unfold cache_refill_wait at h
    by_cases he : pool.free_head = []
    · rw [if_pos he] at h
      exact absurd h (by simp)
    · rw [if_neg he] at h
      simp only [Option.some.injEq, Prod.mk.injEq] at h
      obtain ⟨rfl, rfl⟩ := h
      simp [he]
  | cons p ws ih =>
    intro pool tc pool1 tc1 h
    unfold cache_refill_wait at h
    by_cases he : pool.free_head = []
    · rw [if_pos he] at h
      simp only at h
      obtain ⟨h1, h2, h3, h4, h5, h6, h7⟩ := ih _ _ _ _ h
      exact ⟨List.mem_cons_of_mem _ h1, h2, h3, h4, h5, h6, h7⟩
    · rw [if_neg he] at h
      simp only [Option.some.injEq, Prod.mk.injEq] at h
      obtain ⟨rfl, rfl⟩ := h
      simp [he]

theorem cache_refill_wait_none : ∀ (wakes : List global_pool_t) (pool : global_pool_t)
    (tc : thread_cache_t), (∀ p ∈ pool :: wakes, p.free_head = []) →
    cache_refill_wait wakes pool tc = none := by
  intro wakes
  induction wakes with
  | nil =>
    intro pool tc h
    exact cache_refill_wait_blocked pool tc (h pool (by simp))
  | cons p ws ih =>
    intro pool tc h
    unfold cache_refill_wait
    rw [if_pos (h pool (by simp))]
    simp only
    exact ih _ _ (fun q hq => h q (List.mem_cons_of_mem _ hq))

theorem cache_refill_nonempty (bs : Nat) (wakes : List global_pool_t) (pool : global_pool_t)
    (tc : thread_cache_t) (h : pool.free_head ≠ []) :
    cache_refill bs wakes pool tc = some (cache_refill_fetch bs pool tc) := by
  unfold cache_refill
  rw [cache_refill_wait_nonempty wakes pool tc h]

theorem cache_refill_blocked (bs : Nat) (pool : global_pool_t) (tc : thread_cache_t)
    (h : pool.free_head = []) : cache_refill bs [] pool tc = none := by
  unfold cache_refill
  rw [cache_refill_wait_blocked pool tc h]

/-! ## One call on one cache: bounds and the slots it moves -/

theorem mp_alloc_fast (bs : Nat) (wakes : List global_pool_t) (pool : global_pool_t)
    (tc : thread_cache_t) (h : 0 < tc.count) :
    mp_alloc bs wakes pool tc =
      some (tc.objects (tc.count - 1).toNat, pool,
        { tc with alloc_cnt := tc.alloc_cnt + 1, count := tc.count - 1 }) := by
  unfold mp_alloc
  rw [if_pos h]

theorem mp_alloc_slow (bs : Nat) (wakes : List global_pool_t) (pool : global_pool_t)
    (tc : thread_cache_t) (h : tc.count = 0) (hbs : 0 < bs) (hL : pool.free_head ≠ []) :
    mp_alloc bs wakes pool tc =
      some ((cache_refill_fetch bs pool tc).2.objects
              ((cache_refill_fetch bs pool tc).2.count - 1).toNat,
            (cache_refill_fetch bs pool tc).1,
            { (cache_refill_fetch bs pool tc).2 with
                alloc_cnt := (cache_refill_fetch bs pool tc).2.alloc_cnt + 1,
                count := (cache_refill_fetch bs pool tc).2.count - 1 }) := by
  unfold mp_alloc
  rw [if_neg (by omega), cache_refill_nonempty bs wakes pool tc hL]
  simp only
  have hc := (cache_refill_fetch_spec bs pool tc (by omega)).2.1
  have hlen : 0 < pool.free_head.length := List.length_pos.mpr hL
  rw [if_pos (by rw [hc]; omega)]

theorem mp_alloc_perm (cap bs : Nat) (hbs : 0 < bs) (hle : bs ≤ cap) (pool : global_pool_t)
    (tc : thread_cache_t) (h0 : 0 ≤ tc.count) (hc : tc.count ≤ (cap : Int))
    (r : Nat) (pool1 : global_pool_t) (tc1 : thread_cache_t)
    (h : mp_alloc bs [] pool tc = some (r, pool1, tc1)) :
    (0 ≤ tc1.count ∧ tc1.count ≤ (cap : Int)) ∧
      (pool1.free_head ++ (live tc1 ++ [r])).Perm (pool.free_head ++ live tc) := by
  by_cases hpos : 0 < tc.count
  · rw [mp_alloc_fast bs [] pool tc hpos] at h
    simp only [Option.some.injEq, Prod.mk.injEq] at h
    obtain ⟨rfl, rfl, rfl⟩ := h
    refine ⟨⟨by simp only; omega, by simp only; omega⟩, ?_⟩
    rw [← live_pop tc hpos]
  · have hz : tc.count = 0 := by omega
    by_cases hL : pool.free_head = []
    · unfold mp_alloc at h
      rw [if_neg hpos, cache_refill_blocked bs pool tc hL] at h
      exact absurd h (by simp)
    · rw [mp_alloc_slow bs [] pool tc hz hbs hL] at h
      simp only [Option.some.injEq, Prod.mk.injEq] at h
      obtain ⟨rfl, rfl, rfl⟩ := h
      obtain ⟨e1, e2, e3, -⟩ := cache_refill_fetch_spec bs pool tc h0
      have hlen : 0 < pool.free_head.length := List.length_pos.mpr hL
      refine ⟨⟨by simp only; omega, by simp only; omega⟩, ?_⟩
      rw [← live_pop _ (by omega), e3, e1]
      have hl : live tc = [] := by unfold live; rw [hz]; rfl
      rw [hl]
      simp only [List.nil_append, List.append_nil]
      have hp : (List.drop bs pool.free_head ++ List.take bs pool.free_head).Perm
          (List.take bs pool.free_head ++ List.drop bs pool.free_head) := List.perm_append_comm
      rwa [List.take_append_drop] at hp

theorem live_split (tc : thread_cache_t) (k : Nat) (h : (k : Int) ≤ tc.count) (a : Int) :
    live tc = live { tc with free_cnt := a, count := (k : Int) } ++
      (List.range (tc.count.toNat - k)).map (fun i => tc.objects (k + i)) := by
  unfold live
  simp only
  have h1 : tc.count.toNat = k + (tc.count.toNat - k) := by omega
  have h2 : ((k : Nat) : Int).toNat = k := by omega
  rw [h2]
  conv_lhs => rw [h1]
  exact range_map_add _ _ _

theorem cache_flush_perm (cap : Nat) (pool : global_pool_t) (tc : thread_cache_t)
    (h0 : 0 ≤ tc.count) (hc : tc.count ≤ (cap : Int)) :
    (0 ≤ (cache_flush cap pool tc).2.count ∧ (cache_flush cap pool tc).2.count ≤ (cap : Int)) ∧
      ((cache_flush cap pool tc).1.free_head ++ live (cache_flush cap pool tc).2).Perm
        (pool.free_head ++ live tc) := by
  by_cases h : ((cap / 2 : Nat) : Int) < tc.count
  · rw [cache_flush_spec cap pool tc h]
    refine ⟨⟨by simp only; omega, by simp only; omega⟩, ?_⟩
    simp only
    rw [live_split tc (cap / 2) (by omega) tc.free_cnt]
    rw [List.perm_iff_count]
    intro a
    simp only [List.count_append]
    omega
  · rw [cache_flush_noop cap pool tc (by omega)]
    exact ⟨⟨h0, hc⟩, List.Perm.refl _⟩

theorem mp_free_perm (cap : Nat) (hcap : 0 < cap) (pool : global_pool_t) (tc : thread_cache_t)
    (h0 : 0 ≤ tc.count) (hc : tc.count ≤ (cap : Int)) (p : Nat) (hp : p ≠ 0)
    (pool1 : global_pool_t) (c1 : Option thread_cache_t)
    (h : mp_free cap pool (some tc) p = some (pool1, c1)) :
    ∃ tc1, c1 = some tc1 ∧ (0 ≤ tc1.count ∧ tc1.count ≤ (cap : Int)) ∧
      (pool1.free_head ++ live tc1).Perm (pool.free_head ++ (live tc ++ [p])) := by
  unfold mp_free at h
  rw [if_neg hp] at h
  simp only at h
  by_cases hlt : tc.count < (cap : Int)
  · rw [if_pos hlt] at h
    simp only [Option.some.injEq, Prod.mk.injEq] at h
    obtain ⟨rfl, rfl⟩ := h
    refine ⟨_, rfl, ⟨by simp only; omega, by simp only; omega⟩, ?_⟩
    have := live_push tc h0 p (tc.free_cnt + 1)
    simp only at this
    rw [this]
  · rw [if_neg hlt] at h
    have hfull : ((cap / 2 : Nat) : Int) < tc.count := by omega
    rw [cache_flush_spec cap pool { tc with free_cnt := tc.free_cnt + 1 } hfull] at h
    simp only [Option.some.injEq, Prod.mk.injEq] at h
    obtain ⟨rfl, rfl⟩ := h
    refine ⟨_, rfl, ⟨by simp only; omega, by simp only; omega⟩, ?_⟩
    simp only
    have hpush := live_push { tc with free_cnt := tc.free_cnt + 1, count := ((cap / 2 : Nat) : Int) }
      (by simp only; omega) p (tc.free_cnt + 1)
    simp only at hpush
    rw [hpush, live_split tc (cap / 2) (by omega) (tc.free_cnt + 1)]
    rw [List.perm_iff_count]
    intro a
    simp only [List.count_append]
    omega

theorem cache_refill_perm (cap bs : Nat) (hle : bs ≤ cap) (pool : global_pool_t)
    (tc : thread_cache_t) (hz : tc.count = 0) (pool1 : global_pool_t) (tc1 : thread_cache_t)
    (h : cache_refill bs [] pool tc = some (pool1, tc1)) :
    (0 ≤ tc1.count ∧ tc1.count ≤ (cap : Int)) ∧
      (pool1.free_head ++ live tc1).Perm (pool.free_head ++ live tc) := by
  by_cases hL : pool.free_head = []
  · rw [cache_refill_blocked bs pool tc hL] at h
    exact absurd h (by simp)
  · rw [cache_refill_nonempty bs [] pool tc hL] at h
    simp only [Option.some.injEq] at h
    obtain ⟨e1, e2, e3, -⟩ := cache_refill_fetch_spec bs pool tc (by omega)
    rw [h] at e1 e2 e3
    simp only at e1 e2 e3
    refine ⟨⟨by omega, by omega⟩, ?_⟩
    rw [e1, e3]
    simp only
    rw [List.perm_iff_count]
    intro a
    have := congrArg (List.count a) (List.take_append_drop bs pool.free_head)
    simp only [List.count_append] at this ⊢
    omega

theorem thread_cleanup_handler_perm (pool : global_pool_t) (c : Option thread_cache_t)
    (h0 : ∀ tc, c = some tc → 0 ≤ tc.count) :
    (thread_cleanup_handler pool c).2 = none ∧
      ((thread_cleanup_handler pool c).1.free_head).Perm (pool.free_head ++ cache_slots c) := by
  cases c with
  | none => simp [thread_cleanup_handler, cache_slots]
  | some tc =>
    have hnn := h0 tc rfl
    unfold thread_cleanup_handler
    simp only
    by_cases hz : tc.count = 0
    · rw [if_pos hz]
      have hl : live tc = [] := by unfold live; rw [hz]; rfl
      simp [cache_slots, hl]
    · rw [if_neg hz]
      simp only [true_and]
      rw [link_chain_eq _ _ _ (le_refl _) (by omega)]
      simp only [Int.toNat_zero, Nat.zero_add, cache_slots]
      exact List.perm_append_comm

/-! ## The transition system: every call permutes the slots -/

theorem caches_split (caches : List (Option thread_cache_t)) (t : Nat)
    (c : Option thread_cache_t) (h : caches[t]? = some c) :
    ∃ l1 l2, caches = l1 ++ c :: l2 ∧ ∀ c1, caches.set t c1 = l1 ++ c1 :: l2 := by
  induction caches generalizing t with
  | nil => simp at h
  | cons x xs ih =>
    cases t with
    | zero =>
      simp only [List.getElem?_cons_zero, Option.some.injEq] at h
      subst h
      exact ⟨[], xs, rfl, fun c1 => rfl⟩
    | succ t =>
      simp only [List.getElem?_cons_succ] at h
      obtain ⟨l1, l2, e, hset⟩ := ih t h
      refine ⟨x :: l1, l2, by rw [e]; rfl, fun c1 => ?_⟩
      rw [List.set_cons_succ, hset c1]
      rfl

theorem cached_slots_append (l1 l2 : List (Option thread_cache_t)) (c : Option thread_cache_t) :
    cached_slots (l1 ++ c :: l2) = cached_slots l1 ++ (cache_slots c ++ cached_slots l2) := by
  induction l1 with
  | nil => rfl
  | cons x xs ih =>
    show cache_slots x ++ cached_slots (xs ++ c :: l2) = _
    rw [ih]
    simp only [cached_slots, List.append_assoc]

theorem cached_count_append (l1 l2 : List (Option thread_cache_t)) (c : Option thread_cache_t) :
    cached_count (l1 ++ c :: l2) = cached_count l1 + (cache_count c + cached_count l2) := by
  induction l1 with
  | nil => simp [cached_count]
  | cons x xs ih =>
    show cache_count x + cached_count (xs ++ c :: l2) = _
    rw [ih]
    simp only [cached_count]
    omega

theorem bounded_replace (cap : Nat) (l1 l2 : List (Option thread_cache_t))
    (c c1 : Option thread_cache_t) (h : bounded cap (l1 ++ c :: l2))
    (h1 : ∀ tc, c1 = some tc → 0 ≤ tc.count ∧ tc.count ≤ (cap : Int)) :
    bounded cap (l1 ++ c1 :: l2) := by
  intro tc htc
  simp only [List.mem_append, List.mem_cons] at htc
  rcases htc with hm | hm | hm
  · exact h tc (by simp [hm])
  · exact h1 tc hm.symm
  · exact h tc (by simp [hm])

theorem bounded_at (cap : Nat) (l1 l2 : List (Option thread_cache_t)) (tc : thread_cache_t)
    (h : bounded cap (l1 ++ some tc :: l2)) : 0 ≤ tc.count ∧ tc.count ≤ (cap : Int) :=
  h tc (by simp)

theorem frame_perm (F F1 C C1 H H1 S1 S2 : List Nat)
    (h : (F1 ++ (C1 ++ H1)).Perm (F ++ (C ++ H))) :
    (F1 ++ ((S1 ++ (C1 ++ S2)) ++ H1)).Perm (F ++ ((S1 ++ (C ++ S2)) ++ H)) := by
  rw [List.perm_iff_count] at h ⊢
  intro a
  have := h a
  simp only [List.count_append] at this ⊢
  omega

theorem cached_slots_length (cap : Nat) (caches : List (Option thread_cache_t))
    (h : bounded cap caches) : ((cached_slots caches).length : Int) = cached_count caches := by
  induction caches with
  | nil => rfl
  | cons c cs ih =>
    have hcs : bounded cap cs := fun tc htc => h tc (List.mem_cons_of_mem _ htc)
    simp only [cached_slots, cached_count, List.length_append, Nat.cast_add, ih hcs]
    cases c with
    | none => rfl
    | some tc =>
      have := (h tc (by simp)).1
      simp only [cache_slots, cache_count, live, List.length_map, List.length_range]
      omega

theorem sys_frame (cap : Nat) (s : sys_state) (t : Nat) (c c1 : Option thread_cache_t)
    (pool1 : global_pool_t) (held1 : List Nat) (hc : s.caches[t]? = some c)
    (hb : bounded cap s.caches)
    (hb1 : ∀ tc, c1 = some tc → 0 ≤ tc.count ∧ tc.count ≤ (cap : Int))
    (hp : (pool1.free_head ++ (cache_slots c1 ++ held1)).Perm
      (s.pool.free_head ++ (cache_slots c ++ s.held))) :
    bounded cap (s.caches.set t c1) ∧
      (all_slots ⟨s.pool_ptr, pool1, s.caches.set t c1, held1⟩).Perm (all_slots s) := by
  obtain ⟨l1, l2, e, hset⟩ := caches_split s.caches t c hc
  rw [hset c1]
  refine ⟨bounded_replace cap l1 l2 c c1 (e ▸ hb) hb1, ?_⟩
  unfold all_slots
  simp only
  rw [e, cached_slots_append, cached_slots_append]
  exact frame_perm _ _ _ _ _ _ _ _ hp

theorem bounded_get (cap : Nat) (caches : List (Option thread_cache_t)) (t : Nat)
    (tc : thread_cache_t) (hb : bounded cap caches) (hc : caches[t]? = some (some tc)) :
    0 ≤ tc.count ∧ tc.count ≤ (cap : Int) :=
  hb tc (List.getElem?_mem hc)

theorem step_inv (cap bs : Nat) (hbs : 0 < bs) (hle : bs ≤ cap) (s s1 : sys_state) (o : op)
    (h : step cap bs s o = some s1) (hb : bounded cap s.caches) :
    bounded cap s1.caches ∧ (all_slots s1).Perm (all_slots s) := by
  cases o with
  | thread_init t =>
    simp only [step] at h
    cases hc : s.caches[t]? with
    | none => rw [hc] at h; exact absurd h (by simp)
    | some c =>
      rw [hc] at h
      simp only [Option.some.injEq] at h
      subst h
      refine sys_frame cap s t c _ s.pool s.held hc hb ?_ ?_
      · intro tc htc
        cases c with
        | none =>
          simp only [mp_thread_init, Option.some.injEq] at htc
          subst htc
          simp
        | some tc0 =>
          simp only [mp_thread_init, Option.some.injEq] at htc
          subst htc
          exact bounded_get cap _ t _ hb hc
      · cases c with
        | none => simp [mp_thread_init, cache_slots, live]
        | some tc0 => simp [mp_thread_init]
  | alloc t =>
    simp only [step] at h
    cases hc : s.caches[t]? with
    | none => rw [hc] at h; exact absurd h (by simp)
    | some c =>
      cases c with
      | none => rw [hc] at h; exact absurd h (by simp)
      | some tc =>
        rw [hc] at h
        simp only at h
        obtain ⟨h0, hcap⟩ := bounded_get cap _ t _ hb hc
        cases hm : mp_alloc bs [] s.pool tc with
        | none => rw [hm] at h; exact absurd h (by simp)
        | some res =>
          obtain ⟨r, pool1, tc1⟩ := res
          rw [hm] at h
          simp only [Option.some.injEq] at h
          subst h
          obtain ⟨hb1, hp⟩ := mp_alloc_perm cap bs hbs hle s.pool tc h0 hcap r pool1 tc1 hm
          refine sys_frame cap s t (some tc) (some tc1) pool1 (r :: s.held) hc hb ?_ ?_
          · intro tc2 htc2
            simp only [Option.some.injEq] at htc2
            subst htc2
            exact hb1
          · simp only [cache_slots]
            rw [List.perm_iff_count] at hp ⊢
            intro a
            have := hp a
            simp only [List.count_append, List.count_cons, List.count_nil] at this ⊢
            omega
  | free t p =>
    simp only [step] at h
    cases hc : s.caches[t]? with
    | none => rw [hc] at h; exact absurd h (by simp)
    | some c =>
      rw [hc] at h
      simp only at h
      by_cases hg : p = 0 ∨ p ∈ s.held
      · rw [if_pos hg] at h
        by_cases hp0 : p = 0
        · subst hp0
          simp only [mp_free, if_true, Option.some.injEq] at h
          subst h
          refine sys_frame cap s t c c s.pool s.held hc hb ?_ (List.Perm.refl _)
          intro tc htc
          subst htc
          exact bounded_get cap _ t _ hb hc
        · have hmem : p ∈ s.held := hg.resolve_left hp0
          cases c with
          | none =>
            simp only [mp_free, if_neg hp0] at h
            exact absurd h (by simp)
          | some tc =>
            obtain ⟨h0, hcap⟩ := bounded_get cap _ t _ hb hc
            cases hm : mp_free cap s.pool (some tc) p with
            | none => rw [hm] at h; exact absurd h (by simp)
            | some res =>
              obtain ⟨pool1, c1⟩ := res
              rw [hm] at h
              simp only [Option.some.injEq, if_neg hp0] at h
              subst h
              obtain ⟨tc1, rfl, hb1, hp⟩ :=
                mp_free_perm cap (by omega) s.pool tc h0 hcap p hp0 pool1 c1 hm
              refine sys_frame cap s t (some tc) (some tc1) pool1 (s.held.erase p) hc hb ?_ ?_
              · intro tc2 htc2
                simp only [Option.some.injEq] at htc2
                subst htc2
                exact hb1
              · simp only [cache_slots]
                have he := List.perm_cons_erase hmem
                rw [List.perm_iff_count] at hp he ⊢
                intro a
                have := hp a
                have := he a
                simp only [List.count_append, List.count_cons, List.count_nil] at *
                omega
      · rw [if_neg hg] at h
        exact absurd h (by simp)
  | wait t =>
    simp only [step] at h
    cases hc : s.caches[t]? with
    | none => rw [hc] at h; exact absurd h (by simp)
    | some c =>
      cases c with
      | none => rw [hc] at h; exact absurd h (by simp)
      | some tc =>
        rw [hc] at h
        simp only at h
        by_cases hg : ¬ 0 < tc.count ∧ s.pool.free_head = []
        · rw [if_pos hg] at h
          simp only [Option.some.injEq] at h
          subst h
          refine sys_frame cap s t (some tc) _ s.pool s.held hc hb ?_ ?_
          · intro tc2 htc2
            simp only [Option.some.injEq] at htc2
            subst htc2
            exact bounded_get cap _ t tc hb hc
          · exact List.Perm.refl _
        · rw [if_neg hg] at h
          exact absurd h (by simp)
  | refill t =>
    simp only [step] at h
    cases hc : s.caches[t]? with
    | none => rw [hc] at h; exact absurd h (by simp)
    | some c =>
      cases c with
      | none => rw [hc] at h; exact absurd h (by simp)
      | some tc =>
        rw [hc] at h
        simp only at h
        obtain ⟨h0, hcap⟩ := bounded_get cap _ t _ hb hc
        by_cases hg : ¬ 0 < tc.count
        · rw [if_pos hg] at h
          cases hm : cache_refill bs [] s.pool tc with
          | none => rw [hm] at h; exact absurd h (by simp)
          | some res =>
            obtain ⟨pool1, tc1⟩ := res
            rw [hm] at h
            simp only [Option.some.injEq] at h
            subst h
            obtain ⟨hb1, hp⟩ := cache_refill_perm cap bs hle s.pool tc (by omega) pool1 tc1 hm
            refine sys_frame cap s t (some tc) (some tc1) pool1 s.held hc hb ?_ ?_
            · intro tc2 htc2
              simp only [Option.some.injEq] at htc2
              subst htc2
              exact hb1
            · simp only [cache_slots]
              rw [List.perm_iff_count] at hp ⊢
              intro a
              have := hp a
              simp only [List.count_append] at this ⊢
              omega
        · rw [if_neg hg] at h
          exact absurd h (by simp)
  | flush t =>
    simp only [step] at h
    cases hc : s.caches[t]? with
    | none => rw [hc] at h; exact absurd h (by simp)
    | some c =>
      cases c with
      | none => rw [hc] at h; exact absurd h (by simp)
      | some tc =>
        rw [hc] at h
        simp only [Option.some.injEq] at h
        subst h
        obtain ⟨h0, hcap⟩ := bounded_get cap _ t _ hb hc
        obtain ⟨hb1, hp⟩ := cache_flush_perm cap s.pool tc h0 hcap
        refine sys_frame cap s t (some tc) (some (cache_flush cap s.pool tc).2)
          (cache_flush cap s.pool tc).1 s.held hc hb ?_ ?_
        · intro tc2 htc2
          simp only [Option.some.injEq] at htc2
          subst htc2
          exact hb1
        · simp only [cache_slots]
          rw [List.perm_iff_count] at hp ⊢
          intro a
          have := hp a
          simp only [List.count_append] at this ⊢
          omega
  | cleanup t =>
    simp only [step] at h
    cases hc : s.caches[t]? with
    | none => rw [hc] at h; exact absurd h (by simp)
    | some c =>
      rw [hc] at h
      simp only [Option.some.injEq] at h
      subst h
      obtain ⟨hn, hp⟩ := thread_cleanup_handler_perm s.pool c
        (fun tc htc => (bounded_get cap _ t tc hb (htc ▸ hc)).1)
      refine sys_frame cap s t c (thread_cleanup_handler s.pool c).2
        (thread_cleanup_handler s.pool c).1 s.held hc hb ?_ ?_
      · intro tc2 htc2
        rw [hn] at htc2
        exact absurd htc2 (by simp)
      · rw [hn]
        rw [List.perm_iff_count] at hp ⊢
        intro a
        have := hp a
        simp only [List.count_append, cache_slots, List.count_nil] at this ⊢
        omega

theorem run_inv (cap bs : Nat) (hbs : 0 < bs) (hle : bs ≤ cap) (ops : List op) :
    ∀ (s0 s : sys_state), run cap bs s0 ops = some s → bounded cap s0.caches →
      bounded cap s.caches ∧ (all_slots s).Perm (all_slots s0) := by
  induction ops with
  | nil =>
    intro s0 s h hb
    simp only [run, Option.some.injEq] at h
    subst h
    exact ⟨hb, List.Perm.refl _⟩
  | cons o os ih =>
    intro s0 s h hb
    simp only [run] at h
    cases hs : step cap bs s0 o with
    | none => rw [hs] at h; exact absurd h (by simp)
    | some s1 =>
      rw [hs] at h
      simp only at h
      obtain ⟨hb1, hp1⟩ := step_inv cap bs hbs hle s0 s1 o hs hb
      obtain ⟨hb2, hp2⟩ := ih s1 s h hb1
      exact ⟨hb2, hp2.trans hp1⟩

/-! ## The state built by `mp_pool_create` -/

theorem ALIGN_UP_OBJECT_SIZE : ALIGN_UP OBJECT_SIZE CACHE_LINE = 2048 := by
  decide

theorem mp_pool_create_loop_eq (obj_sz : Nat) (k : Nat) : ∀ (p : Nat) (acc : List Nat),
    mp_pool_create_loop obj_sz k p acc =
      ((List.range k).map (fun i => p + i * obj_sz)).reverse ++ acc := by
  induction k with
  | zero => intro p acc; rfl
  | succ k ih =>
    intro p acc
    rw [mp_pool_create_loop, ih, List.range_succ_eq_map, List.map_cons, List.reverse_cons,
      List.map_map, List.append_assoc]
    simp only [Nat.zero_mul, Nat.add_zero, List.singleton_append]
    congr 2
    apply List.map_congr_left
    intro a _
    simp only [Function.comp, Nat.succ_eq_add_one]
    ring

theorem mp_pool_create_free_head (count : Int) (base : Nat) (pool : global_pool_t)
    (h : mp_pool_create count (some base) = some pool) :
    pool.free_head = ((List.range count.toNat).map (fun i => base + i * 2048)).reverse := by
  unfold mp_pool_create at h
  simp only [Option.some.injEq] at h
  subst h
  simp only
  rw [mp_pool_create_loop_eq, ALIGN_UP_OBJECT_SIZE, List.append_nil]

theorem sys_init_spec (capacity : Int) (base pool_ptr nthreads : Nat) (s0 : sys_state)
    (h : sys_init capacity (some base) pool_ptr nthreads = some s0) :
    bounded LOCAL_CACHE_CAPACITY s0.caches ∧ (all_slots s0).Nodup ∧
      (all_slots s0).length = capacity.toNat := by
  unfold sys_init at h
  cases hp : mp_pool_create capacity (some base) with
  | none => rw [hp] at h; exact absurd h (by simp)
  | some pool =>
    rw [hp] at h
    simp only [Option.some.injEq] at h
    subst h
    have hf := mp_pool_create_free_head capacity base pool hp
    have hcs : ∀ n, cached_slots (List.replicate n none) = [] := by
      intro n
      induction n with
      | zero => rfl
      | succ n ih => simp [List.replicate_succ, cached_slots, cache_slots, ih]
    refine ⟨?_, ?_, ?_⟩
    · intro tc htc
      simp only [List.mem_replicate] at htc
      exact absurd htc.2 (by simp)
    · unfold all_slots
      simp only [hcs, List.append_nil, hf, List.nodup_reverse]
      refine List.Nodup.map ?_ (List.nodup_range _)
      intro a b hab
      simp only at hab
      omega
    · unfold all_slots
      simp only [hcs, List.append_nil, hf, List.length_reverse, List.length_map, List.length_range]

theorem sys_init_none (capacity : Int) (pool_ptr nthreads : Nat) :
    sys_init capacity none pool_ptr nthreads = none := rfl

theorem reachable_inv (capacity : Int) (mmap_result : Option Nat) (pool_ptr nthreads : Nat)
    (ops : List op) (s0 s : sys_state)
    (h0 : sys_init capacity mmap_result pool_ptr nthreads = some s0)
    (hrun : run LOCAL_CACHE_CAPACITY BATCH_SIZE s0 ops = some s) :
    bounded LOCAL_CACHE_CAPACITY s.caches ∧ (all_slots s).Nodup ∧
      (all_slots s).length = capacity.toNat := by
  cases mmap_result with
  | none => rw [sys_init_none] at h0; exact absurd h0 (by simp)
  | some base =>
    obtain ⟨hb0, hn0, hl0⟩ := sys_init_spec capacity base pool_ptr nthreads s0 h0
    obtain ⟨hb, hp⟩ := run_inv LOCAL_CACHE_CAPACITY BATCH_SIZE (by decide) (by decide) ops s0 s
      hrun hb0
    exact ⟨hb, hp.nodup_iff.mpr hn0, hp.length_eq.trans hl0⟩

/-! ## The contract -/

/-- C1 (no double-issue): in every state reached from `mp_pool_create(capacity)`
by completed calls, no slot occurs twice among the pool free list, the thread
caches and the slots held by callers; and an `mp_alloc` that completes in such
a state returns a slot that no caller holds. -/
theorem no_double_issue (capacity : Int) (mmap_result : Option Nat) (pool_ptr nthreads : Nat)
    (ops : List op) (s0 s : sys_state)
    (h0 : sys_init capacity mmap_result pool_ptr nthreads = some s0)
    (hrun : run LOCAL_CACHE_CAPACITY BATCH_SIZE s0 ops = some s) :
    (all_slots s).Nodup ∧
      ∀ (t : Nat) (tc : thread_cache_t) (r : Nat) (pool1 : global_pool_t) (tc1 : thread_cache_t),
        s.caches[t]? = some (some tc) →
        mp_alloc BATCH_SIZE [] s.pool tc = some (r, pool1, tc1) → r ∉ s.held := by
  obtain ⟨hb, hn, -⟩ := reachable_inv capacity mmap_result pool_ptr nthreads ops s0 s h0 hrun
  refine ⟨hn, ?_⟩
  intro t tc r pool1 tc1 hc hm
  have hstep : step LOCAL_CACHE_CAPACITY BATCH_SIZE s (op.alloc t) =
      some ⟨s.pool_ptr, pool1, s.caches.set t (some tc1), r :: s.held⟩ := by
    simp only [step, hc, hm]
  have hp := (step_inv LOCAL_CACHE_CAPACITY BATCH_SIZE (by decide) (by decide) s _ _ hstep hb).2
  have hn1 := hp.nodup_iff.mpr hn
  unfold all_slots at hn1
  simp only at hn1
  exact (List.nodup_cons.mp hn1.of_append_right.of_append_right).1

/-- C2 (conservation): in every state reached from `mp_pool_create(capacity)` by
completed calls, the length of the pool free list plus the `count` of all
thread caches plus the number of held slots is `capacity`. -/
theorem slots_conserved (capacity : Nat) (mmap_result : Option Nat) (pool_ptr nthreads : Nat)
    (ops : List op) (s0 s : sys_state)
    (h0 : sys_init (capacity : Int) mmap_result pool_ptr nthreads = some s0)
    (hrun : run LOCAL_CACHE_CAPACITY BATCH_SIZE s0 ops = some s) :
    (s.pool.free_head.length : Int) + cached_count s.caches + (s.held.length : Int)
      = (capacity : Int) := by
  obtain ⟨hb, -, hl⟩ := reachable_inv capacity mmap_result pool_ptr nthreads ops s0 s h0 hrun
  have hc := cached_slots_length LOCAL_CACHE_CAPACITY s.caches hb
  unfold all_slots at hl
  simp only [List.length_append, Int.toNat_ofNat] at hl
  omega

theorem no_double_issue_witness :
    ∃ s0 s, sys_init 3 (some 4096) 64 2 = some s0 ∧
      run LOCAL_CACHE_CAPACITY BATCH_SIZE s0
        [op.thread_init 0, op.alloc 0, op.free 0 4096, op.flush 0, op.cleanup 0] = some s ∧
      ((all_slots s).Nodup ∧
        ∀ (t : Nat) (tc : thread_cache_t) (r : Nat) (pool1 : global_pool_t)
          (tc1 : thread_cache_t),
          s.caches[t]? = some (some tc) →
          mp_alloc BATCH_SIZE [] s.pool tc = some (r, pool1, tc1) → r ∉ s.held) :=
  ⟨_, _, rfl, rfl, no_double_issue 3 (some 4096) 64 2
    [op.thread_init 0, op.alloc 0, op.free 0 4096, op.flush 0, op.cleanup 0] _ _ rfl rfl⟩

theorem slots_conserved_witness :
    ∃ s0 s, sys_init ((3 : Nat) : Int) (some 4096) 64 1 = some s0 ∧
      run LOCAL_CACHE_CAPACITY BATCH_SIZE s0
        [op.thread_init 0, op.refill 0, op.alloc 0, op.free 0 4096] = some s ∧
      (s.pool.free_head.length : Int) + cached_count s.caches + (s.held.length : Int)
        = ((3 : Nat) : Int) :=
  ⟨_, _, rfl, rfl, slots_conserved 3 (some 4096) 64 1
    [op.thread_init 0, op.refill 0, op.alloc 0, op.free 0 4096] _ _ rfl rfl⟩

theorem cache_refill_bound (cap bs : Nat) (hle : bs ≤ cap) (wakes : List global_pool_t)
    (pool : global_pool_t) (tc : thread_cache_t) (hz : tc.count = 0)
    (pool1 : global_pool_t) (tc1 : thread_cache_t)
    (h : cache_refill bs wakes pool tc = some (pool1, tc1)) :
    ∃ seen tcw, cache_refill_wait wakes pool tc = some (seen, tcw) ∧ seen ∈ pool :: wakes ∧
      seen.free_head ≠ [] ∧ tcw.count = 0 ∧ (pool1, tc1) = cache_refill_fetch bs seen tcw ∧
      1 ≤ tc1.count + (if bs = 0 then 1 else 0) ∧ 0 ≤ tc1.count ∧ tc1.count ≤ (cap : Int) := by
  unfold cache_refill at h
  cases hw : cache_refill_wait wakes pool tc with
  | none => rw [hw] at h; exact absurd h (by simp)
  | some res =>
    obtain ⟨seen, tcw⟩ := res
    rw [hw] at h
    simp only [Option.some.injEq] at h
    obtain ⟨hm, hne, -, hcnt, -⟩ := cache_refill_wait_some wakes pool tc seen tcw hw
    have hcz : tcw.count = 0 := by omega
    have e2 := (cache_refill_fetch_spec bs seen tcw (by omega)).2.1
    rw [h] at e2
    simp only at e2
    have hlen : 0 < seen.free_head.length := List.length_pos.mpr hne
    refine ⟨seen, tcw, rfl, hm, hne, hcz, h.symm, ?_, by omega, by omega⟩
    split <;> omega

theorem mp_alloc_bound (cap bs : Nat) (hle : bs ≤ cap) (wakes : List global_pool_t)
    (pool : global_pool_t) (tc : thread_cache_t) (h0 : 0 ≤ tc.count) (hc : tc.count ≤ (cap : Int))
    (r : Nat) (pool1 : global_pool_t) (tc1 : thread_cache_t)
    (h : mp_alloc bs wakes pool tc = some (r, pool1, tc1)) :
    0 ≤ tc1.count ∧ tc1.count ≤ (cap : Int) := by
  by_cases hpos : 0 < tc.count
  · rw [mp_alloc_fast bs wakes pool tc hpos] at h
    simp only [Option.some.injEq, Prod.mk.injEq] at h
    obtain ⟨-, -, rfl⟩ := h
    exact ⟨by simp only; omega, by simp only; omega⟩
  · unfold mp_alloc at h
    rw [if_neg hpos] at h
    cases hr : cache_refill bs wakes pool tc with
    | none => rw [hr] at h; exact absurd h (by simp)
    | some res =>
      obtain ⟨p1, t1⟩ := res
      rw [hr] at h
      simp only at h
      obtain ⟨-, -, -, -, -, -, -, -, hb0, hb1⟩ :=
        cache_refill_bound cap bs hle wakes pool tc (by omega) p1 t1 hr
      by_cases hp1 : 0 < t1.count
      · rw [if_pos hp1] at h
        simp only [Option.some.injEq, Prod.mk.injEq] at h
        obtain ⟨-, -, rfl⟩ := h
        exact ⟨by simp only; omega, by simp only; omega⟩
      · rw [if_neg hp1] at h
        simp only [Option.some.injEq, Prod.mk.injEq] at h
        obtain ⟨-, -, rfl⟩ := h
        exact ⟨hb0, hb1⟩

theorem mp_free_bound (cap : Nat) (hcap : 0 < cap) (pool : global_pool_t) (tc : thread_cache_t)
    (h0 : 0 ≤ tc.count) (hc : tc.count ≤ (cap : Int)) (p : Nat)
    (pool1 : global_pool_t) (tc1 : thread_cache_t)
    (h : mp_free cap pool (some tc) p = some (pool1, some tc1)) :
    0 ≤ tc1.count ∧ tc1.count ≤ (cap : Int) := by
  by_cases hp : p = 0
  · subst hp
    simp only [mp_free, if_true, Option.some.injEq, Prod.mk.injEq] at h
    obtain ⟨-, rfl⟩ := h
    exact ⟨h0, hc⟩
  · obtain ⟨tc2, e, hb, -⟩ := mp_free_perm cap hcap pool tc h0 hc p hp pool1 (some tc1) h
    simp only [Option.some.injEq] at e
    subst e
    exact hb

theorem cache_step_bound (cap bs : Nat) (hcap : 0 < cap) (hle : bs ≤ cap) (tc tc1 : thread_cache_t)
    (c : cache_call) (h : cache_step cap bs tc c = some tc1)
    (h0 : 0 ≤ tc.count) (hc : tc.count ≤ (cap : Int)) :
    0 ≤ tc1.count ∧ tc1.count ≤ (cap : Int) := by
  cases c with
  | alloc wakes pool =>
    simp only [cache_step] at h
    cases hm : mp_alloc bs wakes pool tc with
    | none => rw [hm] at h; exact absurd h (by simp)
    | some res =>
      obtain ⟨r, pool1, tc2⟩ := res
      rw [hm] at h
      simp only [Option.some.injEq] at h
      subst h
      exact mp_alloc_bound cap bs hle wakes pool tc h0 hc r pool1 _ hm
  | free pool ptr =>
    simp only [cache_step] at h
    cases hm : mp_free cap pool (some tc) ptr with
    | none => rw [hm] at h; exact absurd h (by simp)
    | some res =>
      obtain ⟨pool1, c1⟩ := res
      cases c1 with
      | none => rw [hm] at h; exact absurd h (by simp)
      | some tc2 =>
        rw [hm] at h
        simp only [Option.some.injEq] at h
        subst h
        exact mp_free_bound cap hcap pool tc h0 hc ptr pool1 _ hm
  | refill wakes pool =>
    simp only [cache_step] at h
    by_cases hg : ¬ 0 < tc.count
    · rw [if_pos hg] at h
      cases hm : cache_refill bs wakes pool tc with
      | none => rw [hm] at h; exact absurd h (by simp)
      | some res =>
        obtain ⟨pool1, tc2⟩ := res
        rw [hm] at h
        simp only [Option.some.injEq] at h
        subst h
        obtain ⟨-, -, -, -, -, -, -, -, hb0, hb1⟩ :=
          cache_refill_bound cap bs hle wakes pool tc (by omega) pool1 _ hm
        exact ⟨hb0, hb1⟩
    · rw [if_neg hg] at h
      exact absurd h (by simp)
  | flush pool =>
    simp only [cache_step, Option.some.injEq] at h
    subst h
    exact (cache_flush_perm cap pool tc h0 hc).1

theorem cache_run_bound (cap bs : Nat) (hcap : 0 < cap) (hle : bs ≤ cap) (calls : List cache_call) :
    ∀ (tc tc1 : thread_cache_t), cache_run cap bs tc calls = some tc1 →
      0 ≤ tc.count → tc.count ≤ (cap : Int) → 0 ≤ tc1.count ∧ tc1.count ≤ (cap : Int) := by
  induction calls with
  | nil =>
    intro tc tc1 h h0 hc
    simp only [cache_run, Option.some.injEq] at h
    subst h
    exact ⟨h0, hc⟩
  | cons c cs ih =>
    intro tc tc1 h h0 hc
    simp only [cache_run] at h
    cases hs : cache_step cap bs tc c with
    | none => rw [hs] at h; exact absurd h (by simp)
    | some tc2 =>
      rw [hs] at h
      simp only at h
      obtain ⟨hb0, hb1⟩ := cache_step_bound cap bs hcap hle tc tc2 c hs h0 hc
      exact ih tc2 tc1 h hb0 hb1

/-- C3 (cache bound): a cache created by `mp_thread_init` satisfies
`0 <= count <= LOCAL_CACHE_CAPACITY` after every sequence of completed
`mp_alloc` / `mp_free` calls of its thread and after the `cache_refill` /
`cache_flush` they trigger, whatever the pool states the calls find and
whatever pointers are freed.  Hence the next access to `objects[]` is in range:
the index `count - 1` read by the fast path of `mp_alloc`, the index written by
`mp_free` (the `count` left by the flush when the cache is full), and the
indices below the new `count` written by a refill. -/
theorem cache_bound (global : Nat) (calls : List cache_call) (tc0 tc : thread_cache_t)
    (hinit : mp_thread_init none global = some tc0)
    (hrun : cache_run LOCAL_CACHE_CAPACITY BATCH_SIZE tc0 calls = some tc) :
    (0 ≤ tc.count ∧ tc.count ≤ (LOCAL_CACHE_CAPACITY : Int)) ∧
    (0 < tc.count → 0 ≤ tc.count - 1 ∧ (tc.count - 1).toNat < LOCAL_CACHE_CAPACITY) ∧
    (∀ pool, ¬ tc.count < (LOCAL_CACHE_CAPACITY : Int) →
      0 ≤ (cache_flush LOCAL_CACHE_CAPACITY pool tc).2.count ∧
      (cache_flush LOCAL_CACHE_CAPACITY pool tc).2.count.toNat < LOCAL_CACHE_CAPACITY) ∧
    (∀ seen, ¬ 0 < tc.count →
      (cache_refill_fetch BATCH_SIZE seen tc).2.count ≤ (LOCAL_CACHE_CAPACITY : Int)) := by
  simp only [mp_thread_init, Option.some.injEq] at hinit
  subst hinit
  obtain ⟨h0, hc⟩ := cache_run_bound LOCAL_CACHE_CAPACITY BATCH_SIZE (by decide) (by decide)
    calls _ tc hrun (by simp) (by simp)
  have hcap : ((LOCAL_CACHE_CAPACITY : Nat) : Int) = 512 := rfl
  have hcapn : LOCAL_CACHE_CAPACITY = 512 := rfl
  have hbs : BATCH_SIZE = 32 := rfl
  refine ⟨⟨h0, hc⟩, fun hpos => ⟨by omega, by omega⟩, fun pool hfull => ?_, fun seen hz => ?_⟩
  · rw [cache_flush_spec LOCAL_CACHE_CAPACITY pool tc (by omega)]
    simp only
    omega
  · have e2 := (cache_refill_fetch_spec BATCH_SIZE seen tc h0).2.1
    omega

theorem cache_bound_witness :
    ∃ tc0 tc, mp_thread_init none 64 = some tc0 ∧
      cache_run LOCAL_CACHE_CAPACITY BATCH_SIZE tc0
        [cache_call.alloc [] pool3, cache_call.free pool0 4096, cache_call.flush pool0] = some tc ∧
      (0 ≤ tc.count ∧ tc.count ≤ (LOCAL_CACHE_CAPACITY : Int)) :=
  ⟨_, _, rfl, rfl, (cache_bound 64
    [cache_call.alloc [] pool3, cache_call.free pool0 4096, cache_call.flush pool0] _ _ rfl rfl).1⟩

theorem cache_refill_wait_exists : ∀ (wakes : List global_pool_t) (pool : global_pool_t)
    (tc : thread_cache_t), (∃ p ∈ pool :: wakes, p.free_head ≠ []) →
    ∃ res, cache_refill_wait wakes pool tc = some res := by
  intro wakes
  induction wakes with
  | nil =>
    intro pool tc h
    obtain ⟨p, hp, hne⟩ := h
    simp only [List.mem_singleton] at hp
    subst hp
    exact ⟨_, cache_refill_wait_nonempty [] p tc hne⟩
  | cons q ws ih =>
    intro pool tc h
    by_cases he : pool.free_head = []
    · unfold cache_refill_wait
      rw [if_pos he]
      simp only
      apply ih
      obtain ⟨p, hp, hne⟩ := h
      simp only [List.mem_cons] at hp
      rcases hp with rfl | hp
      · exact absurd he hne
      · exact ⟨p, by simpa using hp, hne⟩
    · exact ⟨_, cache_refill_wait_nonempty _ pool tc he⟩

theorem mp_alloc_after_wait (bs : Nat) (wakes : List global_pool_t) (pool seen : global_pool_t)
    (tc tcw : thread_cache_t) (hz : ¬ 0 < tc.count)
    (hw : cache_refill_wait wakes pool tc = some (seen, tcw)) :
    cache_refill bs wakes pool tc = some (cache_refill_fetch bs seen tcw) ∧
      mp_alloc bs wakes pool tc = mp_alloc bs [] seen tcw := by
  obtain ⟨-, hne, -, hcnt, -⟩ := cache_refill_wait_some wakes pool tc seen tcw hw
  have hr : cache_refill bs wakes pool tc = some (cache_refill_fetch bs seen tcw) := by
    unfold cache_refill
    rw [hw]
  refine ⟨hr, ?_⟩
  unfold mp_alloc
  rw [if_neg hz, if_neg (by omega), hr, cache_refill_nonempty bs [] seen tcw hne]

theorem refill_from_empty (bs : Nat) (hbs : 0 < bs)
    (pool : global_pool_t) (tc : thread_cache_t) (hz : tc.count = 0) (hL : pool.free_head ≠ []) :
    (cache_refill_fetch bs pool tc).1.free_head = pool.free_head.drop bs ∧
      live (cache_refill_fetch bs pool tc).2 = pool.free_head.take bs ∧
      (cache_refill_fetch bs pool tc).2.count = ((min bs pool.free_head.length : Nat) : Int) ∧
      1 ≤ (cache_refill_fetch bs pool tc).2.count ∧
      (cache_refill_fetch bs pool tc).2.objects ((cache_refill_fetch bs pool tc).2.count - 1).toNat
        ∈ pool.free_head := by
  obtain ⟨e1, e2, e3, -⟩ := cache_refill_fetch_spec bs pool tc (by omega)
  have hl : live tc = [] := by unfold live; rw [hz]; rfl
  have hlen : 0 < pool.free_head.length := List.length_pos.mpr hL
  rw [hl, List.nil_append] at e3
  refine ⟨by rw [e1], e3, by omega, by omega, ?_⟩
  have hpop := live_pop (cache_refill_fetch bs pool tc).2 (by omega)
    (cache_refill_fetch bs pool tc).2.alloc_cnt
  rw [e3] at hpop
  apply List.mem_of_mem_take (n := bs)
  rw [hpop]
  simp

/-- C4 (`mp_alloc` succeeds when it returns): for a cache with `count = 0`,
whenever `cache_refill` returns it has found, at the entry or on re-acquiring
the lock after a wake-up, a pool state `seen` with a non-empty free list and
has moved the first `min(BATCH_SIZE, |list|)` slots of it into the cache, so
`count >= 1` after the refill and `mp_alloc` returns `objects[count-1]`, a slot
of that free list, not the `NULL` of the exhausted branch.  `mp_alloc` returns
exactly when some pool state it finds has a non-empty free list: it stays
blocked as long as every state found is empty. -/
theorem mp_alloc_succeeds (wakes : List global_pool_t) (pool : global_pool_t)
    (tc : thread_cache_t) (hz : tc.count = 0) :
    (∀ pool1 tc1, cache_refill BATCH_SIZE wakes pool tc = some (pool1, tc1) →
      (∃ seen, seen ∈ pool :: wakes ∧ seen.free_head ≠ [] ∧
        pool1.free_head = seen.free_head.drop BATCH_SIZE ∧
        live tc1 = seen.free_head.take BATCH_SIZE ∧
        tc1.objects (tc1.count - 1).toNat ∈ seen.free_head ∧
        (0 ∉ seen.free_head → tc1.objects (tc1.count - 1).toNat ≠ 0)) ∧
      1 ≤ tc1.count ∧
      mp_alloc BATCH_SIZE wakes pool tc =
        some (tc1.objects (tc1.count - 1).toNat, pool1,
          { tc1 with alloc_cnt := tc1.alloc_cnt + 1, count := tc1.count - 1 })) ∧
    ((∀ p ∈ pool :: wakes, p.free_head = []) → mp_alloc BATCH_SIZE wakes pool tc = none) ∧
    ((∃ p ∈ pool :: wakes, p.free_head ≠ []) →
      ∃ res, mp_alloc BATCH_SIZE wakes pool tc = some res) := by
  have hnp : ¬ 0 < tc.count := by omega
  refine ⟨?_, ?_, ?_⟩
  · intro pool1 tc1 h
    obtain ⟨seen, tcw, hw, hm, hne, hcz, hfetch, -⟩ :=
      cache_refill_bound LOCAL_CACHE_CAPACITY BATCH_SIZE (by decide) wakes pool tc hz pool1 tc1 h
    obtain ⟨f1, f2, f3, f4, f5⟩ := refill_from_empty BATCH_SIZE (by decide) seen tcw hcz hne
    rw [← hfetch] at f1 f2 f3 f4 f5
    simp only at f1 f2 f3 f4 f5
    refine ⟨⟨seen, hm, hne, f1, f2, f5, fun h0 e => h0 (e ▸ f5)⟩, f4, ?_⟩
    rw [(mp_alloc_after_wait BATCH_SIZE wakes pool seen tc tcw hnp hw).2,
      mp_alloc_slow BATCH_SIZE [] seen tcw hcz (by decide) hne, ← hfetch]
  · intro hall
    unfold mp_alloc
    rw [if_neg hnp]
    unfold cache_refill
    rw [cache_refill_wait_none wakes pool tc hall]
  · intro hex
    obtain ⟨res, hw⟩ := cache_refill_wait_exists wakes pool tc hex
    obtain ⟨seen, tcw⟩ := res
    obtain ⟨-, hne, -, hcnt, -⟩ := cache_refill_wait_some wakes pool tc seen tcw hw
    rw [(mp_alloc_after_wait BATCH_SIZE wakes pool seen tc tcw hnp hw).2,
      mp_alloc_slow BATCH_SIZE [] seen tcw (by omega) (by decide) hne]
    exact ⟨_, rfl⟩

theorem mp_alloc_succeeds_witness :
    cache0.count = 0 ∧
    mp_alloc BATCH_SIZE [pool0, pool0] pool0 cache0 = none ∧
    ∃ res, mp_alloc BATCH_SIZE [pool0, pool3] pool0 cache0 = some res :=
  ⟨rfl, (mp_alloc_succeeds [pool0, pool0] pool0 cache0 rfl).2.1 (by decide),
    (mp_alloc_succeeds [pool0, pool3] pool0 cache0 rfl).2.2 ⟨pool3, by simp, by decide⟩⟩

/-- C5 (`mp_alloc` fast path): with `count > 0`, `mp_alloc` returns immediately
the last entry `objects[count-1]`, leaves the pool (so its free list) and the
array `objects` (so the entries `objects[0..count-2]`) unchanged, decreases
`count` by 1 and increases `alloc_cnt` by 1; the other fields are unchanged. -/
theorem mp_alloc_fast_path (bs : Nat) (wakes : List global_pool_t) (pool : global_pool_t)
    (tc : thread_cache_t) (h : 0 < tc.count) :
    ∃ tc1, mp_alloc bs wakes pool tc = some (tc.objects (tc.count - 1).toNat, pool, tc1) ∧
      tc1.count = tc.count - 1 ∧ tc1.objects = tc.objects ∧
      live tc = live tc1 ++ [tc.objects (tc.count - 1).toNat] ∧
      tc1.alloc_cnt = tc.alloc_cnt + 1 ∧ tc1.free_cnt = tc.free_cnt ∧
      tc1.wait_cnt = tc.wait_cnt ∧ tc1.global = tc.global :=
  ⟨_, mp_alloc_fast bs wakes pool tc h, rfl, rfl, live_pop tc h _, rfl, rfl, rfl, rfl⟩

theorem mp_alloc_fast_path_witness :
    0 < cache2.count ∧
    ∃ tc1, mp_alloc BATCH_SIZE [] pool3 cache2 =
        some (cache2.objects (cache2.count - 1).toNat, pool3, tc1) ∧
      tc1.count = cache2.count - 1 ∧ tc1.objects = cache2.objects ∧
      live cache2 = live tc1 ++ [cache2.objects (cache2.count - 1).toNat] ∧
      tc1.alloc_cnt = cache2.alloc_cnt + 1 ∧ tc1.free_cnt = cache2.free_cnt ∧
      tc1.wait_cnt = cache2.wait_cnt ∧ tc1.global = cache2.global :=
  ⟨by decide, mp_alloc_fast_path BATCH_SIZE [] pool3 cache2 (by decide)⟩

/-- C6 (`mp_free` fast path): for a non-null `p` and `count < LOCAL_CACHE_CAPACITY`,
`mp_free(p)` stores `p` at index `count`, so `p` is the last entry afterwards,
increases `count` by 1 and `free_cnt` by 1, and leaves every earlier entry, the
other fields and the pool (so its free list) unchanged. -/
theorem mp_free_fast_path (pool : global_pool_t) (tc : thread_cache_t) (p : Nat) (hp : p ≠ 0)
    (h : tc.count < (LOCAL_CACHE_CAPACITY : Int)) :
    ∃ tc1, mp_free LOCAL_CACHE_CAPACITY pool (some tc) p = some (pool, some tc1) ∧
      tc1.count = tc.count + 1 ∧ tc1.objects (tc1.count - 1).toNat = p ∧
      (∀ i : Nat, (i : Int) < tc.count → tc1.objects i = tc.objects i) ∧
      tc1.free_cnt = tc.free_cnt + 1 ∧ tc1.alloc_cnt = tc.alloc_cnt ∧
      tc1.wait_cnt = tc.wait_cnt ∧ tc1.global = tc.global := by
  refine ⟨{ tc with free_cnt := tc.free_cnt + 1,
                    objects := Function.update tc.objects tc.count.toNat p,
                    count := tc.count + 1 }, ?_, rfl, ?_, ?_, rfl, rfl, rfl, rfl⟩
  · unfold mp_free
    rw [if_neg hp]
    simp only
    rw [if_pos h]
  · simp only
    have e : tc.count + 1 - 1 = tc.count := by omega
    rw [e, Function.update_same]
  · intro i hi
    simp only
    exact Function.update_noteq (by omega) _ _

theorem mp_free_fast_path_witness :
    (4096 : Nat) ≠ 0 ∧ cache2.count < (LOCAL_CACHE_CAPACITY : Int) ∧
    ∃ tc1, mp_free LOCAL_CACHE_CAPACITY pool3 (some cache2) 4096 = some (pool3, some tc1) ∧
      tc1.count = cache2.count + 1 ∧ tc1.objects (tc1.count - 1).toNat = 4096 ∧
      (∀ i : Nat, (i : Int) < cache2.count → tc1.objects i = cache2.objects i) ∧
      tc1.free_cnt = cache2.free_cnt + 1 ∧ tc1.alloc_cnt = cache2.alloc_cnt ∧
      tc1.wait_cnt = cache2.wait_cnt ∧ tc1.global = cache2.global :=
  ⟨by decide, by decide, mp_free_fast_path pool3 cache2 4096 (by decide) (by decide)⟩

/-- C7 (`mp_free(NULL)` is a no-op): whatever the pool and `t_cache` are (also a
null `t_cache`), the call returns with the pool and the cache unchanged. -/
theorem mp_free_null (cap : Nat) (pool : global_pool_t) (t_cache : Option thread_cache_t) :
    mp_free cap pool t_cache 0 = some (pool, t_cache) := by
  unfold mp_free
  rw [if_pos rfl]

theorem live_getElem (tc : thread_cache_t) (l : List Nat) (h : live tc = l) (i : Nat)
    (hi : i < tc.count.toNat) : l[i]? = some (tc.objects i) := by
  rw [← h]
  unfold live
  rw [List.getElem?_map, List.getElem?_range hi]
  rfl

/-- C10 (refill batch): for a cache with `count = 0` and a pool whose free list
`L` is non-empty, `cache_refill` returns at once and moves `m = min(BATCH_SIZE,
|L|)` slots: afterwards `count = m`, `objects[i] = L[i]` for `i < m` and the
free list is `L` without its first `m` elements; the `mp_alloc` that triggered
the refill returns `L[m-1]` and leaves `count = m - 1`, the same entries and
that free list. -/
theorem refill_batch (wakes : List global_pool_t) (pool : global_pool_t) (tc : thread_cache_t)
    (hz : tc.count = 0) (hL : pool.free_head ≠ []) :
    ∃ pool1 tc1 r tc2,
      cache_refill BATCH_SIZE wakes pool tc = some (pool1, tc1) ∧
      tc1.count = ((min BATCH_SIZE pool.free_head.length : Nat) : Int) ∧
      (∀ i, i < min BATCH_SIZE pool.free_head.length →
        pool.free_head[i]? = some (tc1.objects i)) ∧
      pool1.free_head = pool.free_head.drop (min BATCH_SIZE pool.free_head.length) ∧
      mp_alloc BATCH_SIZE wakes pool tc = some (r, pool1, tc2) ∧
      pool.free_head[min BATCH_SIZE pool.free_head.length - 1]? = some r ∧
      tc2.count = ((min BATCH_SIZE pool.free_head.length : Nat) : Int) - 1 ∧
      tc2.objects = tc1.objects := by
  obtain ⟨f1, f2, f3, f4, -⟩ := refill_from_empty BATCH_SIZE (by decide) pool tc hz hL
  have hlen : 0 < pool.free_head.length := List.length_pos.mpr hL
  have hget : ∀ i, i < min BATCH_SIZE pool.free_head.length →
      pool.free_head[i]? = some ((cache_refill_fetch BATCH_SIZE pool tc).2.objects i) := by
    intro i hi
    have := live_getElem _ _ f2 i (by omega)
    rw [List.getElem?_take_of_lt (by omega)] at this
    exact this
  have hdrop : pool.free_head.drop BATCH_SIZE =
      pool.free_head.drop (min BATCH_SIZE pool.free_head.length) := by
    by_cases hle : BATCH_SIZE ≤ pool.free_head.length
    · rw [Nat.min_eq_left hle]
    · rw [Nat.min_eq_right (by omega), List.drop_length,
        List.drop_eq_nil_of_le (by omega)]
  refine ⟨_, _, _, _, cache_refill_nonempty BATCH_SIZE wakes pool tc hL, f3, hget,
    f1.trans hdrop, mp_alloc_slow BATCH_SIZE wakes pool tc hz (by decide) hL, ?_, ?_, rfl⟩
  · have hm : 0 < min BATCH_SIZE pool.free_head.length :=
      Nat.lt_min.mpr ⟨by decide, hlen⟩
    have := hget (min BATCH_SIZE pool.free_head.length - 1) (by omega)
    rw [this, f3]
    congr 2
    omega
  · simp only
    rw [f3]

theorem refill_batch_witness :
    cache0.count = 0 ∧ pool3.free_head ≠ [] ∧
    ∃ pool1 tc1 r tc2,
      cache_refill BATCH_SIZE [] pool3 cache0 = some (pool1, tc1) ∧
      tc1.count = ((min BATCH_SIZE pool3.free_head.length : Nat) : Int) ∧
      (∀ i, i < min BATCH_SIZE pool3.free_head.length →
        pool3.free_head[i]? = some (tc1.objects i)) ∧
      pool1.free_head = pool3.free_head.drop (min BATCH_SIZE pool3.free_head.length) ∧
      mp_alloc BATCH_SIZE [] pool3 cache0 = some (r, pool1, tc2) ∧
      pool3.free_head[min BATCH_SIZE pool3.free_head.length - 1]? = some r ∧
      tc2.count = ((min BATCH_SIZE pool3.free_head.length : Nat) : Int) - 1 ∧
      tc2.objects = tc1.objects :=
  ⟨rfl, by decide, refill_batch [] pool3 cache0 rfl (by decide)⟩

theorem holds_list_update (next : Nat → Nat) (p v : Nat) (l : List Nat) :
    ∀ q, p ∉ l → holds_list next q l → holds_list (Function.update next p v) q l := by
  induction l with
  | nil => exact fun q _ h => h
  | cons x xs ih =>
    intro q hp h
    obtain ⟨h1, h2, h3⟩ := h
    have hx : x ≠ p := fun e => hp (e ▸ List.mem_cons_self _ _)
    refine ⟨h1, h2, ?_⟩
    rw [Function.update_noteq hx]
    exact ih _ (fun hm => hp (List.mem_cons_of_mem _ hm)) h3

theorem range_map_shift (f : Nat → Nat) (i k : Nat) :
    (List.range (k + 1)).map (fun j => f (i + j))
      = f i :: (List.range k).map (fun j => f (i + 1 + j)) := by
  rw [List.range_succ_eq_map, List.map_cons, List.map_map]
  simp only [Nat.add_zero, List.cons.injEq, true_and]
  apply List.map_congr_left
  intro a _
  simp only [Function.comp]
  congr 1
  omega

theorem link_loop_frame (objects : Nat → Nat) (k : Nat) :
    ∀ (i : Nat) (next : Nat → Nat) (cur : Nat),
      (link_loop objects k i next cur).2 ∈ cur :: (List.range k).map (fun j => objects (i + j)) ∧
      ∀ p, p ∉ cur :: (List.range k).map (fun j => objects (i + j)) →
        (link_loop objects k i next cur).1 p = next p := by
  induction k with
  | zero =>
    intro i next cur
    exact ⟨List.mem_cons_self _ _, fun _ _ => rfl⟩
  | succ k ih =>
    intro i next cur
    rw [range_map_shift]
    have e : link_loop objects (k + 1) i next cur
        = link_loop objects k (i + 1) (Function.update next cur (objects i)) (objects i) := by
      simp only [link_loop, Function.update_same]
    rw [e]
    obtain ⟨m1, m2⟩ := ih (i + 1) (Function.update next cur (objects i)) (objects i)
    refine ⟨List.mem_cons_of_mem _ m1, fun p hp => ?_⟩
    rw [m2 p (fun hm => hp (List.mem_cons_of_mem _ hm))]
    exact Function.update_noteq (fun e1 => hp (by rw [e1]; exact List.mem_cons_self _ _)) _ _

theorem link_loop_spec (objects : Nat → Nat) (l : List Nat) (free_head : Nat) (k : Nat) :
    ∀ (i : Nat) (next : Nat → Nat) (cur : Nat),
      (cur :: ((List.range k).map (fun j => objects (i + j)) ++ l)).Nodup →
      cur ≠ 0 → (∀ p ∈ (List.range k).map (fun j => objects (i + j)), p ≠ 0) →
      holds_list next free_head l →
      holds_list
        (Function.update (link_loop objects k i next cur).1 (link_loop objects k i next cur).2
          free_head)
        cur (cur :: ((List.range k).map (fun j => objects (i + j)) ++ l)) := by
  induction k with
  | zero =>
    intro i next cur hnd hc _ hl
    have hcl : cur ∉ l := by
      simpa using (List.nodup_cons.mp hnd).1
    refine ⟨rfl, hc, ?_⟩
    simp only [link_loop, Function.update_same, List.range_zero, List.map_nil, List.nil_append]
    exact holds_list_update next cur free_head l free_head hcl hl
  | succ k ih =>
    intro i next cur hnd hc hz hl
    rw [range_map_shift] at hnd hz ⊢
    have e : link_loop objects (k + 1) i next cur
        = link_loop objects k (i + 1) (Function.update next cur (objects i)) (objects i) := by
      simp only [link_loop, Function.update_same]
    rw [e]
    obtain ⟨hcur, hnd1⟩ := List.nodup_cons.mp hnd
    have hcl : cur ∉ l := fun hm =>
      hcur (List.mem_cons_of_mem _ (List.mem_append_right _ hm))
    have hcs : cur ∉ objects i :: (List.range k).map (fun j => objects (i + 1 + j)) := fun hm =>
      hcur (List.mem_append_left _ hm)
    have step := ih (i + 1) (Function.update next cur (objects i)) (objects i) hnd1
      (hz _ (List.mem_cons_self _ _)) (fun p hp => hz p (List.mem_cons_of_mem _ hp))
      (holds_list_update next cur (objects i) l free_head hcl hl)
    obtain ⟨m1, m2⟩ := link_loop_frame objects k (i + 1) (Function.update next cur (objects i))
      (objects i)
    refine ⟨rfl, hc, ?_⟩
    have hlast : cur ≠ (link_loop objects k (i + 1) (Function.update next cur (objects i))
        (objects i)).2 := fun e1 => hcs (e1 ▸ m1)
    have hval : Function.update
        (link_loop objects k (i + 1) (Function.update next cur (objects i)) (objects i)).1
        (link_loop objects k (i + 1) (Function.update next cur (objects i)) (objects i)).2
        free_head cur = objects i := by
      rw [Function.update_noteq hlast, m2 cur hcs, Function.update_same]
    rw [hval]
    exact step

theorem thread_cleanup_handler_mem_spec (next : Nat → Nat) (free_head : Nat) (l : List Nat)
    (tc : thread_cache_t) (hpos : 0 < tc.count) (hl : holds_list next free_head l)
    (hnd : (live tc ++ l).Nodup) (hz : ∀ p ∈ live tc, p ≠ 0) :
    ∃ next1, thread_cleanup_handler_mem next free_head (some tc) = (next1, tc.objects 0, none) ∧
      holds_list next1 (tc.objects 0) (live tc ++ l) := by
  obtain ⟨m, hm⟩ : ∃ m, tc.count.toNat = m + 1 := ⟨tc.count.toNat - 1, by omega⟩
  have hlive : live tc = tc.objects 0 :: (List.range m).map (fun j => tc.objects (1 + j)) := by
    unfold live
    rw [hm]
    have := range_map_shift tc.objects 0 m
    simp only [Nat.zero_add] at this
    exact this
  rw [hlive] at hnd hz ⊢
  have hne : ¬ tc.count = 0 := by omega
  have hk : tc.count.toNat - 1 = m := by omega
  refine ⟨Function.update (link_loop tc.objects m 1 next (tc.objects 0)).1
    (link_loop tc.objects m 1 next (tc.objects 0)).2 free_head, ?_, ?_⟩
  · simp only [thread_cleanup_handler_mem, if_neg hne, hk, Function.update_idem]
  · exact link_loop_spec tc.objects l free_head m 1 next (tc.objects 0) hnd
      (hz _ (List.mem_cons_self _ _)) (fun p hp => hz p (List.mem_cons_of_mem _ hp)) hl

/-- C11 (repatriation on exit): for a cache with `count = k > 0` whose slots
`objects[0], ..., objects[k-1]` are non-null, pairwise distinct and not on the
free list, `thread_cleanup_handler` relinks the memory so that the pool free
list is the `k` cached slots in index order followed by the previous free list,
so the list is longer by exactly `k`, and leaves `t_cache` null; the list
reading of the handler gives the same list.  For a cache with `count = 0` and
for a null cache the memory and the pool are unchanged (and `t_cache` is null
afterwards). -/
theorem repatriation_on_exit (pool : global_pool_t) (tc : thread_cache_t) (next : Nat → Nat)
    (free_head : Nat) (hl : holds_list next free_head pool.free_head)
    (hnd : (live tc ++ pool.free_head).Nodup) (hz : ∀ p ∈ live tc, p ≠ 0) :
    (0 < tc.count →
      thread_cleanup_handler pool (some tc) =
        ({ pool with free_head := (List.range tc.count.toNat).map tc.objects ++ pool.free_head },
         none) ∧
      ((thread_cleanup_handler pool (some tc)).1.free_head.length : Int) =
        pool.free_head.length + tc.count ∧
      ∃ next1 head1,
        thread_cleanup_handler_mem next free_head (some tc) = (next1, head1, none) ∧
        holds_list next1 head1 (thread_cleanup_handler pool (some tc)).1.free_head) ∧
    (tc.count = 0 →
      thread_cleanup_handler pool (some tc) = (pool, none) ∧
      thread_cleanup_handler_mem next free_head (some tc) = (next, free_head, none)) ∧
    thread_cleanup_handler pool none = (pool, none) ∧
    thread_cleanup_handler_mem next free_head none = (next, free_head, none) := by
  refine ⟨fun hpos => ?_, fun hzero => ?_, rfl, rfl⟩
  · have e : thread_cleanup_handler pool (some tc) =
        ({ pool with free_head := (List.range tc.count.toNat).map tc.objects ++ pool.free_head },
         none) := by
      unfold thread_cleanup_handler
      simp only
      rw [if_neg (by omega), link_chain_eq _ _ _ (le_refl _) hpos]
      simp only [Int.toNat_zero, Nat.zero_add]
    obtain ⟨next1, e1, h1⟩ :=
      thread_cleanup_handler_mem_spec next free_head pool.free_head tc hpos hl hnd hz
    rw [e]
    refine ⟨rfl, ?_, next1, tc.objects 0, e1, h1⟩
    simp only [List.length_append, List.length_map, List.length_range, Nat.cast_add]
    omega
  · constructor
    · unfold thread_cleanup_handler
      simp only
      rw [if_pos hzero]
    · simp only [thread_cleanup_handler_mem, if_pos hzero]

theorem repatriation_on_exit_witness :
    holds_list mem5 8192 pool5.free_head ∧ (live cache_top2 ++ pool5.free_head).Nodup ∧
    (∀ p ∈ live cache_top2, p ≠ 0) ∧ 0 < cache_top2.count ∧
    thread_cleanup_handler pool5 (some cache_top2) =
      ({ pool5 with free_head := (List.range cache_top2.count.toNat).map cache_top2.objects
          ++ pool5.free_head }, none) ∧
    ((thread_cleanup_handler pool5 (some cache_top2)).1.free_head.length : Int) =
      pool5.free_head.length + cache_top2.count ∧
    ∃ next1 head1,
      thread_cleanup_handler_mem mem5 8192 (some cache_top2) = (next1, head1, none) ∧
      holds_list next1 head1 (thread_cleanup_handler pool5 (some cache_top2)).1.free_head :=
  ⟨⟨rfl, by decide, rfl, by decide, rfl, by decide, rfl⟩, by decide, by decide, by decide,
    (repatriation_on_exit pool5 cache_top2 mem5 8192
      ⟨rfl, by decide, rfl, by decide, rfl, by decide, rfl⟩ (by decide) (by decide)).1
      (by decide)⟩

/-- C14 (pool creation): for `0 < count <= INT_MAX` and a successful `mmap`
returning `base`, `mp_pool_create(count)` returns a pool whose free list holds
exactly `count` pairwise distinct slots, namely the addresses `base + i * S`,
`i = 0..count-1`, with `S = ALIGN_UP(OBJECT_SIZE, CACHE_LINE) = 2048` (linked
from the highest address down to `base`), every slot lying inside the mapping
of `mmap_size = count * S` bytes at `mmap_base = base`, and whose `waiters`
is `0`. -/
theorem pool_creation (count : Int) (base : Nat) (hpos : 0 < count)
    (hmax : count ≤ 2147483647) :
    ∃ pool, mp_pool_create count (some base) = some pool ∧
      ALIGN_UP OBJECT_SIZE CACHE_LINE = 2048 ∧
      pool.free_head.length = count.toNat ∧ pool.free_head.Nodup ∧
      (∀ a, a ∈ pool.free_head ↔
        ∃ i, i < count.toNat ∧ a = base + i * ALIGN_UP OBJECT_SIZE CACHE_LINE) ∧
      pool.free_head = ((List.range count.toNat).map (fun i => base + i * 2048)).reverse ∧
      pool.mmap_base = base ∧ pool.mmap_size = count.toNat * 2048 ∧
      (∀ a ∈ pool.free_head, pool.mmap_base ≤ a ∧ a + 2048 ≤ pool.mmap_base + pool.mmap_size) ∧
      pool.waiters = 0 := by
  have hf := mp_pool_create_free_head count base _ rfl
  have hmem : ∀ a, a ∈ ((List.range count.toNat).map (fun i => base + i * 2048)).reverse ↔
      ∃ i, i < count.toNat ∧ a = base + i * 2048 := by
    intro a
    simp only [List.mem_reverse, List.mem_map, List.mem_range]
    constructor
    · rintro ⟨i, hi, rfl⟩
      exact ⟨i, hi, rfl⟩
    · rintro ⟨i, hi, rfl⟩
      exact ⟨i, hi, rfl⟩
  have hsize : (ALIGN_UP OBJECT_SIZE CACHE_LINE * (count % 2 ^ 64).toNat) % 2 ^ 64
      = count.toNat * 2048 := by
    rw [ALIGN_UP_OBJECT_SIZE]
    have h1 : (count % 2 ^ 64).toNat = count.toNat := by omega
    rw [h1]
    omega
  refine ⟨_, rfl, ALIGN_UP_OBJECT_SIZE, ?_, ?_, ?_, hf, rfl, hsize, ?_, rfl⟩
  · rw [hf]
    simp only [List.length_reverse, List.length_map, List.length_range]
  · rw [hf, List.nodup_reverse]
    refine List.Nodup.map ?_ (List.nodup_range _)
    intro a b hab
    simp only at hab
    omega
  · intro a
    rw [hf, ALIGN_UP_OBJECT_SIZE]
    exact hmem a
  · intro a ha
    rw [hf] at ha
    obtain ⟨i, hi, rfl⟩ := (hmem a).mp ha
    show base ≤ base + i * 2048 ∧ base + i * 2048 + 2048 ≤
      base + (ALIGN_UP OBJECT_SIZE CACHE_LINE * (count % 2 ^ 64).toNat) % 2 ^ 64
    rw [hsize]
    omega

theorem pool_creation_witness :
    (0 : Int) < 3 ∧ (3 : Int) ≤ 2147483647 ∧
    ∃ pool, mp_pool_create 3 (some 4096) = some pool ∧
      ALIGN_UP OBJECT_SIZE CACHE_LINE = 2048 ∧
      pool.free_head.length = (3 : Int).toNat ∧ pool.free_head.Nodup ∧
      (∀ a, a ∈ pool.free_head ↔
        ∃ i, i < (3 : Int).toNat ∧ a = 4096 + i * ALIGN_UP OBJECT_SIZE CACHE_LINE) ∧
      pool.free_head = ((List.range (3 : Int).toNat).map (fun i => 4096 + i * 2048)).reverse ∧
      pool.mmap_base = 4096 ∧ pool.mmap_size = (3 : Int).toNat * 2048 ∧
      (∀ a ∈ pool.free_head, pool.mmap_base ≤ a ∧ a + 2048 ≤ pool.mmap_base + pool.mmap_size) ∧
      pool.waiters = 0 :=
  ⟨by decide, by decide, pool_creation 3 4096 (by decide) (by decide)⟩

/-- C15 (`mp_thread_init` is idempotent): on a thread without a cache it creates
a cache with `count = 0`, all counters `0` and `global` the given pool; on a
thread that has a cache it returns with that cache unchanged, whatever pool is
passed; hence a second call, with the same or another pool, changes nothing. -/
theorem mp_thread_init_idempotent (t_cache : Option thread_cache_t) (tc : thread_cache_t)
    (p q : Nat) :
    (∃ tc0, mp_thread_init none p = some tc0 ∧ tc0.count = 0 ∧ tc0.global = p ∧
      tc0.alloc_cnt = 0 ∧ tc0.free_cnt = 0 ∧ tc0.wait_cnt = 0 ∧ live tc0 = [] ∧
      ∀ i, tc0.objects i = 0) ∧
    mp_thread_init (some tc) q = some tc ∧
    mp_thread_init (mp_thread_init t_cache p) q = mp_thread_init t_cache p := by
  refine ⟨⟨_, rfl, rfl, rfl, rfl, rfl, rfl, rfl, fun _ => rfl⟩, rfl, ?_⟩
  cases t_cache <;> rfl

/-! ## The scenario of the specification (capacity 4, batch 2, cache capacity 2) -/

theorem scenario_trace (b : Nat) :
    sys_init 4 (some b) 64 1
      = some (scenario_state b [b + 2048 + 2048 + 2048, b + 2048 + 2048, b + 2048, b] none []) ∧
    step 2 2 (scenario_state b [b + 2048 + 2048 + 2048, b + 2048 + 2048, b + 2048, b] none [])
        (op.thread_init 0)
      = some (scenario_state b [b + 2048 + 2048 + 2048, b + 2048 + 2048, b + 2048, b]
          (some ⟨fun _ => 0, 0, 64, 0, 0, 0⟩) []) ∧
    step 2 2 (scenario_state b [b + 2048 + 2048 + 2048, b + 2048 + 2048, b + 2048, b]
          (some ⟨fun _ => 0, 0, 64, 0, 0, 0⟩) []) (op.alloc 0)
      = some (scenario_state b [b + 2048, b]
          (some ⟨scenario_objects (fun _ => 0) (b + 2048 + 2048 + 2048) (b + 2048 + 2048),
            1, 64, 1, 0, 0⟩) [b + 2048 + 2048]) ∧
    step 2 2 (scenario_state b [b + 2048, b]
          (some ⟨scenario_objects (fun _ => 0) (b + 2048 + 2048 + 2048) (b + 2048 + 2048),
            1, 64, 1, 0, 0⟩) [b + 2048 + 2048]) (op.alloc 0)
      = some (scenario_state b [b + 2048, b]
          (some ⟨scenario_objects (fun _ => 0) (b + 2048 + 2048 + 2048) (b + 2048 + 2048),
            0, 64, 2, 0, 0⟩) [b + 2048 + 2048 + 2048, b + 2048 + 2048]) ∧
    step 2 2 (scenario_state b [b + 2048, b]
          (some ⟨scenario_objects (fun _ => 0) (b + 2048 + 2048 + 2048) (b + 2048 + 2048),
            0, 64, 2, 0, 0⟩) [b + 2048 + 2048 + 2048, b + 2048 + 2048]) (op.alloc 0)
      = some (scenario_state b []
          (some ⟨scenario_objects
              (scenario_objects (fun _ => 0) (b + 2048 + 2048 + 2048) (b + 2048 + 2048))
              (b + 2048) b, 1, 64, 3, 0, 0⟩)
          [b, b + 2048 + 2048 + 2048, b + 2048 + 2048]) :=
  ⟨rfl, rfl, rfl, rfl, rfl⟩

theorem scenario_release (b p : Nat) (f : Nat → Nat) (held : List Nat) (hp : p ≠ 0)
    (hmem : p ∈ held) :
    step 2 2 (scenario_state b [] (some ⟨f, 1, 64, 3, 0, 0⟩) held) (op.free 0 p)
      = some (scenario_state b [] (some ⟨Function.update f 1 p, 2, 64, 3, 1, 0⟩)
          (held.erase p)) ∧
    step 2 2 (scenario_state b [] (some ⟨Function.update f 1 p, 2, 64, 3, 1, 0⟩)
          (held.erase p)) (op.cleanup 0)
      = some (scenario_state b [f 0, p] none (held.erase p)) := by
  constructor
  · simp only [step, scenario_state, List.getElem?_cons_zero]
    rw [if_pos (Or.inr hmem)]
    simp only [mp_free, if_neg hp]
    rfl
  · simp [step, scenario_state, thread_cleanup_handler, link_chain]
    rfl

theorem run_cons_of_step (cap bs : Nat) (s s1 : sys_state) (o : op) (os : List op)
    (h : step cap bs s o = some s1) : run cap bs s (o :: os) = run cap bs s1 os := by
  simp only [run, h]

theorem scenario_run (b p : Nat) (hp : p ≠ 0)
    (hmem : p ∈ [b, b + 2048 + 2048 + 2048, b + 2048 + 2048]) :
    run 2 2 (scenario_state b [b + 2048 + 2048 + 2048, b + 2048 + 2048, b + 2048, b] none [])
      [op.thread_init 0, op.alloc 0, op.alloc 0, op.alloc 0, op.free 0 p]
    = some (scenario_state b []
        (some ⟨Function.update (scenario_objects
            (scenario_objects (fun _ => 0) (b + 2048 + 2048 + 2048) (b + 2048 + 2048))
            (b + 2048) b) 1 p, 2, 64, 3, 1, 0⟩)
        ([b, b + 2048 + 2048 + 2048, b + 2048 + 2048].erase p)) := by
  obtain ⟨-, t1, t2, t3, t4⟩ := scenario_trace b
  rw [run_cons_of_step 2 2 _ _ _ _ t1, run_cons_of_step 2 2 _ _ _ _ t2,
    run_cons_of_step 2 2 _ _ _ _ t3, run_cons_of_step 2 2 _ _ _ _ t4,
    run_cons_of_step 2 2 _ _ _ _ (scenario_release b p _ _ hp hmem).1]
  rfl

/-- C13 as stated fails: in the scenario (capacity 4, `BATCH_SIZE = 2`,
`LOCAL_CACHE_CAPACITY = 2`, mapping at 4096), after thread A has initialised,
allocated three times and released the slot 4096, it is not the case that A's
cache holds exactly 1 slot and that A's exit then lengthens the pool free list
by exactly 1. -/
theorem scenario_counterexample :
    ¬ ∃ s0 s4 s5, sys_init 4 (some 4096) 64 1 = some s0 ∧
      run 2 2 s0 [op.thread_init 0, op.alloc 0, op.alloc 0, op.alloc 0, op.free 0 4096]
        = some s4 ∧
      cached_count s4.caches = 1 ∧ s4.pool.free_head = [] ∧
      step 2 2 s4 (op.cleanup 0) = some s5 ∧
      s5.pool.free_head.length = s4.pool.free_head.length + 1 := by
  rintro ⟨s0, s4, s5, h0, hrun, hc, -⟩
  have e0 := (scenario_trace 4096).1.symm.trans h0
  simp only [Option.some.injEq] at e0
  subst e0
  have e4 := (scenario_run 4096 4096 (by decide) (List.mem_cons_self _ _)).symm.trans hrun
  simp only [Option.some.injEq] at e4
  subst e4
  have hcount : cached_count (scenario_state 4096 []
      (some ⟨Function.update (scenario_objects
          (scenario_objects (fun _ => 0) (4096 + 2048 + 2048 + 2048) (4096 + 2048 + 2048))
          (4096 + 2048) 4096) 1 4096, 2, 64, 3, 1, 0⟩)
      ([4096, 4096 + 2048 + 2048 + 2048, 4096 + 2048 + 2048].erase 4096)).caches = 2 := rfl
  rw [hcount] at hc
  exact absurd hc (by decide)

/-- C13, amended (the scenario as the code runs it): with capacity 4,
`BATCH_SIZE = 2` and `LOCAL_CACHE_CAPACITY = 2`, the first allocation of thread
A refills 2 slots (pool 4 -> 2, cache 1 after the pop), the second takes the
cached slot without touching the pool (cache 0), the third refills the
remaining 2 (pool empty, cache 1, three slots held); releasing any one of the
held slots then leaves A's cache with exactly 2 slots (no flush) and the pool
free list still empty, and A's exit repatriates exactly 2 slots. -/
theorem scenario_amended (b : Nat) (hb : b ≠ 0) :
    ∃ s0 s1 s2 s3, sys_init 4 (some b) 64 1 = some s0 ∧
      run 2 2 s0 [op.thread_init 0, op.alloc 0] = some s1 ∧
      s1.pool.free_head.length = 2 ∧ cached_count s1.caches = 1 ∧
      step 2 2 s1 (op.alloc 0) = some s2 ∧
      s2.pool = s1.pool ∧ cached_count s2.caches = 0 ∧
      step 2 2 s2 (op.alloc 0) = some s3 ∧
      s3.pool.free_head = [] ∧ cached_count s3.caches = 1 ∧ s3.held.length = 3 ∧
      ∀ p ∈ s3.held, ∃ s4 s5, step 2 2 s3 (op.free 0 p) = some s4 ∧
        cached_count s4.caches = 2 ∧ s4.pool.free_head = [] ∧
        step 2 2 s4 (op.cleanup 0) = some s5 ∧
        s5.pool.free_head.length = 2 ∧ s5.caches = [none] := by
  obtain ⟨t0, t1, t2, t3, t4⟩ := scenario_trace b
  refine ⟨_, _, _, _, t0, ?_, ?_, ?_, t3, ?_, ?_, t4, ?_, ?_, ?_, ?_⟩
  · simp only [run, t1, t2]
  · rfl
  · rfl
  · rfl
  · rfl
  · rfl
  · rfl
  · rfl
  · intro p hp
    have hp0 : p ≠ 0 := by
      simp only [scenario_state, List.mem_cons, List.mem_singleton, List.not_mem_nil,
        or_false] at hp
      omega
    obtain ⟨r1, r2⟩ := scenario_release b p _ _ hp0 hp
    exact ⟨_, _, r1, rfl, rfl, r2, rfl, rfl⟩

theorem scenario_amended_witness :
    (4096 : Nat) ≠ 0 ∧
    ∃ s0 s1 s2 s3, sys_init 4 (some 4096) 64 1 = some s0 ∧
      run 2 2 s0 [op.thread_init 0, op.alloc 0] = some s1 ∧
      s1.pool.free_head.length = 2 ∧ cached_count s1.caches = 1 ∧
      step 2 2 s1 (op.alloc 0) = some s2 ∧
      s2.pool = s1.pool ∧ cached_count s2.caches = 0 ∧
      step 2 2 s2 (op.alloc 0) = some s3 ∧
      s3.pool.free_head = [] ∧ cached_count s3.caches = 1 ∧ s3.held.length = 3 ∧
      ∀ p ∈ s3.held, ∃ s4 s5, step 2 2 s3 (op.free 0 p) = some s4 ∧
        cached_count s4.caches = 2 ∧ s4.pool.free_head = [] ∧
        step 2 2 s4 (op.cleanup 0) = some s5 ∧
        s5.pool.free_head.length = 2 ∧ s5.caches = [none] :=
  ⟨by decide, scenario_amended 4096 (by decide)⟩

/-! ## The wait channel under interleaving -/

set_option maxRecDepth 100000 in
/-- C12 (backpressure wake-up) does not hold on the code: a wake-up is lost.
Thread 1 (`cache_refill`) sees the free list empty and releases the pool lock;
thread 0 (`cache_flush`) then splices 256 slots onto the empty list and, with
`need_signal` set, finds `waiters == 0` and broadcasts nothing; thread 1 then
registers as a waiter and sleeps in `pthread_cond_wait`.  In the state reached
the free list holds 256 slots, thread 0 has returned, thread 1 is asleep with
`waiters = 1`, and no thread can move: the splice has not woken the waiter. -/
theorem lost_wakeup :
    ∃ s, conc_run LOCAL_CACHE_CAPACITY BATCH_SIZE race_init [1, 0, 0, 1] = some s ∧
      s.pool.free_head.length = 256 ∧ s.pool.waiters = 1 ∧
      s.threads.map (fun th => th.pc) = [pc_t.done, pc_t.refill_sleeping] ∧
      ∀ t, conc_step LOCAL_CACHE_CAPACITY BATCH_SIZE s t = none := by
  refine ⟨_, rfl, rfl, rfl, rfl, ?_⟩
  intro t
  match t with
  | 0 => rfl
  | 1 => rfl
  | t + 2 => rfl

set_option maxRecDepth 100000 in
theorem wakeup_when_registered :
    ∃ s, conc_run LOCAL_CACHE_CAPACITY BATCH_SIZE race_init [1, 1, 0, 0, 1, 1] = some s ∧
      s.pool.free_head.length = 224 ∧ s.pool.waiters = 0 ∧
      s.threads.map (fun th => (th.pc, th.tc.count)) = [(pc_t.done, 256), (pc_t.done, 32)] :=
  ⟨_, rfl, rfl, rfl, rfl⟩

/-! ## No flapping at the boundaries -/

theorem mix_step_free_fast (cap bs : Nat) (s : mix_state) (p : Nat) (hp : p ≠ 0)
    (h : s.tc.count < (cap : Int)) :
    ∃ s1, mix_step cap bs s (mix_call.free p) = some s1 ∧ s1.pool = s.pool ∧
      s1.tc.count = s.tc.count + 1 ∧ s1.flushes = s.flushes ∧ s1.refills = s.refills := by
  simp only [mix_step, mp_free, if_neg hp, if_pos h]
  exact ⟨_, rfl, rfl, rfl, rfl, rfl⟩

theorem mix_step_alloc_fast (cap bs : Nat) (s : mix_state) (h : 0 < s.tc.count) :
    ∃ s1, mix_step cap bs s mix_call.alloc = some s1 ∧ s1.pool = s.pool ∧
      s1.tc.count = s.tc.count - 1 ∧ s1.flushes = s.flushes ∧ s1.refills = s.refills := by
  simp only [mix_step, mp_alloc_fast bs [] s.pool s.tc h, if_pos h]
  exact ⟨_, rfl, rfl, rfl, rfl, rfl⟩

theorem mix_step_free_flush (cap bs : Nat) (s : mix_state) (p : Nat) (hp : p ≠ 0)
    (h : s.tc.count = (cap : Int)) (hcap : 0 < cap) :
    ∃ s1, mix_step cap bs s (mix_call.free p) = some s1 ∧
      s1.pool = (cache_flush cap s.pool s.tc).1 ∧
      s1.tc.count = ((cap / 2 : Nat) : Int) + 1 ∧ s1.flushes = s.flushes + 1 ∧
      s1.refills = s.refills := by
  have hhalf : ((cap / 2 : Nat) : Int) < s.tc.count := by
    rw [h]
    have : cap / 2 < cap := Nat.div_lt_self hcap (by decide)
    omega
  have hnot : ¬ s.tc.count < (cap : Int) := by omega
  have hhalf1 : ((cap / 2 : Nat) : Int)
      < ({ s.tc with free_cnt := s.tc.free_cnt + 1 } : thread_cache_t).count := hhalf
  simp only [mix_step, mp_free, if_neg hp, if_neg hnot]
  rw [cache_flush_spec cap s.pool _ hhalf1, cache_flush_spec cap s.pool _ hhalf]
  exact ⟨_, rfl, rfl, rfl, rfl, rfl⟩

theorem mix_step_alloc_refill (cap bs : Nat) (hbs : 0 < bs) (s : mix_state)
    (h : s.tc.count = 0) (hL : s.pool.free_head ≠ []) :
    ∃ s1, mix_step cap bs s mix_call.alloc = some s1 ∧
      s1.pool = (cache_refill_fetch bs s.pool s.tc).1 ∧
      s1.tc.count = ((min bs s.pool.free_head.length : Nat) : Int) - 1 ∧
      s1.flushes = s.flushes ∧ s1.refills = s.refills + 1 := by
  have hnot : ¬ 0 < s.tc.count := by omega
  simp only [mix_step, mp_alloc_slow bs [] s.pool s.tc h hbs hL, if_neg hnot]
  refine ⟨_, rfl, rfl, ?_, rfl, rfl⟩
  show (cache_refill_fetch bs s.pool s.tc).2.count - 1 = _
  rw [(refill_from_empty bs hbs s.pool s.tc h hL).2.2.1]

theorem steady_free_alloc (cap bs : Nat) (ps : List Nat) :
    ∀ s : mix_state, (∀ q ∈ ps, q ≠ 0) → 0 ≤ s.tc.count → s.tc.count < (cap : Int) →
      ∃ tr, mix_trace cap bs s (free_alloc_pairs ps) = some tr ∧ tr.length = 2 * ps.length ∧
        ∀ x ∈ tr, x.flushes = s.flushes ∧ x.refills = s.refills ∧ x.pool = s.pool := by
  induction ps with
  | nil =>
    intro s _ _ _
    exact ⟨[], rfl, rfl, fun x hx => absurd hx (List.not_mem_nil x)⟩
  | cons p ps ih =>
    intro s hp h0 hc
    obtain ⟨s1, e1, a1, b1, c1, d1⟩ :=
      mix_step_free_fast cap bs s p (hp p (List.mem_cons_self _ _)) hc
    obtain ⟨s2, e2, a2, b2, c2, d2⟩ := mix_step_alloc_fast cap bs s1 (by omega)
    obtain ⟨tr, e3, l3, a3⟩ :=
      ih s2 (fun q hq => hp q (List.mem_cons_of_mem _ hq)) (by omega) (by omega)
    refine ⟨s1 :: s2 :: tr, ?_, ?_, ?_⟩
    · simp only [free_alloc_pairs, mix_trace, e1, e2, e3]
    · simp only [List.length_cons, l3]
      omega
    · intro x hx
      simp only [List.mem_cons] at hx
      rcases hx with rfl | rfl | hx
      · exact ⟨c1, d1, a1⟩
      · exact ⟨c2.trans c1, d2.trans d1, a2.trans a1⟩
      · obtain ⟨f, r, q⟩ := a3 x hx
        exact ⟨f.trans (c2.trans c1), r.trans (d2.trans d1), q.trans (a2.trans a1)⟩

theorem steady_alloc_free (cap bs : Nat) (ps : List Nat) :
    ∀ s : mix_state, (∀ q ∈ ps, q ≠ 0) → 1 ≤ s.tc.count → s.tc.count ≤ (cap : Int) →
      ∃ tr, mix_trace cap bs s (alloc_free_pairs ps) = some tr ∧ tr.length = 2 * ps.length ∧
        ∀ x ∈ tr, x.flushes = s.flushes ∧ x.refills = s.refills ∧ x.pool = s.pool := by
  induction ps with
  | nil =>
    intro s _ _ _
    exact ⟨[], rfl, rfl, fun x hx => absurd hx (List.not_mem_nil x)⟩
  | cons p ps ih =>
    intro s hp h0 hc
    obtain ⟨s1, e1, a1, b1, c1, d1⟩ := mix_step_alloc_fast cap bs s (by omega)
    obtain ⟨s2, e2, a2, b2, c2, d2⟩ :=
      mix_step_free_fast cap bs s1 p (hp p (List.mem_cons_self _ _)) (by omega)
    obtain ⟨tr, e3, l3, a3⟩ :=
      ih s2 (fun q hq => hp q (List.mem_cons_of_mem _ hq)) (by omega) (by omega)
    refine ⟨s1 :: s2 :: tr, ?_, ?_, ?_⟩
    · simp only [alloc_free_pairs, mix_trace, e1, e2, e3]
    · simp only [List.length_cons, l3]
      omega
    · intro x hx
      simp only [List.mem_cons] at hx
      rcases hx with rfl | rfl | hx
      · exact ⟨c1, d1, a1⟩
      · exact ⟨c2.trans c1, d2.trans d1, a2.trans a1⟩
      · obtain ⟨f, r, q⟩ := a3 x hx
        exact ⟨f.trans (c2.trans c1), r.trans (d2.trans d1), q.trans (a2.trans a1)⟩

/-- C24 (no flapping at the boundaries): for every `n >= 1` and every `n`
non-null pointers, the `n` pairs `mp_free(p); mp_alloc();` run by a thread
whose cache is full (`count = LOCAL_CACHE_CAPACITY`) all complete, and after
each of the `2 n` calls exactly one `cache_flush` and no `cache_refill` has
been made and the pool is the one left by that flush; the `n` pairs
`mp_alloc(); mp_free(p);` run by a thread whose cache is empty over a non-empty
free list all complete, and after each of the `2 n` calls exactly one
`cache_refill` and no `cache_flush` has been made and the pool is the one left
by that refill.  (A call `mp_free(NULL)` returns at once and releases
nothing.) -/
theorem no_flapping (pool : global_pool_t) (tc : thread_cache_t) (p : Nat) (ps : List Nat)
    (hp : ∀ q ∈ p :: ps, q ≠ 0) :
    (tc.count = (LOCAL_CACHE_CAPACITY : Int) →
      ∃ tr, mix_trace LOCAL_CACHE_CAPACITY BATCH_SIZE
            { pool := pool, tc := tc, flushes := 0, refills := 0 }
            (free_alloc_pairs (p :: ps)) = some tr ∧
        tr.length = 2 * (ps.length + 1) ∧
        ∀ s ∈ tr, s.flushes = 1 ∧ s.refills = 0 ∧
          s.pool = (cache_flush LOCAL_CACHE_CAPACITY pool tc).1) ∧
    (tc.count = 0 → pool.free_head ≠ [] →
      ∃ tr, mix_trace LOCAL_CACHE_CAPACITY BATCH_SIZE
            { pool := pool, tc := tc, flushes := 0, refills := 0 }
            (alloc_free_pairs (p :: ps)) = some tr ∧
        tr.length = 2 * (ps.length + 1) ∧
        ∀ s ∈ tr, s.refills = 1 ∧ s.flushes = 0 ∧
          s.pool = (cache_refill_fetch BATCH_SIZE pool tc).1) := by
  have hp0 : p ≠ 0 := hp p (List.mem_cons_self _ _)
  have hps : ∀ q ∈ ps, q ≠ 0 := fun q hq => hp q (List.mem_cons_of_mem _ hq)
  constructor
  · intro hfull
    obtain ⟨s1, e1, a1, b1, c1, d1⟩ :=
      mix_step_free_flush LOCAL_CACHE_CAPACITY BATCH_SIZE
        { pool := pool, tc := tc, flushes := 0, refills := 0 } p hp0 hfull (by decide)
    have hh : ((LOCAL_CACHE_CAPACITY / 2 : Nat) : Int) = 256 := by decide
    have hc : ((LOCAL_CACHE_CAPACITY : Nat) : Int) = 512 := by decide
    obtain ⟨s2, e2, a2, b2, c2, d2⟩ :=
      mix_step_alloc_fast LOCAL_CACHE_CAPACITY BATCH_SIZE s1 (by omega)
    obtain ⟨tr, e3, l3, a3⟩ :=
      steady_free_alloc LOCAL_CACHE_CAPACITY BATCH_SIZE ps s2 hps (by omega) (by omega)
    refine ⟨s1 :: s2 :: tr, ?_, ?_, ?_⟩
    · simp only [free_alloc_pairs, mix_trace, e1, e2, e3]
    · simp only [List.length_cons, l3]
      omega
    · intro x hx
      simp only [List.mem_cons] at hx
      rcases hx with rfl | rfl | hx
      · exact ⟨c1, d1, a1⟩
      · exact ⟨c2.trans c1, d2.trans d1, a2.trans a1⟩
      · obtain ⟨f, r, q⟩ := a3 x hx
        exact ⟨f.trans (c2.trans c1), r.trans (d2.trans d1), q.trans (a2.trans a1)⟩
  · intro hempty hL
    obtain ⟨s1, e1, a1, b1, c1, d1⟩ :=
      mix_step_alloc_refill LOCAL_CACHE_CAPACITY BATCH_SIZE (by decide)
        { pool := pool, tc := tc, flushes := 0, refills := 0 } hempty hL
    have hlen : 0 < pool.free_head.length := List.length_pos.mpr hL
    have hb : BATCH_SIZE = 32 := rfl
    have hc : ((LOCAL_CACHE_CAPACITY : Nat) : Int) = 512 := by decide
    simp only at b1
    obtain ⟨s2, e2, a2, b2, c2, d2⟩ :=
      mix_step_free_fast LOCAL_CACHE_CAPACITY BATCH_SIZE s1 p hp0 (by omega)
    obtain ⟨tr, e3, l3, a3⟩ :=
      steady_alloc_free LOCAL_CACHE_CAPACITY BATCH_SIZE ps s2 hps (by omega) (by omega)
    refine ⟨s1 :: s2 :: tr, ?_, ?_, ?_⟩
    · simp only [alloc_free_pairs, mix_trace, e1, e2, e3]
    · simp only [List.length_cons, l3]
      omega
    · intro x hx
      simp only [List.mem_cons] at hx
      rcases hx with rfl | rfl | hx
      · exact ⟨d1, c1, a1⟩
      · exact ⟨d2.trans d1, c2.trans c1, a2.trans a1⟩
      · obtain ⟨f, r, q⟩ := a3 x hx
        exact ⟨r.trans (d2.trans d1), f.trans (c2.trans c1), q.trans (a2.trans a1)⟩

theorem no_flapping_witness :
    (∀ q ∈ [8192, 6144], q ≠ 0) ∧ cache512.count = (LOCAL_CACHE_CAPACITY : Int) ∧
    cache0.count = 0 ∧ pool3.free_head ≠ [] ∧
    (∃ tr, mix_trace LOCAL_CACHE_CAPACITY BATCH_SIZE
          { pool := pool0, tc := cache512, flushes := 0, refills := 0 }
          (free_alloc_pairs [8192, 6144]) = some tr ∧
      tr.length = 2 * ([6144].length + 1) ∧
      ∀ s ∈ tr, s.flushes = 1 ∧ s.refills = 0 ∧
        s.pool = (cache_flush LOCAL_CACHE_CAPACITY pool0 cache512).1) ∧
    (∃ tr, mix_trace LOCAL_CACHE_CAPACITY BATCH_SIZE
          { pool := pool3, tc := cache0, flushes := 0, refills := 0 }
          (alloc_free_pairs [8192, 6144]) = some tr ∧
      tr.length = 2 * ([6144].length + 1) ∧
      ∀ s ∈ tr, s.refills = 1 ∧ s.flushes = 0 ∧
        s.pool = (cache_refill_fetch BATCH_SIZE pool3 cache0).1) :=
  ⟨by decide, by decide, by decide, by decide,
    (no_flapping pool0 cache512 8192 [6144] (by decide)).1 (by decide),
    (no_flapping pool3 cache0 8192 [6144] (by decide)).2 (by decide) (by decide)⟩

end Pool

/-! # Verification of the tier lookup -/

namespace Tiered

theorem limit_at_append_left (pre l : List step_rule_t) (k : Nat) (h : k < pre.length) :
    limit_at (pre ++ l) k = limit_at pre k := by
  unfold limit_at
  rw [List.getElem?_append_left h]

theorem limit_at_cons (pre rest : List step_rule_t) (r : step_rule_t) :
    limit_at (pre ++ r :: rest) pre.length = r.limit := by
  unfold limit_at
  rw [List.getElem?_append_right (le_refl _)]
  simp

theorem get_rule_linear_scan_spec (val : Nat) (l : List step_rule_t) :
    ∀ pre : List step_rule_t,
      match get_rule_linear_scan l pre.length val with
      | some j => pre.length ≤ j ∧ j < (pre ++ l).length ∧ val < limit_at (pre ++ l) j ∧
          ∀ k, pre.length ≤ k → k < j → ¬ val < limit_at (pre ++ l) k
      | none => ∀ k, pre.length ≤ k → k < (pre ++ l).length → ¬ val < limit_at (pre ++ l) k := by
  induction l with
  | nil =>
    intro pre
    simp only [get_rule_linear_scan, List.append_nil]
    intro k h1 h2
    omega
  | cons r rest ih =>
    intro pre
    by_cases hlt : val < r.limit
    · simp only [get_rule_linear_scan, if_pos hlt]
      refine ⟨le_refl _, by simp, by rw [limit_at_cons]; exact hlt, fun k h1 h2 => by omega⟩
    · simp only [get_rule_linear_scan, if_neg hlt]
      have h := ih (pre ++ [r])
      have e : (pre ++ [r]).length = pre.length + 1 := by simp
      have e2 : pre ++ [r] ++ rest = pre ++ r :: rest := by simp
      rw [e, e2] at h
      cases hs : get_rule_linear_scan rest (pre.length + 1) val with
      | some j =>
        rw [hs] at h
        simp only at h ⊢
        obtain ⟨h1, h2, h3, h4⟩ := h
        refine ⟨by omega, h2, h3, fun k hk1 hk2 => ?_⟩
        by_cases hk : k = pre.length
        · subst hk
          rw [limit_at_cons]
          exact hlt
        · exact h4 k (by omega) hk2
      | none =>
        rw [hs] at h
        simp only at h ⊢
        intro k hk1 hk2
        by_cases hk : k = pre.length
        · subst hk
          rw [limit_at_cons]
          exact hlt
        · exact h k (by omega) hk2

theorem get_rule_linear_first (table : List step_rule_t) (val : Nat) (hne : table ≠ [])
    (hlen : table.length < 2 ^ 31) : first_above table val (get_rule_linear table val) := by
  have h := get_rule_linear_scan_spec val table []
  simp only [List.length_nil, List.nil_append] at h
  have hpos : 0 < table.length := List.length_pos.mpr hne
  unfold get_rule_linear
  cases hs : get_rule_linear_scan table 0 val with
  | some j =>
    rw [hs] at h
    simp only at h ⊢
    exact ⟨h.2.1, fun k hk => h.2.2.2 k (Nat.zero_le _) hk, Or.inl h.2.2.1⟩
  | none =>
    rw [hs] at h
    simp only at h ⊢
    have e : (table.length + 2 ^ 64 - 1) % 2 ^ 64 = table.length - 1 := by omega
    rw [e]
    exact ⟨by omega, fun k hk => h k (Nat.zero_le _) (by omega), Or.inr (by omega)⟩

theorem first_above_unique (table : List step_rule_t) (val i j : Nat)
    (hi : first_above table val i) (hj : first_above table val j) : i = j := by
  obtain ⟨hi1, hi2, hi3⟩ := hi
  obtain ⟨hj1, hj2, hj3⟩ := hj
  by_contra hne
  rcases Nat.lt_or_gt_of_ne hne with hlt | hgt
  · rcases hi3 with h | h
    · exact hj2 i hlt h
    · omega
  · rcases hj3 with h | h
    · exact hi2 j hgt h
    · omega

theorem rule_at_some (table : List step_rule_t) (i : Int) (h0 : 0 ≤ i)
    (h1 : i < (table.length : Int)) :
    ∃ r, rule_at table i = some r ∧ r.limit = limit_at table i.toNat := by
  have hlt : i.toNat < table.length := by omega
  refine ⟨table[i.toNat], ?_, ?_⟩
  · unfold rule_at
    rw [if_pos h0, List.getElem?_eq_getElem hlt]
  · unfold limit_at
    rw [List.getElem?_eq_getElem hlt]

theorem get_rule_bsearch_loop_spec (table : List step_rule_t) (val : Nat)
    (hmono : ∀ i j, i ≤ j → j < table.length → limit_at table i ≤ limit_at table j) :
    ∀ (fuel : Nat) (left right ans : Int),
      0 ≤ left → right < (table.length : Int) → left ≤ right + 1 →
      (∀ k : Nat, (k : Int) < left → ¬ val < limit_at table k) →
      (∀ k : Nat, right < (k : Int) → k < table.length → val < limit_at table k) →
      ans = (if right + 1 < (table.length : Int) then right + 1 else (table.length : Int) - 1) →
      0 < table.length →
      right + 1 - left ≤ (fuel : Int) →
      ∃ r : Int, get_rule_bsearch_loop table val fuel left right ans = some r ∧ 0 ≤ r ∧
        first_above table val r.toNat := by
  intro fuel
  induction fuel with
  | zero =>
    intro left right ans h0 hr hlr hlo hhi hans hpos hfuel
    have hle : ¬ left ≤ right := by
      simp only [Nat.cast_zero] at hfuel
      omega
    have hl : left = right + 1 := by omega
    refine ⟨ans, by simp only [get_rule_bsearch_loop, if_neg hle], ?_, ?_⟩
    · rw [hans]; split <;> omega
    · by_cases hin : right + 1 < (table.length : Int)
      · rw [hans, if_pos hin]
        refine ⟨by omega, fun k hk => hlo k (by omega), Or.inl ?_⟩
        exact hhi (right + 1).toNat (by omega) (by omega)
      · rw [hans, if_neg hin]
        refine ⟨by omega, fun k hk => hlo k (by omega), Or.inr (by omega)⟩
  | succ fuel ih =>
    intro left right ans h0 hr hlr hlo hhi hans hpos hfuel
    by_cases hle : left ≤ right
    · simp only [get_rule_bsearch_loop, if_pos hle]
      have hm0 : 0 ≤ left + (right - left) / 2 := by omega
      have hm1 : left + (right - left) / 2 < (table.length : Int) := by omega
      obtain ⟨r, hr1, hr2⟩ := rule_at_some table _ hm0 hm1
      rw [hr1]
      simp only
      by_cases hv : val < r.limit
      · rw [if_pos hv]
        apply ih
        · exact h0
        · omega
        · omega
        · exact hlo
        · intro k hk1 hk2
          have hmk : (left + (right - left) / 2).toNat ≤ k := by omega
          have := hmono _ _ hmk hk2
          rw [hr2] at hv
          omega
        · rw [if_pos (by omega)]
          omega
        · exact hpos
        · push_cast at hfuel ⊢
          omega
      · rw [if_neg hv]
        apply ih
        · omega
        · exact hr
        · omega
        · intro k hk
          have hkm : k ≤ (left + (right - left) / 2).toNat := by omega
          have := hmono _ _ hkm (by omega)
          rw [hr2] at hv
          omega
        · exact hhi
        · exact hans
        · exact hpos
        · push_cast at hfuel ⊢
          omega
    · have hl : left = right + 1 := by omega
      refine ⟨ans, by simp only [get_rule_bsearch_loop, if_neg hle], ?_, ?_⟩
      · rw [hans]; split <;> omega
      · by_cases hin : right + 1 < (table.length : Int)
        · rw [hans, if_pos hin]
          refine ⟨by omega, fun k hk => hlo k (by omega), Or.inl ?_⟩
          exact hhi (right + 1).toNat (by omega) (by omega)
        · rw [hans, if_neg hin]
          refine ⟨by omega, fun k hk => hlo k (by omega), Or.inr (by omega)⟩

theorem pairwise_limit_mono (table : List step_rule_t)
    (hs : table.Pairwise (fun a b => a.limit ≤ b.limit)) :
    ∀ i j, i ≤ j → j < table.length → limit_at table i ≤ limit_at table j := by
  intro i j hij hj
  rcases Nat.eq_or_lt_of_le hij with rfl | hlt
  · exact le_refl _
  · have hi : i < table.length := by omega
    unfold limit_at
    rw [List.getElem?_eq_getElem hi, List.getElem?_eq_getElem hj]
    exact (List.pairwise_iff_getElem.mp hs) i j hi hj hlt

/-- C16 (tier lookup follows the documented intervals): for every `uint32_t`
value `val`, `get_rule_linear(val)` returns the entry of `rules` with id 1 when
`val < 100`, id 2 when `100 <= val < 500`, id 3 when `500 <= val < 1000`, id 4
when `1000 <= val < 5000` and id 5 when `5000 <= val`, also for
`val = UINT32_MAX`, where the loop finds no limit above `val` and the last
entry is returned. -/
theorem tier_lookup (val : Nat) (hval : val ≤ UINT32_MAX) :
    ∃ r, rules[get_rule_linear rules val]? = some r ∧
      r.id = (if val < 100 then 1 else if val < 500 then 2 else if val < 1000 then 3
              else if val < 5000 then 4 else 5) ∧
      (val = UINT32_MAX → get_rule_linear_scan rules 0 val = none ∧ r.id = 5) := by
  unfold get_rule_linear
  simp only [rules, get_rule_linear_scan, UINT32_MAX] at *
  by_cases h1 : val < 100
  · simp [h1]; omega
  · by_cases h2 : val < 500
    · simp [h1, h2]; omega
    · by_cases h3 : val < 1000
      · simp [h1, h2, h3]; omega
      · by_cases h4 : val < 5000
        · simp [h1, h2, h3, h4]; omega
        · by_cases h5 : val < 4294967295
          · simp [h1, h2, h3, h4, h5]; omega
          · have e : val = 4294967295 := by omega
            subst e
            simp

theorem tier_lookup_witness :
    (4294967295 : Nat) ≤ UINT32_MAX ∧
    ∃ r, rules[get_rule_linear rules 4294967295]? = some r ∧
      r.id = (if (4294967295 : Nat) < 100 then 1 else if (4294967295 : Nat) < 500 then 2
              else if (4294967295 : Nat) < 1000 then 3
              else if (4294967295 : Nat) < 5000 then 4 else 5) ∧
      ((4294967295 : Nat) = UINT32_MAX →
        get_rule_linear_scan rules 0 4294967295 = none ∧ r.id = 5) :=
  ⟨by decide, tier_lookup 4294967295 (by decide)⟩

/-- C17 (binary search agrees with linear scan): for a non-empty table (of at
most `INT_MAX` entries) whose limits are in non-decreasing order and every
`val`, the loop of `get_rule_bsearch` stops within `RULES_COUNT` iterations
without reading outside the table, and returns the index that
`get_rule_linear` returns: the first entry whose limit is greater than `val`,
or the last entry when there is none. -/
theorem bsearch_agrees_linear (table : List step_rule_t) (val fuel : Nat) (hne : table ≠ [])
    (hlen : table.length < 2 ^ 31)
    (hsorted : table.Pairwise (fun a b => a.limit ≤ b.limit))
    (hfuel : table.length ≤ fuel) :
    get_rule_bsearch fuel table val = some ((get_rule_linear table val : Nat) : Int) ∧
      first_above table val (get_rule_linear table val) := by
  have hpos : 0 < table.length := List.length_pos.mpr hne
  have hlin := get_rule_linear_first table val hne hlen
  obtain ⟨r, hr, hr0, hfirst⟩ := get_rule_bsearch_loop_spec table val
    (pairwise_limit_mono table hsorted) fuel 0 ((table.length : Int) - 1)
    ((table.length : Int) - 1) (le_refl _) (by omega) (by omega)
    (fun k hk => by omega) (fun k hk1 hk2 => by omega)
    (by rw [if_neg (by omega)]) hpos (by omega)
  have e := first_above_unique table val _ _ hfirst hlin
  refine ⟨?_, hlin⟩
  unfold get_rule_bsearch
  rw [hr, ← e]
  congr 1
  omega

theorem bsearch_agrees_linear_witness :
    rules ≠ [] ∧ rules.length < 2 ^ 31 ∧
    rules.Pairwise (fun a b => a.limit ≤ b.limit) ∧ rules.length ≤ 5 ∧
    get_rule_bsearch 5 rules 499 = some ((get_rule_linear rules 499 : Nat) : Int) ∧
      first_above rules 499 (get_rule_linear rules 499) :=
  ⟨by decide, by decide, by decide, by decide,
    bsearch_agrees_linear rules 499 5 (by decide) (by decide) (by decide) (by decide)⟩

end Tiered

/-! # Verification of the dispatcher -/

namespace Dispatch

/-- C18 (dispatcher gating): `process_packet` calls a handler exactly when the
type is `MSG_PING` (0), `MSG_LOGIN` (1) with `len >= 4`, or `MSG_ADMIN_CMD` (4)
with `is_admin` non-zero, and then it calls the handler registered for that
type, once, on the packet; an `MSG_ADMIN_CMD` packet with `is_admin = 0` is
denied, and every type other than 0, 1 and 4 is reported as unknown without
any call. -/
theorem dispatcher_gating (pkt : packet_t) :
    (∀ h q, event.call h q ∈ process_packet pkt ↔
      q = pkt ∧
      ((pkt.type = 0 ∧ h = handler_func.handle_ping ∧ (dispatch_table 0).min_len ≤ pkt.len) ∨
       (pkt.type = 1 ∧ h = handler_func.handle_login ∧ 4 ≤ pkt.len) ∨
       (pkt.type = 4 ∧ h = handler_func.handle_admin ∧ (dispatch_table 4).min_len ≤ pkt.len ∧
          pkt.is_admin ≠ 0))) ∧
    ((dispatch_table 0).min_len = 0 ∧ (dispatch_table 1).min_len = 4 ∧
      (dispatch_table 4).min_len = 0) ∧
    (pkt.type = 4 → pkt.is_admin = 0 →
      process_packet pkt = [event.permission_denied (some "ADMIN")]) ∧
    (pkt.type ≠ 0 → pkt.type ≠ 1 → pkt.type ≠ 4 →
      process_packet pkt = [event.unknown_type pkt.type]) := by
  refine ⟨?_, ⟨rfl, rfl, rfl⟩, ?_, ?_⟩
  · intro h q
    by_cases h0 : pkt.type = 0
    · simp only [process_packet, dispatch_table, h0, run_handler, FLG_ADMIN_ONLY, FLG_LOG_STATS]
      simp
      tauto
    · by_cases h1 : pkt.type = 1
      · simp only [process_packet, dispatch_table, h1, run_handler, FLG_ADMIN_ONLY,
          FLG_LOG_STATS]
        by_cases hl : pkt.len < 4
        · simp [hl]
        · simp [hl]
          constructor
          · rintro ⟨rfl, rfl⟩
            exact ⟨rfl, rfl, by omega⟩
          · rintro ⟨rfl, rfl, -⟩
            exact ⟨rfl, rfl⟩
      · by_cases h4 : pkt.type = 4
        · simp only [process_packet, dispatch_table, h4, run_handler, FLG_ADMIN_ONLY,
            FLG_LOG_STATS]
          by_cases ha : pkt.is_admin = 0
          · simp [ha]
          · simp [ha]
            tauto
        · simp [process_packet, dispatch_table, h0, h1, h4]
  · intro h4 ha
    simp [process_packet, dispatch_table, h4, ha, FLG_ADMIN_ONLY, FLG_LOG_STATS]
  · intro h0 h1 h4
    simp [process_packet, dispatch_table, h0, h1, h4]

theorem dispatcher_gating_witness :
    process_packet { type := 4, is_admin := 0, len := 10, payload := [] }
        = [event.permission_denied (some "ADMIN")] ∧
    process_packet { type := 99, is_admin := 0, len := 0, payload := [] }
        = [event.unknown_type 99] :=
  ⟨(dispatcher_gating { type := 4, is_admin := 0, len := 10, payload := [] }).2.2.1 rfl rfl,
    (dispatcher_gating { type := 99, is_admin := 0, len := 0, payload := [] }).2.2.2
      (by decide) (by decide) (by decide)⟩

end Dispatch

/-! # Verification of the packet buffers -/

namespace Packet

theorem bytes_of_length (src : Int → Nat) (p n : Int) : (bytes_of src p n).length = n.toNat := by
  simp [bytes_of]

theorem frag_bytes_eq (m : mbuf) : frag_bytes m = bytes_of m.sh.buffer m.data (mbuf_len m) := rfl

theorem frag_bytes_length (m : mbuf) : (frag_bytes m).length = (mbuf_len m).toNat := by
  simp [frag_bytes]

theorem chain_bytes_length (c : List mbuf) (h : lens_nonneg c) :
    ((chain_bytes c).length : Int) = chain_len c := by
  induction c with
  | nil => rfl
  | cons m r ih =>
    have hm : 0 ≤ mbuf_len m := h m (List.mem_cons_self _ _)
    have hr : lens_nonneg r := fun x hx => h x (List.mem_cons_of_mem _ hx)
    simp only [chain_bytes, chain_len, List.length_append, frag_bytes_length, Nat.cast_add]
    have := ih hr
    omega

theorem chain_len_nonneg (c : List mbuf) (h : lens_nonneg c) : 0 ≤ chain_len c := by
  have := chain_bytes_length c h
  omega

theorem bytes_of_drop_take (src : Int → Nat) (p n s k : Int) (hs : 0 ≤ s) (_hk : 0 ≤ k)
    (hsk : s + k ≤ n) :
    ((bytes_of src p n).drop s.toNat).take k.toNat = bytes_of src (p + s) k := by
  apply List.ext_getElem
  · simp only [List.length_take, List.length_drop, bytes_of_length]
    omega
  · intro i h1 h2
    simp only [bytes_of, List.getElem_take, List.getElem_drop, List.getElem_map,
      List.getElem_range]
    congr 1
    push_cast
    omega

theorem write_list_nil (to_buf : Int → Nat) (dst : Int) : write_list to_buf dst [] = to_buf := by
  funext i
  simp only [write_list, List.length_nil, Nat.cast_zero]
  rw [if_neg (by omega)]

theorem memcpy_eq_write_list (to_buf : Int → Nat) (dst : Int) (src : Int → Nat) (s n : Int)
    (hn : 0 ≤ n) : memcpy to_buf dst src s n = write_list to_buf dst (bytes_of src s n) := by
  funext i
  simp only [memcpy, write_list, bytes_of_length]
  have e : ((n.toNat : Nat) : Int) = n := by omega
  rw [e]
  by_cases h : dst ≤ i ∧ i < dst + n
  · rw [if_pos h, if_pos h]
    have hlt : (i - dst).toNat < (bytes_of src s n).length := by
      rw [bytes_of_length]; omega
    rw [List.getD_eq_getElem _ _ hlt]
    simp only [bytes_of, List.getElem_map, List.getElem_range]
    congr 1
    omega
  · rw [if_neg h, if_neg h]

theorem write_list_append (to_buf : Int → Nat) (dst : Int) (a b : List Nat) :
    write_list (write_list to_buf dst a) (dst + (a.length : Int)) b
      = write_list to_buf dst (a ++ b) := by
  funext i
  simp only [write_list, List.length_append, Nat.cast_add]
  by_cases h1 : dst + (a.length : Int) ≤ i ∧ i < dst + (a.length : Int) + (b.length : Int)
  · rw [if_pos h1, if_pos (by omega)]
    have e : (i - dst).toNat = a.length + (i - (dst + (a.length : Int))).toNat := by omega
    rw [e, List.getD_append_right _ _ _ _ (by omega)]
    congr 1
    omega
  · rw [if_neg h1]
    by_cases h2 : dst ≤ i ∧ i < dst + (a.length : Int)
    · rw [if_pos h2, if_pos (by omega)]
      rw [List.getD_append _ _ _ _ (by omega)]
    · rw [if_neg h2, if_neg (by omega)]

theorem bytes_of_write_list (to_buf : Int → Nat) (dst : Int) (bs : List Nat) :
    bytes_of (write_list to_buf dst bs) dst (bs.length : Int) = bs := by
  apply List.ext_getElem
  · simp [bytes_of_length]
  · intro i h1 h2
    simp only [bytes_of, List.getElem_map, List.getElem_range, write_list]
    rw [if_pos (by omega)]
    have e : (dst + (i : Int) - dst).toNat = i := by omega
    rw [e, List.getD_eq_getElem _ _ h2]

theorem lens_nonneg_tail (m : mbuf) (r : List mbuf) (h : lens_nonneg (m :: r)) :
    0 ≤ mbuf_len m ∧ lens_nonneg r :=
  ⟨h m (List.mem_cons_self _ _), fun x hx => h x (List.mem_cons_of_mem _ hx)⟩

theorem mbuf_copy_bits_seek_spec (c : List mbuf) :
    ∀ start : Int, lens_nonneg c → 0 ≤ start →
      lens_nonneg (mbuf_copy_bits_seek c start).1 ∧
      (chain_len c ≤ start → (mbuf_copy_bits_seek c start).1 = []) ∧
      (start < chain_len c →
        (mbuf_copy_bits_seek c start).1 ≠ [] ∧ 0 ≤ (mbuf_copy_bits_seek c start).2 ∧
        (mbuf_copy_bits_seek c start).2 < first_len (mbuf_copy_bits_seek c start).1 ∧
        (chain_bytes c).drop start.toNat =
          (chain_bytes (mbuf_copy_bits_seek c start).1).drop (mbuf_copy_bits_seek c start).2.toNat ∧
        chain_len (mbuf_copy_bits_seek c start).1 - (mbuf_copy_bits_seek c start).2
          = chain_len c - start) := by
  induction c with
  | nil =>
    intro start _ h0
    refine ⟨fun _ h => absurd h (List.not_mem_nil _), fun _ => rfl, fun h => ?_⟩
    simp only [chain_len] at h
    omega
  | cons m r ih =>
    intro start hwf h0
    obtain ⟨hm, hr⟩ := lens_nonneg_tail m r hwf
    by_cases hge : start ≥ mbuf_len m
    · have e : mbuf_copy_bits_seek (m :: r) start = mbuf_copy_bits_seek r (start - mbuf_len m) := by
        simp only [mbuf_copy_bits_seek, if_pos hge]
      rw [e]
      obtain ⟨i1, i2, i3⟩ := ih (start - mbuf_len m) hr (by omega)
      refine ⟨i1, fun h => i2 (by simp only [chain_len] at h; omega), fun h => ?_⟩
      obtain ⟨j1, j2, j3, j4, j5⟩ := i3 (by simp only [chain_len] at h; omega)
      refine ⟨j1, j2, j3, ?_, by simp only [chain_len]; omega⟩
      rw [← j4]
      simp only [chain_bytes]
      rw [List.drop_append_eq_append_drop, List.drop_eq_nil_of_le
        (by rw [frag_bytes_length]; omega), List.nil_append, frag_bytes_length]
      congr 1
      omega
    · have e : mbuf_copy_bits_seek (m :: r) start = (m :: r, start) := by
        simp only [mbuf_copy_bits_seek, if_neg hge]
      rw [e]
      have hcl := chain_len_nonneg r hr
      refine ⟨hwf, fun h => ?_, fun _ => ⟨by simp, h0, by simp only [first_len]; omega, rfl, rfl⟩⟩
      simp only [chain_len] at h
      omega

theorem mbuf_copy_bits_loop_spec (c : List mbuf) :
    ∀ (start : Int) (to_buf : Int → Nat) (dst copy_len : Int),
      lens_nonneg c → 0 ≤ start → start ≤ first_len c → 0 ≤ copy_len →
      mbuf_copy_bits_loop c start to_buf dst copy_len =
        (write_list to_buf dst (((chain_bytes c).drop start.toNat).take copy_len.toNat),
         copy_len - min copy_len (chain_len c - start)) := by
  induction c with
  | nil =>
    intro start to_buf dst copy_len _ h0 h1 h2
    simp only [first_len] at h1
    simp only [mbuf_copy_bits_loop, chain_bytes, List.drop_nil, List.take_nil, write_list_nil,
      chain_len]
    congr 1
    omega
  | cons m r ih =>
    intro start to_buf dst copy_len hwf h0 h1 h2
    obtain ⟨hm, hr⟩ := lens_nonneg_tail m r hwf
    have hcl := chain_len_nonneg r hr
    simp only [first_len] at h1
    by_cases hpos : 0 < copy_len
    · by_cases hav : 0 < mbuf_len m - start
      · simp only [mbuf_copy_bits_loop, if_pos hpos, if_pos hav]
        have hkdef : ∃ k : Int, (if copy_len < mbuf_len m - start then copy_len
            else mbuf_len m - start) = k ∧ 0 ≤ k ∧ k ≤ copy_len ∧ k ≤ mbuf_len m - start ∧
            (k = copy_len ∨ k = mbuf_len m - start) := by
          refine ⟨_, rfl, ?_, ?_, ?_, ?_⟩ <;> split <;> omega
        obtain ⟨k, hk, hk0, hk1, hk2, hk3⟩ := hkdef
        rw [hk]
        rw [ih 0 _ _ _ hr (le_refl _) (by cases r <;> simp only [first_len] <;> [exact le_refl _;
          exact (lens_nonneg_tail _ _ hr).1]) (by omega)]
        rw [memcpy_eq_write_list _ _ _ _ _ hk0]
        have hlen : ((bytes_of m.sh.buffer (m.data + start) k).length : Int) = k := by
          rw [bytes_of_length]; omega
        have hw := write_list_append to_buf dst (bytes_of m.sh.buffer (m.data + start) k)
          (List.take (copy_len - k).toNat (List.drop (Int.toNat 0) (chain_bytes r)))
        rw [hlen] at hw
        rw [hw]
        have hA : List.take copy_len.toNat (List.drop start.toNat (frag_bytes m))
            = bytes_of m.sh.buffer (m.data + start) k := by
          rw [frag_bytes_eq]
          rcases hk3 with hk3 | hk3
          · rw [hk3, bytes_of_drop_take _ _ _ _ _ h0 h2 (by omega)]
          · rw [← bytes_of_drop_take _ _ (mbuf_len m) start k h0 hk0 (by omega)]
            rw [List.take_of_length_le (by simp [bytes_of_length]; omega),
              List.take_of_length_le (by simp [bytes_of_length]; omega)]
        have hB : copy_len.toNat - ((mbuf_len m).toNat - start.toNat) = (copy_len - k).toNat := by
          omega
        have e1 : List.take copy_len.toNat (List.drop start.toNat (chain_bytes (m :: r)))
            = bytes_of m.sh.buffer (m.data + start) k
              ++ List.take (copy_len - k).toNat (chain_bytes r) := by
          simp only [chain_bytes]
          rw [List.drop_append_of_le_length (by rw [frag_bytes_length]; omega),
            List.take_append_eq_append_take, List.length_drop, frag_bytes_length, hA, hB]
        have e2 : copy_len - k - min (copy_len - k) (chain_len r - 0)
            = copy_len - min copy_len (chain_len (m :: r) - start) := by
          simp only [chain_len]
          omega
        rw [e1, e2]
        simp only [Int.toNat_zero, List.drop_zero]
      · simp only [mbuf_copy_bits_loop, if_pos hpos, if_neg hav]
        rw [ih 0 _ _ _ hr (le_refl _) (by cases r <;> simp only [first_len] <;> [exact le_refl _;
          exact (lens_nonneg_tail _ _ hr).1]) h2]
        have hs : start = mbuf_len m := by omega
        congr 1
        · simp only [chain_bytes, Int.toNat_zero, List.drop_zero]
          rw [List.drop_append_eq_append_drop, List.drop_eq_nil_of_le
            (by rw [frag_bytes_length]; omega), List.nil_append, frag_bytes_length]
          have e : start.toNat - (mbuf_len m).toNat = 0 := by omega
          rw [e, List.drop_zero]
        · simp only [chain_len]
          omega
    · simp only [mbuf_copy_bits_loop, if_neg hpos]
      have hz : copy_len = 0 := by omega
      subst hz
      simp only [Int.toNat_zero, List.take_zero, write_list_nil, chain_len]
      congr 1
      omega

theorem mbuf_copy_bits_spec (chain : List mbuf) (offset : Int) (to_buf : Int → Nat) (len : Int)
    (hwf : lens_nonneg chain) (h0 : 0 ≤ offset) (hl : 0 ≤ len) :
    mbuf_copy_bits chain offset to_buf len =
      if offset < chain_len chain then
        (if offset + len ≤ chain_len chain then 0 else -1,
         write_list to_buf 0 (((chain_bytes chain).drop offset.toNat).take len.toNat))
      else (-1, to_buf) := by
  obtain ⟨s1, s2, s3⟩ := mbuf_copy_bits_seek_spec chain offset hwf h0
  unfold mbuf_copy_bits
  cases hs : mbuf_copy_bits_seek chain offset with
  | mk c1 start =>
    rw [hs] at s1 s2 s3
    simp only at s1 s2 s3
    by_cases hlt : offset < chain_len chain
    · rw [if_pos hlt]
      obtain ⟨j1, j2, j3, j4, j5⟩ := s3 hlt
      cases c1 with
      | nil => exact absurd rfl j1
      | cons m rest =>
        simp only
        rw [mbuf_copy_bits_loop_spec (m :: rest) start to_buf 0 len s1 j2 (le_of_lt j3) hl,
          ← j4, j5]
        simp only
        by_cases hfit : offset + len ≤ chain_len chain
        · rw [if_neg (by omega), if_pos hfit]
        · rw [if_pos (by omega), if_neg hfit]
    · rw [if_neg hlt]
      rw [s2 (by omega)]

/-- C19 (`mbuf_copy_bits` copies the logical byte range): for a chain whose
fragments have non-negative lengths, of total length `T = chain_len chain`, and
`offset >= 0`, `len >= 0`, the call returns `0` exactly when `offset < T` and
`offset + len <= T`, and `-1` otherwise; when it returns `0` the bytes
`to[0 .. len-1]` are the bytes `offset .. offset+len-1` of the concatenation
of the fragments' data and the rest of `to` is untouched.  (The function only
reads the chain, which therefore has no counterpart in the result.) -/
theorem copy_bits_range (chain : List mbuf) (offset : Int) (to_buf : Int → Nat) (len : Int)
    (hwf : ∀ m ∈ chain, 0 ≤ mbuf_len m) (h0 : 0 ≤ offset) (hl : 0 ≤ len) :
    ((chain_bytes chain).length : Int) = chain_len chain ∧
    ((mbuf_copy_bits chain offset to_buf len).1 = 0 ↔
      offset < chain_len chain ∧ offset + len ≤ chain_len chain) ∧
    ((mbuf_copy_bits chain offset to_buf len).1 ≠ 0 →
      (mbuf_copy_bits chain offset to_buf len).1 = -1) ∧
    ((mbuf_copy_bits chain offset to_buf len).1 = 0 →
      bytes_of (mbuf_copy_bits chain offset to_buf len).2 0 len
        = ((chain_bytes chain).drop offset.toNat).take len.toNat ∧
      ∀ i, (i < 0 ∨ len ≤ i) → (mbuf_copy_bits chain offset to_buf len).2 i = to_buf i) := by
  have hlen := chain_bytes_length chain hwf
  rw [mbuf_copy_bits_spec chain offset to_buf len hwf h0 hl]
  refine ⟨hlen, ?_, ?_, ?_⟩
  · by_cases hlt : offset < chain_len chain
    · rw [if_pos hlt]
      by_cases hfit : offset + len ≤ chain_len chain
      · simp only [if_pos hfit, true_iff]
        exact ⟨hlt, hfit⟩
      · simp only [if_neg hfit]
        constructor
        · intro h; exact absurd h (by decide)
        · intro h; exact absurd h.2 hfit
    · rw [if_neg hlt]
      simp only
      constructor
      · intro h; exact absurd h (by decide)
      · intro h; exact absurd h.1 hlt
  · by_cases hlt : offset < chain_len chain
    · rw [if_pos hlt]
      by_cases hfit : offset + len ≤ chain_len chain
      · simp only [if_pos hfit]
        intro h; exact absurd rfl h
      · simp only [if_neg hfit]
        intro _; trivial
    · rw [if_neg hlt]
      intro _; trivial
  · by_cases hlt : offset < chain_len chain
    · rw [if_pos hlt]
      by_cases hfit : offset + len ≤ chain_len chain
      · simp only [if_pos hfit]
        intro _
        have hL : ((((chain_bytes chain).drop offset.toNat).take len.toNat).length : Int) = len := by
          simp only [List.length_take, List.length_drop]
          omega
        constructor
        · have := bytes_of_write_list to_buf 0
            (((chain_bytes chain).drop offset.toNat).take len.toNat)
          rw [hL] at this
          exact this
        · intro i hi
          simp only [write_list]
          rw [if_neg (by omega)]
      · simp only [if_neg hfit]
        intro h; exact absurd h (by decide)
    · rw [if_neg hlt]
      simp only
      intro h; exact absurd h (by decide)

/-! ### Appending -/

theorem bytes_of_add (src : Int → Nat) (p a b : Int) (ha : 0 ≤ a) (hb : 0 ≤ b) :
    bytes_of src p (a + b) = bytes_of src p a ++ bytes_of src (p + a) b := by
  unfold bytes_of
  have e : (a + b).toNat = a.toNat + b.toNat := by omega
  rw [e, List.range_add, List.map_append, List.map_map]
  congr 1
  apply List.map_congr_left
  intro i _
  simp only [Function.comp]
  congr 1
  push_cast
  omega

theorem bytes_of_congr (f g : Int → Nat) (p n : Int)
    (h : ∀ i, p ≤ i → i < p + n → f i = g i) : bytes_of f p n = bytes_of g p n := by
  unfold bytes_of
  apply List.map_congr_left
  intro i hi
  have := List.mem_range.mp hi
  exact h _ (by omega) (by omega)

theorem chain_bytes_append (a b : List mbuf) :
    chain_bytes (a ++ b) = chain_bytes a ++ chain_bytes b := by
  induction a with
  | nil => rfl
  | cons m r ih =>
    show frag_bytes m ++ chain_bytes (r ++ b) = _
    rw [ih]
    simp only [chain_bytes, List.append_assoc]

theorem chain_len_append (a b : List mbuf) : chain_len (a ++ b) = chain_len a + chain_len b := by
  induction a with
  | nil => simp [chain_len]
  | cons m r ih =>
    show mbuf_len m + chain_len (r ++ b) = _
    rw [ih]
    simp only [chain_len]
    omega

theorem frag_bytes_after_copy (curr : mbuf) (buf : Int → Nat) (p n : Int)
    (hlen : 0 ≤ mbuf_len curr) (hn : 0 ≤ n) :
    frag_bytes { curr with
        sh := { curr.sh with buffer := memcpy curr.sh.buffer curr.tail buf p n },
        tail := curr.tail + n }
      = frag_bytes curr ++ bytes_of buf p n := by
  unfold mbuf_len at hlen
  rw [frag_bytes_eq, frag_bytes_eq]
  simp only [mbuf_len]
  have e : curr.tail + n - curr.data = (curr.tail - curr.data) + n := by omega
  rw [e, bytes_of_add _ _ _ _ hlen hn]
  congr 1
  · apply bytes_of_congr
    intro i h1 h2
    simp only [memcpy]
    rw [if_neg (by omega)]
  · have e2 : curr.data + (curr.tail - curr.data) = curr.tail := by omega
    rw [e2]
    have := memcpy_eq_write_list curr.sh.buffer curr.tail buf p n hn
    rw [this]
    have hb := bytes_of_write_list curr.sh.buffer curr.tail (bytes_of buf p n)
    rw [bytes_of_length] at hb
    have e3 : ((n.toNat : Nat) : Int) = n := by omega
    rw [e3] at hb
    exact hb

theorem mbuf_ensure_writable_owned (junk : Int → Nat) (m : mbuf) (h : m.sh.refcnt = 1) :
    mbuf_ensure_writable junk m = m := by
  unfold mbuf_ensure_writable
  simp only
  rw [if_pos h]

theorem add_pkt_len_spec (pre : List mbuf) (curr : mbuf) (n : Int) :
    chain_bytes ((add_pkt_len pre curr n).1 ++ [(add_pkt_len pre curr n).2])
      = chain_bytes (pre ++ [curr]) ∧
    head_pkt_len ((add_pkt_len pre curr n).1 ++ [(add_pkt_len pre curr n).2])
      = head_pkt_len (pre ++ [curr]) + n ∧
    (owned (pre ++ [curr]) → owned ((add_pkt_len pre curr n).1 ++ [(add_pkt_len pre curr n).2])) ∧
    (add_pkt_len pre curr n).1.length = pre.length ∧
    mbuf_tailroom (add_pkt_len pre curr n).2 = mbuf_tailroom curr := by
  cases pre with
  | nil =>
    refine ⟨rfl, rfl, ?_, rfl, rfl⟩
    intro h m hm
    simp only [add_pkt_len, List.nil_append, List.mem_singleton] at hm
    subst hm
    exact h curr (by simp)
  | cons h t =>
    refine ⟨rfl, rfl, ?_, rfl, rfl⟩
    intro ho m hm
    simp only [add_pkt_len, List.cons_append, List.mem_cons] at hm
    rcases hm with rfl | hm
    · exact ho h (by simp)
    · exact ho m (by simp only [List.cons_append, List.mem_cons]; exact Or.inr hm)

theorem head_pkt_len_congr (pre : List mbuf) (c d : mbuf) (h : c.pkt_len = d.pkt_len) :
    head_pkt_len (pre ++ [c]) = head_pkt_len (pre ++ [d]) := by
  cases pre with
  | nil => exact h
  | cons x t => rfl

theorem head_pkt_len_snoc (pre : List mbuf) (c d : mbuf) :
    head_pkt_len ((pre ++ [c]) ++ [d]) = head_pkt_len (pre ++ [c]) := by
  cases pre with
  | nil => rfl
  | cons x t => rfl

theorem owned_append (pre : List mbuf) (c : mbuf) :
    owned (pre ++ [c]) ↔ owned pre ∧ c.sh.refcnt = 1 ∧ 0 ≤ mbuf_len c := by
  constructor
  · intro h
    exact ⟨fun m hm => h m (List.mem_append_left _ hm), h c (by simp)⟩
  · rintro ⟨h1, h2⟩ m hm
    simp only [List.mem_append, List.mem_singleton] at hm
    rcases hm with hm | rfl
    · exact h1 m hm
    · exact h2

theorem mbuf_alloc_spec (junk : Int → Nat) (payload_size : Int) :
    (mbuf_alloc junk payload_size).sh.refcnt = 1 ∧ mbuf_len (mbuf_alloc junk payload_size) = 0 ∧
    mbuf_tailroom (mbuf_alloc junk payload_size) = payload_size ∧
    frag_bytes (mbuf_alloc junk payload_size) = [] ∧
    (mbuf_alloc junk payload_size).pkt_len = 0 := by
  refine ⟨rfl, ?_, ?_, ?_, rfl⟩
  · simp only [mbuf_len, mbuf_alloc]
    omega
  · simp only [mbuf_tailroom, mbuf_alloc, MBUF_HEADROOM]
    omega
  · have : mbuf_len (mbuf_alloc junk payload_size) = 0 := by
      simp only [mbuf_len, mbuf_alloc]
      omega
    simp only [frag_bytes, this, Int.toNat_zero, List.range_zero, List.map_nil]

theorem mbuf_append_large_loop_spec (junk buf : Int → Nat) :
    ∀ (fuel : Nat) (pre : List mbuf) (curr : mbuf) (p remain : Int),
      owned (pre ++ [curr]) → 0 ≤ remain →
      2 * remain + (if 0 < mbuf_tailroom curr then 0 else 1) ≤ (fuel : Int) →
      ∃ chain1, mbuf_append_large_loop junk buf fuel pre curr p remain = some chain1 ∧
        owned chain1 ∧
        chain_bytes chain1 = chain_bytes (pre ++ [curr]) ++ bytes_of buf p remain ∧
        head_pkt_len chain1 = head_pkt_len (pre ++ [curr]) + remain ∧
        pre.length + 1 ≤ chain1.length ∧
        (0 < remain → mbuf_tailroom curr ≤ 0 → pre.length + 2 ≤ chain1.length) := by
  intro fuel
  induction fuel with
  | zero =>
    intro pre curr p remain ho h0 hf
    have hz : remain = 0 := by
      simp only [Nat.cast_zero] at hf
      split at hf <;> omega
    subst hz
    refine ⟨pre ++ [curr], by simp only [mbuf_append_large_loop, lt_irrefl, if_false], ho, ?_, ?_,
      by simp, fun h => absurd h (lt_irrefl _)⟩
    · simp [bytes_of]
    · omega
  | succ fuel ih =>
    intro pre curr p remain ho h0 hf
    obtain ⟨hpre, hc1, hc2⟩ := (owned_append pre curr).mp ho
    by_cases hpos : 0 < remain
    · by_cases hroom : 0 < mbuf_tailroom curr
      · simp only [mbuf_append_large_loop, if_pos hpos, mbuf_ensure_writable_owned junk curr hc1,
          if_pos hroom]
        have hkdef : ∃ n : Int, (if remain < mbuf_tailroom curr then remain
            else mbuf_tailroom curr) = n ∧ 1 ≤ n ∧ n ≤ remain := by
          refine ⟨_, rfl, ?_, ?_⟩ <;> split <;> omega
        obtain ⟨n, hn, hn1, hn2⟩ := hkdef
        rw [hn]
        have hcopy := frag_bytes_after_copy curr buf p n hc2 (by omega)
        have ho2 : owned (pre ++ [{ curr with
            sh := { curr.sh with buffer := memcpy curr.sh.buffer curr.tail buf p n },
            tail := curr.tail + n }]) := by
          rw [owned_append]
          refine ⟨hpre, hc1, ?_⟩
          unfold mbuf_len at hc2 ⊢
          simp only
          omega
        obtain ⟨a1, a2, a3, a4, a5⟩ := add_pkt_len_spec pre { curr with
            sh := { curr.sh with buffer := memcpy curr.sh.buffer curr.tail buf p n },
            tail := curr.tail + n } n
        obtain ⟨chain1, e1, e2, e3, e4, e5, -⟩ := ih _ _ (p + n) (remain - n) (a3 ho2) (by omega)
          (by
            simp only [if_pos hroom] at hf
            push_cast at hf
            split <;> omega)
        refine ⟨chain1, e1, e2, ?_, ?_, by omega, fun _ h => absurd hroom (by omega)⟩
        · rw [e3, a1, chain_bytes_append, chain_bytes_append]
          simp only [chain_bytes, List.append_nil]
          have := bytes_of_add buf p n (remain - n) (by omega) (by omega)
          have e : n + (remain - n) = remain := by omega
          rw [e] at this
          rw [hcopy, this]
          simp only [List.append_assoc]
        · have hh := head_pkt_len_congr pre { curr with
            sh := { curr.sh with buffer := memcpy curr.sh.buffer curr.tail buf p n },
            tail := curr.tail + n } curr rfl
          rw [e4, a2, hh]
          omega
      · simp only [mbuf_append_large_loop, if_pos hpos, mbuf_ensure_writable_owned junk curr hc1,
          if_neg hroom]
        obtain ⟨b1, b2, b3, b4, b5⟩ := mbuf_alloc_spec junk 128
        have ho2 : owned ((pre ++ [curr]) ++ [mbuf_alloc junk 128]) := by
          rw [owned_append]
          exact ⟨ho, b1, by omega⟩
        obtain ⟨chain1, e1, e2, e3, e4, e5, -⟩ := ih (pre ++ [curr]) (mbuf_alloc junk 128) p remain
          ho2 h0 (by
            simp only [if_neg hroom] at hf
            push_cast at hf
            rw [b3]
            simp only [show (0 : Int) < 128 by decide, if_true]
            omega)
        refine ⟨chain1, e1, e2, ?_, ?_, ?_, fun _ _ => ?_⟩
        · rw [e3, chain_bytes_append (pre ++ [curr])]
          simp only [chain_bytes, b4, List.append_nil]
        · rw [e4, head_pkt_len_snoc pre curr (mbuf_alloc junk 128)]
        · simp only [List.length_append, List.length_singleton] at e5
          omega
        · simp only [List.length_append, List.length_singleton] at e5
          omega
    · have hz : remain = 0 := by omega
      subst hz
      refine ⟨pre ++ [curr], by simp only [mbuf_append_large_loop, lt_irrefl, if_false], ho, ?_, ?_,
        by simp, fun h => absurd h (lt_irrefl _)⟩
      · simp [bytes_of]
      · omega

theorem copy_bits_range_witness :
    (∀ m ∈ sample_chain, 0 ≤ mbuf_len m) ∧ (0 : Int) ≤ 1 ∧ (0 : Int) ≤ 6 ∧
    ((mbuf_copy_bits sample_chain 1 (fun _ => 0) 6).1 = 0 ↔
      1 < chain_len sample_chain ∧ 1 + 6 ≤ chain_len sample_chain) ∧
    ((mbuf_copy_bits sample_chain 1 (fun _ => 0) 6).1 = 0 →
      bytes_of (mbuf_copy_bits sample_chain 1 (fun _ => 0) 6).2 0 6
        = ((chain_bytes sample_chain).drop (1 : Int).toNat).take (6 : Int).toNat ∧
      ∀ i, (i < 0 ∨ 6 ≤ i) → (mbuf_copy_bits sample_chain 1 (fun _ => 0) 6).2 i = 0) :=
  ⟨by decide, by decide, by decide,
    (copy_bits_range sample_chain 1 (fun _ => 0) 6 (by decide) (by decide) (by decide)).2.1,
    (copy_bits_range sample_chain 1 (fun _ => 0) 6 (by decide) (by decide) (by decide)).2.2.2⟩

/-- C20 (append then read back): for a non-empty chain of exclusively owned
fragments (`refcnt == 1`) of non-negative lengths whose head has `pkt_len`
equal to the sum of the fragment lengths, and `len > 0`,
`mbuf_append_large(head, buf, len)` returns within `2 * len + 1` iterations of
its loop, increases `head->pkt_len` by exactly `len` and makes the logical
content the old content followed by `buf[0 .. len-1]`; then
`mbuf_copy_bits(head, old_pkt_len, out, len)` returns `0` and leaves
`out[0 .. len-1]` equal to `buf[0 .. len-1]`.  The chain never gets shorter and
gets at least one new fragment when the last fragment has no tailroom. -/
theorem append_then_read_back (fuel : Nat) (junk : Int → Nat) (chain : List mbuf)
    (buf : Int → Nat) (len : Int) (out : Int → Nat)
    (hne : chain ≠ []) (hown : ∀ m ∈ chain, m.sh.refcnt = 1 ∧ 0 ≤ mbuf_len m)
    (hpkt : head_pkt_len chain = chain_len chain) (hlen : 0 < len)
    (hfuel : 2 * len.toNat + 1 ≤ fuel) :
    ∃ chain1, mbuf_append_large fuel junk chain buf len = some chain1 ∧
      head_pkt_len chain1 = head_pkt_len chain + len ∧
      chain_bytes chain1 = chain_bytes chain ++ bytes_of buf 0 len ∧
      (mbuf_copy_bits chain1 (head_pkt_len chain) out len).1 = 0 ∧
      bytes_of (mbuf_copy_bits chain1 (head_pkt_len chain) out len).2 0 len
        = bytes_of buf 0 len ∧
      (∀ m ∈ chain1, m.sh.refcnt = 1 ∧ 0 ≤ mbuf_len m) ∧
      head_pkt_len chain1 = chain_len chain1 ∧
      chain.length ≤ chain1.length ∧
      (∀ last, chain.getLast? = some last → mbuf_tailroom last ≤ 0 →
        chain.length < chain1.length) := by
  have hl := List.getLast?_eq_getLast chain hne
  have hsplit := List.dropLast_append_getLast hne
  have ho : owned (chain.dropLast ++ [chain.getLast hne]) := by
    rw [hsplit]; exact hown
  obtain ⟨chain1, e1, e2, e3, e4, e5, e6⟩ := mbuf_append_large_loop_spec junk buf fuel
    chain.dropLast (chain.getLast hne) 0 len ho (le_of_lt hlen)
    (by split <;> omega)
  rw [hsplit] at e3 e4
  have hlens : lens_nonneg chain := fun m hm => (hown m hm).2
  have hlens1 : lens_nonneg chain1 := fun m hm => (e2 m hm).2
  have hT := chain_bytes_length chain hlens
  have hT1 := chain_bytes_length chain1 hlens1
  have hT0 := chain_len_nonneg chain hlens
  have hB : ((bytes_of buf 0 len).length : Int) = len := by
    rw [bytes_of_length]; omega
  have hsum : chain_len chain1 = chain_len chain + len := by
    rw [← hT1, e3, List.length_append, Nat.cast_add, hT, hB]
  have hcopy := mbuf_copy_bits_spec chain1 (head_pkt_len chain) out len hlens1
    (by omega) (le_of_lt hlen)
  rw [if_pos (by omega), if_pos (by omega)] at hcopy
  have hdrop : ((chain_bytes chain1).drop (head_pkt_len chain).toNat).take len.toNat
      = bytes_of buf 0 len := by
    rw [e3, List.drop_append_of_le_length (by omega)]
    have e : (head_pkt_len chain).toNat = (chain_bytes chain).length := by omega
    rw [e, List.drop_length, List.nil_append, List.take_of_length_le (by omega)]
  have hlenlast : chain.length = chain.dropLast.length + 1 := by
    rw [List.length_dropLast]
    have := List.length_pos.mpr hne
    omega
  refine ⟨chain1, ?_, e4, e3, ?_, ?_, e2, by omega, by omega, ?_⟩
  · unfold mbuf_append_large
    rw [hl]
    exact e1
  · rw [hcopy]
  · rw [hcopy, hdrop]
    have := bytes_of_write_list out 0 (bytes_of buf 0 len)
    rw [hB] at this
    exact this
  · intro last hlast hroom
    rw [hl] at hlast
    simp only [Option.some.injEq] at hlast
    rw [hlast] at e6
    have := e6 hlen hroom
    omega

theorem append_then_read_back_witness :
    sample_pkt ≠ [] ∧ (∀ m ∈ sample_pkt, m.sh.refcnt = 1 ∧ 0 ≤ mbuf_len m) ∧
    head_pkt_len sample_pkt = chain_len sample_pkt ∧ (0 : Int) < 6 ∧
    2 * (6 : Int).toNat + 1 ≤ 13 ∧
    ∃ chain1, mbuf_append_large 13 (fun _ => 0) sample_pkt sample_src 6 = some chain1 ∧
      head_pkt_len chain1 = head_pkt_len sample_pkt + 6 ∧
      chain_bytes chain1 = chain_bytes sample_pkt ++ bytes_of sample_src 0 6 ∧
      (mbuf_copy_bits chain1 (head_pkt_len sample_pkt) (fun _ => 0) 6).1 = 0 ∧
      bytes_of (mbuf_copy_bits chain1 (head_pkt_len sample_pkt) (fun _ => 0) 6).2 0 6
        = bytes_of sample_src 0 6 ∧
      (∀ m ∈ chain1, m.sh.refcnt = 1 ∧ 0 ≤ mbuf_len m) ∧
      head_pkt_len chain1 = chain_len chain1 ∧
      sample_pkt.length ≤ chain1.length ∧
      (∀ last, sample_pkt.getLast? = some last → mbuf_tailroom last ≤ 0 →
        sample_pkt.length < chain1.length) :=
  ⟨List.cons_ne_nil _ _, by decide, by decide, by decide, by decide,
    append_then_read_back 13 (fun _ => 0) sample_pkt sample_src 6 (fun _ => 0)
      (List.cons_ne_nil _ _) (by decide) (by decide) (by decide) (by decide)⟩

/-! ### Header pointer -/

theorem mbuf_copy_bits_seek_split (c : List mbuf) :
    ∀ start : Int, lens_nonneg c → 0 ≤ start → start < chain_len c →
      ∃ pre m post, c = pre ++ m :: post ∧ chain_len pre ≤ start ∧
        start < chain_len pre + mbuf_len m ∧
        mbuf_copy_bits_seek c start = (m :: post, start - chain_len pre) := by
  induction c with
  | nil =>
    intro start _ h0 h
    simp only [chain_len] at h
    omega
  | cons x r ih =>
    intro start hwf h0 h
    obtain ⟨hx, hr⟩ := lens_nonneg_tail x r hwf
    simp only [chain_len] at h
    by_cases hge : start ≥ mbuf_len x
    · obtain ⟨pre, m, post, e, h1, h2, h3⟩ := ih (start - mbuf_len x) hr (by omega) (by omega)
      refine ⟨x :: pre, m, post, by rw [e]; rfl, by simp only [chain_len]; omega,
        by simp only [chain_len]; omega, ?_⟩
      simp only [mbuf_copy_bits_seek, if_pos hge, h3, chain_len]
      congr 1
      omega
    · refine ⟨[], x, r, rfl, by simp only [chain_len]; omega, by simp only [chain_len]; omega, ?_⟩
      simp only [mbuf_copy_bits_seek, if_neg hge, chain_len]
      congr 1
      omega

theorem chain_bytes_drop_split (pre post : List mbuf) (m : mbuf) (offset : Int)
    (hwf : lens_nonneg (pre ++ m :: post)) (h1 : chain_len pre ≤ offset)
    (h2 : offset < chain_len pre + mbuf_len m) :
    (chain_bytes (pre ++ m :: post)).drop offset.toNat =
      (frag_bytes m).drop (offset - chain_len pre).toNat ++ chain_bytes post := by
  have hpre : lens_nonneg pre := fun x hx => hwf x (List.mem_append_left _ hx)
  have hlen := chain_bytes_length pre hpre
  have h0 := chain_len_nonneg pre hpre
  rw [chain_bytes_append, List.drop_append_eq_append_drop, List.drop_eq_nil_of_le (by omega),
    List.nil_append]
  simp only [chain_bytes]
  have e : offset.toNat - (chain_bytes pre).length = (offset - chain_len pre).toNat := by omega
  rw [e, List.drop_append_of_le_length (by rw [frag_bytes_length]; omega)]

/-- C21 (`mbuf_header_pointer` returns the requested bytes, zero-copy when
possible): for a chain whose fragments have non-negative lengths, of total
length `T = chain_len chain`, and `offset >= 0`, `len >= 0`: the result is
`NULL` when `offset >= T` or `offset + len > T`; otherwise the `len` bytes at
the returned pointer are the bytes `offset .. offset+len-1` of the
concatenated fragment data, and, `m` being the fragment that holds byte
`offset`, the pointer is `m->data + (offset - bytes before m)` with the scratch
buffer untouched when the range ends inside `m`, and is the scratch buffer
exactly when the range runs past the end of `m`. -/
theorem header_pointer_zero_copy (chain : List mbuf) (offset len : Int) (buffer : Int → Nat)
    (hwf : ∀ m ∈ chain, 0 ≤ mbuf_len m) (h0 : 0 ≤ offset) (hl : 0 ≤ len) :
    ((chain_len chain ≤ offset ∨ chain_len chain < offset + len) →
      (mbuf_header_pointer chain offset len buffer).1 = pointer.null) ∧
    (offset < chain_len chain → offset + len ≤ chain_len chain →
      pointer_bytes (mbuf_header_pointer chain offset len buffer).1
          (mbuf_header_pointer chain offset len buffer).2 len
        = ((chain_bytes chain).drop offset.toNat).take len.toNat ∧
      ∃ pre m post, chain = pre ++ m :: post ∧ chain_len pre ≤ offset ∧
        offset < chain_len pre + mbuf_len m ∧
        (offset + len ≤ chain_len pre + mbuf_len m →
          mbuf_header_pointer chain offset len buffer
            = (pointer.frag m (m.data + (offset - chain_len pre)), buffer)) ∧
        ((mbuf_header_pointer chain offset len buffer).1 = pointer.scratch ↔
          chain_len pre + mbuf_len m < offset + len)) := by
  have hcopy := mbuf_copy_bits_spec chain offset buffer len hwf h0 hl
  by_cases hlt : offset < chain_len chain
  · obtain ⟨pre, m, post, e, h1, h2, h3⟩ := mbuf_copy_bits_seek_split chain offset hwf h0 hlt
    have hwf2 : lens_nonneg (pre ++ m :: post) := e ▸ hwf
    have hm : 0 ≤ mbuf_len m := hwf2 m (by simp)
    have hpost : lens_nonneg post :=
      fun x hx => hwf2 x (List.mem_append_right _ (List.mem_cons_of_mem _ hx))
    have hpre : lens_nonneg pre := fun x hx => hwf2 x (List.mem_append_left _ hx)
    have hT : chain_len chain = chain_len pre + (mbuf_len m + chain_len post) := by
      rw [e, chain_len_append]; rfl
    have hpost0 := chain_len_nonneg post hpost
    rw [if_pos hlt] at hcopy
    by_cases hfast : mbuf_len m - (offset - chain_len pre) ≥ len
    · have hres : mbuf_header_pointer chain offset len buffer
          = (pointer.frag m (m.data + (offset - chain_len pre)), buffer) := by
        simp only [mbuf_header_pointer, h3, if_pos hfast]
      rw [hres]
      refine ⟨fun h => by omega, fun _ _ => ⟨?_, pre, m, post, e, h1, h2, fun _ => rfl, ?_⟩⟩
      · simp only [pointer_bytes]
        rw [e, chain_bytes_drop_split pre post m offset hwf2 h1 h2,
          List.take_append_of_le_length (by rw [List.length_drop, frag_bytes_length]; omega),
          frag_bytes_eq, bytes_of_drop_take _ _ _ _ _ (by omega) hl (by omega)]
      · constructor
        · intro h; exact absurd h (by simp)
        · intro h; omega
    · have hres : mbuf_header_pointer chain offset len buffer
          = (if (mbuf_copy_bits chain offset buffer len).1 < 0
              then (pointer.null, (mbuf_copy_bits chain offset buffer len).2)
              else (pointer.scratch, (mbuf_copy_bits chain offset buffer len).2)) := by
        simp only [mbuf_header_pointer, h3, if_neg hfast]
      by_cases hfit : offset + len ≤ chain_len chain
      · rw [if_pos hfit] at hcopy
        rw [hcopy] at hres
        simp only [show ¬ (0 : Int) < 0 by decide, if_false] at hres
        rw [hres]
        refine ⟨fun h => by omega, fun _ _ => ⟨?_, pre, m, post, e, h1, h2, fun h => by omega, ?_⟩⟩
        · simp only [pointer_bytes]
          have hL : ((((chain_bytes chain).drop offset.toNat).take len.toNat).length : Int)
              = len := by
            have := chain_bytes_length chain hwf
            simp only [List.length_take, List.length_drop]
            omega
          have := bytes_of_write_list buffer 0
            (((chain_bytes chain).drop offset.toNat).take len.toNat)
          rw [hL] at this
          exact this
        · simp only [true_iff]
          omega
      · rw [if_neg hfit] at hcopy
        rw [hcopy] at hres
        simp only [show (-1 : Int) < 0 by decide, if_true] at hres
        rw [hres]
        exact ⟨fun _ => rfl, fun _ h => absurd h hfit⟩
  · have hnil := (mbuf_copy_bits_seek_spec chain offset hwf h0).2.1 (by omega)
    have hres : mbuf_header_pointer chain offset len buffer = (pointer.null, buffer) := by
      unfold mbuf_header_pointer
      cases hs : mbuf_copy_bits_seek chain offset with
      | mk c1 s1 =>
        rw [hs] at hnil
        simp only at hnil
        subst hnil
        rfl
    rw [hres]
    exact ⟨fun _ => rfl, fun h => absurd h hlt⟩

theorem header_pointer_zero_copy_witness :
    (∀ m ∈ sample_chain, 0 ≤ mbuf_len m) ∧ (0 : Int) ≤ 3 ∧ (0 : Int) ≤ 4 ∧
    ((chain_len sample_chain ≤ 3 ∨ chain_len sample_chain < 3 + 7) →
      (mbuf_header_pointer sample_chain 3 7 (fun _ => 0)).1 = pointer.null) ∧
    ((3 : Int) < chain_len sample_chain → (3 : Int) + 4 ≤ chain_len sample_chain →
      pointer_bytes (mbuf_header_pointer sample_chain 3 4 (fun _ => 0)).1
          (mbuf_header_pointer sample_chain 3 4 (fun _ => 0)).2 4
        = ((chain_bytes sample_chain).drop (3 : Int).toNat).take (4 : Int).toNat ∧
      ∃ pre m post, sample_chain = pre ++ m :: post ∧ chain_len pre ≤ 3 ∧
        3 < chain_len pre + mbuf_len m ∧
        ((3 : Int) + 4 ≤ chain_len pre + mbuf_len m →
          mbuf_header_pointer sample_chain 3 4 (fun _ => 0)
            = (pointer.frag m (m.data + (3 - chain_len pre)), fun _ => 0)) ∧
        ((mbuf_header_pointer sample_chain 3 4 (fun _ => 0)).1 = pointer.scratch ↔
          chain_len pre + mbuf_len m < 3 + 4)) :=
  ⟨by decide, by decide, by decide,
    (header_pointer_zero_copy sample_chain 3 7 (fun _ => 0) (by decide) (by decide)
      (by decide)).1,
    (header_pointer_zero_copy sample_chain 3 4 (fun _ => 0) (by decide) (by decide)
      (by decide)).2⟩

/-! ### Pull and trim -/

theorem frag_bytes_drop (m : mbuf) (len : Int) (h0 : 0 ≤ len) (hle : len ≤ mbuf_len m) :
    bytes_of m.sh.buffer (m.data + len) (mbuf_len m - len) = (frag_bytes m).drop len.toNat := by
  rw [frag_bytes_eq, ← bytes_of_drop_take m.sh.buffer m.data (mbuf_len m) len (mbuf_len m - len)
    h0 (by omega) (by omega)]
  rw [List.take_of_length_le (by rw [List.length_drop, bytes_of_length]; omega)]

theorem frag_bytes_take (m : mbuf) (keep : Int) (h0 : 0 ≤ keep) (hle : keep ≤ mbuf_len m) :
    bytes_of m.sh.buffer m.data keep = (frag_bytes m).take keep.toNat := by
  rw [frag_bytes_eq]
  have := bytes_of_drop_take m.sh.buffer m.data (mbuf_len m) 0 keep (le_refl _) h0 (by omega)
  simp only [Int.toNat_zero, List.drop_zero, Int.add_zero] at this
  exact this.symm

/-- C22 (`mbuf_pull` strips the prefix of the head fragment or fails
atomically): for a packet with head `m` and `len >= 0`, when
`len > mbuf_len(m)` the call returns `NULL` and the chain is unchanged;
otherwise it returns the new `m->data`, which is the old `m->data + len`,
`m->pkt_len` is smaller by exactly `len`, the other fields of `m` and the later
fragments are unchanged, and the logical content is the old content without
its first `len` bytes. -/
theorem pull_strips_head (m : mbuf) (rest : List mbuf) (len : Int) (h0 : 0 ≤ len) :
    (len > mbuf_len m → mbuf_pull (m :: rest) len = some (pointer.null, m :: rest)) ∧
    (len ≤ mbuf_len m →
      ∃ m1, mbuf_pull (m :: rest) len = some (pointer.frag m1 m1.data, m1 :: rest) ∧
        m1.data = m.data + len ∧ m1.pkt_len = m.pkt_len - len ∧
        m1.tail = m.tail ∧ m1.head = m.head ∧ m1.end_ = m.end_ ∧ m1.sh = m.sh ∧
        mbuf_len m1 = mbuf_len m - len ∧
        chain_bytes (m1 :: rest) = (chain_bytes (m :: rest)).drop len.toNat) := by
  constructor
  · intro h
    simp only [mbuf_pull, if_pos h]
  · intro h
    refine ⟨{ m with data := m.data + len, pkt_len := m.pkt_len - len }, ?_, rfl, rfl, rfl, rfl,
      rfl, rfl, ?_, ?_⟩
    · simp only [mbuf_pull, if_neg (by omega : ¬ len > mbuf_len m)]
    · simp only [mbuf_len]
      omega
    · simp only [chain_bytes]
      rw [List.drop_append_of_le_length (by rw [frag_bytes_length]; omega),
        ← frag_bytes_drop m len h0 h]
      congr 1
      rw [frag_bytes_eq]
      simp only [mbuf_len]
      congr 1
      omega

theorem pull_strips_head_witness :
    (0 : Int) ≤ 2 ∧ (0 : Int) ≤ 5 ∧
    ((5 : Int) > mbuf_len (sample_frag 8 [170, 187, 204, 221]) →
      mbuf_pull (sample_frag 8 [170, 187, 204, 221] :: [sample_frag 0 [17, 34, 51, 68]]) 5
        = some (pointer.null,
            sample_frag 8 [170, 187, 204, 221] :: [sample_frag 0 [17, 34, 51, 68]])) ∧
    ((2 : Int) ≤ mbuf_len (sample_frag 8 [170, 187, 204, 221]) →
      ∃ m1, mbuf_pull (sample_frag 8 [170, 187, 204, 221] :: [sample_frag 0 [17, 34, 51, 68]]) 2
          = some (pointer.frag m1 m1.data, m1 :: [sample_frag 0 [17, 34, 51, 68]]) ∧
        m1.data = (sample_frag 8 [170, 187, 204, 221]).data + 2 ∧
        m1.pkt_len = (sample_frag 8 [170, 187, 204, 221]).pkt_len - 2 ∧
        m1.tail = (sample_frag 8 [170, 187, 204, 221]).tail ∧
        m1.head = (sample_frag 8 [170, 187, 204, 221]).head ∧
        m1.end_ = (sample_frag 8 [170, 187, 204, 221]).end_ ∧
        m1.sh = (sample_frag 8 [170, 187, 204, 221]).sh ∧
        mbuf_len m1 = mbuf_len (sample_frag 8 [170, 187, 204, 221]) - 2 ∧
        chain_bytes (m1 :: [sample_frag 0 [17, 34, 51, 68]])
          = (chain_bytes (sample_frag 8 [170, 187, 204, 221]
              :: [sample_frag 0 [17, 34, 51, 68]])).drop (2 : Int).toNat) :=
  ⟨by decide, by decide,
    (pull_strips_head (sample_frag 8 [170, 187, 204, 221]) [sample_frag 0 [17, 34, 51, 68]] 5
      (by decide)).1,
    (pull_strips_head (sample_frag 8 [170, 187, 204, 221]) [sample_frag 0 [17, 34, 51, 68]] 2
      (by decide)).2⟩

theorem mbuf_trim_scan_spec (c : List mbuf) :
    ∀ cur new_len : Int, lens_nonneg c → cur ≤ new_len → new_len < cur + chain_len c →
      ∃ pre cut post, c = pre ++ cut :: post ∧ cur + chain_len pre ≤ new_len ∧
        new_len < cur + chain_len pre + mbuf_len cut ∧
        mbuf_trim_scan c cur new_len
          = some (pre ++ [{ cut with tail := cut.data + (new_len - (cur + chain_len pre)) }]) := by
  induction c with
  | nil =>
    intro cur new_len _ h1 h2
    simp only [chain_len] at h2
    omega
  | cons x r ih =>
    intro cur new_len hwf h1 h2
    obtain ⟨hx, hr⟩ := lens_nonneg_tail x r hwf
    simp only [chain_len] at h2
    by_cases hcut : cur + mbuf_len x > new_len
    · refine ⟨[], x, r, rfl, ?_, ?_, ?_⟩
      · simp only [chain_len]
        omega
      · simp only [chain_len]
        omega
      · simp only [mbuf_trim_scan, if_pos hcut, chain_len, List.nil_append, Int.add_zero]
    · obtain ⟨pre, cut, post, e, a1, a2, a3⟩ :=
        ih (cur + mbuf_len x) new_len hr (by omega) (by omega)
      refine ⟨x :: pre, cut, post, ?_, ?_, ?_, ?_⟩
      · rw [e]
        rfl
      · simp only [chain_len]
        omega
      · simp only [chain_len]
        omega
      · simp only [mbuf_trim_scan, if_neg hcut, a3, chain_len, List.cons_append]
        have e1 : new_len - (cur + mbuf_len x + chain_len pre)
            = new_len - (cur + (mbuf_len x + chain_len pre)) := by omega
        rw [e1]

theorem chain_bytes_set_pkt_len (c : List mbuf) (n : Int) :
    chain_bytes (set_pkt_len c n) = chain_bytes c := by
  cases c with
  | nil => rfl
  | cons m r => rfl

theorem chain_len_set_pkt_len (c : List mbuf) (n : Int) :
    chain_len (set_pkt_len c n) = chain_len c := by
  cases c with
  | nil => rfl
  | cons m r => rfl

theorem length_set_pkt_len (c : List mbuf) (n : Int) : (set_pkt_len c n).length = c.length := by
  cases c with
  | nil => rfl
  | cons m r => rfl

theorem head_pkt_len_set_pkt_len (c : List mbuf) (n : Int) (h : c ≠ []) :
    head_pkt_len (set_pkt_len c n) = n := by
  cases c with
  | nil => exact absurd rfl h
  | cons m r => rfl

theorem chain_bytes_cut (pre post : List mbuf) (cut : mbuf) (new_len : Int)
    (hwf : lens_nonneg (pre ++ cut :: post)) (h1 : chain_len pre ≤ new_len)
    (h2 : new_len < chain_len pre + mbuf_len cut) :
    chain_bytes (pre ++ [{ cut with tail := cut.data + (new_len - chain_len pre) }])
      = (chain_bytes (pre ++ cut :: post)).take new_len.toNat := by
  have hpre : lens_nonneg pre := fun x hx => hwf x (List.mem_append_left _ hx)
  have hlen := chain_bytes_length pre hpre
  have hp0 := chain_len_nonneg pre hpre
  rw [chain_bytes_append, chain_bytes_append, List.take_append_eq_append_take,
    List.take_of_length_le (by omega)]
  congr 1
  simp only [chain_bytes, List.append_nil]
  rw [List.take_append_of_le_length (by rw [frag_bytes_length]; omega)]
  have e : new_len.toNat - (chain_bytes pre).length = (new_len - chain_len pre).toNat := by omega
  rw [e, ← frag_bytes_take cut (new_len - chain_len pre) (by omega) (by omega), frag_bytes_eq]
  simp only [mbuf_len]
  congr 1
  omega

/-- C23 (`mbuf_trim` truncates to the first `new_len` bytes): for a packet with
non-negative fragment lengths whose `pkt_len` is the sum of its fragment
lengths and `new_len >= 0`, the call returns 0; when `new_len >= pkt_len` the
packet is unchanged; otherwise the concatenated fragment data afterwards is the
first `new_len` bytes of the old content, the head has `pkt_len = new_len`, and
the chain ends at the fragment `cut` that holds the cut point (the fragments
`post` after it are gone, those before it are kept). -/
theorem trim_truncates (m : mbuf) (rest : List mbuf) (new_len : Int)
    (hwf : lens_nonneg (m :: rest)) (hpk : m.pkt_len = chain_len (m :: rest))
    (h0 : 0 ≤ new_len) :
    ∃ c1, mbuf_trim (m :: rest) new_len = some (0, c1) ∧
      (new_len ≥ m.pkt_len → c1 = m :: rest) ∧
      (new_len < m.pkt_len →
        chain_bytes c1 = (chain_bytes (m :: rest)).take new_len.toNat ∧
        head_pkt_len c1 = new_len ∧ chain_len c1 = new_len ∧
        ∃ pre cut post, m :: rest = pre ++ cut :: post ∧ chain_len pre ≤ new_len ∧
          new_len < chain_len pre + mbuf_len cut ∧
          c1 = set_pkt_len
            (pre ++ [{ cut with tail := cut.data + (new_len - chain_len pre) }]) new_len ∧
          c1.length = pre.length + 1) := by
  by_cases hge : new_len ≥ m.pkt_len
  · refine ⟨m :: rest, ?_, fun _ => rfl, fun h => ?_⟩
    · simp only [mbuf_trim, if_pos hge]
    · omega
  · obtain ⟨pre, cut, post, e, a1, a2, a3⟩ :=
      mbuf_trim_scan_spec (m :: rest) 0 new_len hwf h0 (by omega)
    simp only [Int.zero_add] at a1 a2 a3
    refine ⟨set_pkt_len
      (pre ++ [{ cut with tail := cut.data + (new_len - chain_len pre) }]) new_len, ?_,
      fun h => absurd h hge, fun _ => ⟨?_, ?_, ?_, pre, cut, post, e, a1, a2, rfl, ?_⟩⟩
    · simp only [mbuf_trim, if_neg hge, a3]
    · rw [chain_bytes_set_pkt_len, e]
      exact chain_bytes_cut pre post cut new_len (e ▸ hwf) a1 a2
    · exact head_pkt_len_set_pkt_len _ _ (by simp)
    · rw [chain_len_set_pkt_len, chain_len_append]
      simp only [chain_len, mbuf_len]
      omega
    · rw [length_set_pkt_len]
      simp

theorem trim_truncates_witness :
    lens_nonneg (sample_frag 8 [170, 187, 204, 221] :: [sample_frag 0 [17, 34, 51, 68]]) ∧
    (sample_frag 8 [170, 187, 204, 221]).pkt_len
      = chain_len (sample_frag 8 [170, 187, 204, 221] :: [sample_frag 0 [17, 34, 51, 68]]) ∧
    (0 : Int) ≤ 5 ∧
    ∃ c1, mbuf_trim (sample_frag 8 [170, 187, 204, 221] :: [sample_frag 0 [17, 34, 51, 68]]) 5
        = some (0, c1) ∧
      ((5 : Int) ≥ (sample_frag 8 [170, 187, 204, 221]).pkt_len →
        c1 = sample_frag 8 [170, 187, 204, 221] :: [sample_frag 0 [17, 34, 51, 68]]) ∧
      ((5 : Int) < (sample_frag 8 [170, 187, 204, 221]).pkt_len →
        chain_bytes c1 = (chain_bytes (sample_frag 8 [170, 187, 204, 221]
          :: [sample_frag 0 [17, 34, 51, 68]])).take (5 : Int).toNat ∧
        head_pkt_len c1 = 5 ∧ chain_len c1 = 5 ∧
        ∃ pre cut post,
          sample_frag 8 [170, 187, 204, 221] :: [sample_frag 0 [17, 34, 51, 68]]
            = pre ++ cut :: post ∧ chain_len pre ≤ 5 ∧
          5 < chain_len pre + mbuf_len cut ∧
          c1 = set_pkt_len
            (pre ++ [{ cut with tail := cut.data + (5 - chain_len pre) }]) 5 ∧
          c1.length = pre.length + 1) :=
  ⟨by
      intro x hx
      simp only [List.mem_cons, List.mem_singleton, List.not_mem_nil, or_false] at hx
      rcases hx with rfl | rfl <;> decide,
    by decide, by decide,
    trim_truncates (sample_frag 8 [170, 187, 204, 221]) [sample_frag 0 [17, 34, 51, 68]] 5
      (by
        intro x hx
        simp only [List.mem_cons, List.mem_singleton, List.not_mem_nil, or_false] at hx
        rcases hx with rfl | rfl <;> decide)
      (by decide) (by decide)⟩

end Packet
